import Mathlib

/-!
GoldFish: the SAX copy engine, the checked reader protocol and the variant.

A shallow embedding of `inc/goldfish/sax_writer.h` (`copy_stream`,
`copy_sax_document`) together with the reader and writer collaborators the
two templates are instantiated with, and of `inc/goldfish/variant.h`, with
the properties proved about them.
-/

namespace goldfish

/-! ## Abstract document model -/

/-- Modelled from the spec: one octet of a blob (§3.3). Its numeric value is never inspected
by the copy engine. -/
abbrev Byte := Nat

/-- Modelled from the spec: the two blob tags `tags::binary` and `tags::string` of `tags.h`,
which is not among the sources (§3.1). -/
inductive BlobTag
  | binary
  | string
  deriving DecidableEq, Repr

/-- Modelled from the spec: the six scalar kinds of `tags.h` with their payloads (§3.1). A
double is carried as its bit pattern. -/
inductive Scalar
  | null
  | boolean (b : Bool)
  | unsigned_int (n : Nat)
  | signed_int (i : Int)
  | floating_point (bits : Nat)
  | undefined
  deriving DecidableEq, Repr

/-- Modelled from the spec: the abstract document of §3.1 and §3.2, a scalar, a blob, an
array of documents or a map of key/value pairs, arbitrarily nested. -/
inductive Doc
  | scalar (v : Scalar)
  | blob (tag : BlobTag) (bytes : List Byte)
  | array (elems : List Doc)
  | map (pairs : List (Doc × Doc))
  deriving Repr

/-- Modelled from the spec: the errors an operation can raise (§7), and the exhaustion of
the recursion budget of the embedding (`fuel` is not an error of the library). -/
inductive Fault
  | library_misused
  | ill_formed
  | fuel
  deriving DecidableEq, Repr

/-- Modelled from the spec: the reader-side document handed to `copy_sax_document` (§3.2),
the variant over the ten tags, a scalar carrying its value and the other four a sub-reader
handle. -/
inductive Document (B A M : Type)
  | binary (x : B)
  | string (x : B)
  | array (x : A)
  | map (x : M)
  | undefined
  | floating_point (x : Nat)
  | unsigned_int (x : Nat)
  | signed_int (x : Int)
  | boolean (x : Bool)
  | null
  deriving Repr

/-- Modelled from the spec: the reader-side document of a scalar (§3.2), the variant holding
the value itself. -/
def Scalar.document {B A M : Type} : Scalar → Document B A M
  | .null => .null
  | .boolean b => .boolean b
  | .unsigned_int n => .unsigned_int n
  | .signed_int i => .signed_int i
  | .floating_point x => .floating_point x
  | .undefined => .undefined

/-- Modelled from the spec: the operations `copy_stream` and `copy_sax_document` invoke on
their `Stream` and `Document` template parameters (§3.3, §3.4). A handle is passed by
reference in the source, so every operation returns the handle after the call, and `σ` is
whatever state the handles share (none for a plain reader, the gates for a checked one).
`read_buffer x n` fills a buffer of `n` bytes and returns the bytes it stored. -/
structure Reader (σ B A M : Type) where
  read_buffer : B → Nat → σ → Except Fault (List Byte × B × σ)
  read : A → σ → Except Fault (Option (Document B A M) × A × σ)
  read_key : M → σ → Except Fault (Option (Document B A M) × M × σ)
  read_value : M → σ → Except Fault (Document B A M × M × σ)

/-! ## The recording writer -/

/-- Modelled from the spec: the name of a writer object of the recording writer. The root
document writer is `[]`, and the object a writer returns from a call extends the name of
that writer. -/
abbrev WriterId := List Nat

/-- Modelled from the spec: the calls the copy engine makes on writer objects (§4.4). -/
inductive WriterOp
  | write (v : Scalar)
  | write_blob (tag : BlobTag) (cb : Nat)
  | write_stream (tag : BlobTag)
  | write_array
  | write_map
  | write_buffer (chunk : List Byte)
  | append
  | append_key
  | append_value
  | flush
  deriving DecidableEq, Repr

/-- Modelled from the spec: one recorded call, the writer object it was made on, and the
call. -/
structure Event where
  target : WriterId
  op : WriterOp
  deriving DecidableEq, Repr

/-- Modelled from the spec: an array or map writer of the recording writer, its name and how
many sub-writers it has handed out. -/
structure ContainerWriter where
  id : WriterId
  count : Nat
  deriving DecidableEq, Repr

namespace Recorder

/-- Modelled from the spec: the `Writer` template parameter of the copy engine, as a writer
that records every call it receives (§3.5, §4.4). `writer.write(x)` for a scalar. -/
def write (writer : WriterId) (v : Scalar) (log : List Event) : List Event :=
  log ++ [⟨writer, .write v⟩]

/-- Modelled from the spec: the recorded `writer.write(tag, cb)` (§4.4); returns the
definite-length output stream. -/
def write_blob (writer : WriterId) (tag : BlobTag) (cb : Nat) (log : List Event) :
    WriterId × List Event :=
  (writer ++ [0], log ++ [⟨writer, .write_blob tag cb⟩])

/-- Modelled from the spec: the recorded `writer.write(tag)` (§4.4); returns the
indefinite-length output stream. -/
def write_stream (writer : WriterId) (tag : BlobTag) (log : List Event) :
    WriterId × List Event :=
  (writer ++ [0], log ++ [⟨writer, .write_stream tag⟩])

/-- Modelled from the spec: the recorded `output_stream.write_buffer(chunk)` (§4.4). -/
def write_buffer (output_stream : WriterId) (chunk : List Byte) (log : List Event) :
    List Event :=
  log ++ [⟨output_stream, .write_buffer chunk⟩]

/-- Modelled from the spec: the recorded `flush()` on an output stream, an array writer or a
map writer. -/
def flush (w : WriterId) (log : List Event) : List Event :=
  log ++ [⟨w, .flush⟩]

/-- Modelled from the spec: the recorded `writer.write(tags::array{})` (§4.4); returns the
array writer. -/
def write_array (writer : WriterId) (log : List Event) : ContainerWriter × List Event :=
  (⟨writer ++ [0], 0⟩, log ++ [⟨writer, .write_array⟩])

/-- Modelled from the spec: the recorded `writer.write(tags::map{})` (§4.4); returns the map
writer. -/
def write_map (writer : WriterId) (log : List Event) : ContainerWriter × List Event :=
  (⟨writer ++ [0], 0⟩, log ++ [⟨writer, .write_map⟩])

/-- Modelled from the spec: the recorded `array_writer.append()` (§3.5); returns the
document writer of the next element. -/
def append (w : ContainerWriter) (log : List Event) :
    WriterId × ContainerWriter × List Event :=
  (w.id ++ [w.count], ⟨w.id, w.count + 1⟩, log ++ [⟨w.id, .append⟩])

/-- Modelled from the spec: the recorded `map_writer.append_key()` (§3.5); returns the
document writer of the next key. -/
def append_key (w : ContainerWriter) (log : List Event) :
    WriterId × ContainerWriter × List Event :=
  (w.id ++ [w.count], ⟨w.id, w.count + 1⟩, log ++ [⟨w.id, .append_key⟩])

/-- Modelled from the spec: the recorded `map_writer.append_value()` (§3.5); returns the
document writer of the next value. -/
def append_value (w : ContainerWriter) (log : List Event) :
    WriterId × ContainerWriter × List Event :=
  (w.id ++ [w.count], ⟨w.id, w.count + 1⟩, log ++ [⟨w.id, .append_value⟩])

end Recorder

/-! ## `sax_writer.h` -/

/-- The size of the stack buffer of `copy_stream`: `sizeof(buffer)` for `uint8_t buffer[8 *
1024]`. -/
def buffer_size : Nat := 8 * 1024

section copy
variable {σ B A M : Type}

/-- The `do ... while (cb == sizeof(buffer))` loop of `copy_stream`: pull, write the pulled
bytes, repeat while the pull filled the buffer. -/
def copy_stream_loop (R : Reader σ B A M) (output_stream : WriterId) :
    Nat → B → σ × List Event → Except Fault (B × σ × List Event)
  | 0, _, _ => .error .fuel
  | fuel + 1, s, (rs, log) => do
    let (buffer, s, rs) ← R.read_buffer s buffer_size rs
    let cb := buffer.length
    let log := Recorder.write_buffer output_stream buffer log
    if cb = buffer_size then
      copy_stream_loop R output_stream fuel s (rs, log)
    else
      pure (s, rs, log)

/-- The template `copy_stream(s, writer, tag)`. In the `else` branch the first
`write_buffer(buffer)` writes the whole buffer, that is `buffer_size` bytes. -/
def copy_stream (R : Reader σ B A M) (fuel : Nat) (s : B) (writer : WriterId)
    (tag : BlobTag) (st : σ × List Event) : Except Fault (B × σ × List Event) := do
  let (buffer, s, rs) ← R.read_buffer s buffer_size st.1
  let cb := buffer.length
  if cb < buffer_size then
    let (output_stream, log) := Recorder.write_blob writer tag cb st.2
    let log := Recorder.write_buffer output_stream buffer log
    let log := Recorder.flush output_stream log
    pure (s, rs, log)
  else
    let (output_stream, log) := Recorder.write_stream writer tag st.2
    let log := Recorder.write_buffer output_stream (buffer.take buffer_size) log
    let (s, rs, log) ← copy_stream_loop R output_stream fuel s (rs, log)
    let log := Recorder.flush output_stream log
    pure (s, rs, log)

mutual
/-- The template `copy_sax_document(writer, document)`: one arm per tag, in the order of the
source. -/
def copy_sax_document (R : Reader σ B A M) :
    Nat → WriterId → Document B A M → σ × List Event → Except Fault (σ × List Event)
  | 0, _, _, _ => .error .fuel
  | fuel + 1, writer, document, st =>
    match document with
    | .binary x => do
      let (_, rs, log) ← copy_stream R fuel x writer .binary st
      pure (rs, log)
    | .string x => do
      let (_, rs, log) ← copy_stream R fuel x writer .string st
      pure (rs, log)
    | .array x => do
      let (array_writer, log) := Recorder.write_array writer st.2
      let (array_writer, rs, log) ← copy_array_elements R fuel x array_writer (st.1, log)
      pure (rs, Recorder.flush array_writer.id log)
    | .map x => do
      let (map_writer, log) := Recorder.write_map writer st.2
      let (map_writer, rs, log) ← copy_map_pairs R fuel x map_writer (st.1, log)
      pure (rs, Recorder.flush map_writer.id log)
    | .undefined => pure (st.1, Recorder.write writer .undefined st.2)
    | .floating_point x => pure (st.1, Recorder.write writer (.floating_point x) st.2)
    | .unsigned_int x => pure (st.1, Recorder.write writer (.unsigned_int x) st.2)
    | .signed_int x => pure (st.1, Recorder.write writer (.signed_int x) st.2)
    | .boolean x => pure (st.1, Recorder.write writer (.boolean x) st.2)
    | .null => pure (st.1, Recorder.write writer .null st.2)
/-- The loop `while (auto element = x.read()) copy_sax_document(array_writer.append(),
*element);` of the array arm. -/
def copy_array_elements (R : Reader σ B A M) :
    Nat → A → ContainerWriter → σ × List Event →
      Except Fault (ContainerWriter × σ × List Event)
  | 0, _, _, _ => .error .fuel
  | fuel + 1, x, array_writer, (rs, log) => do
    let (element, x, rs) ← R.read x rs
    match element with
    | none => pure (array_writer, rs, log)
    | some element =>
      let (w, array_writer, log) := Recorder.append array_writer log
      let st ← copy_sax_document R fuel w element (rs, log)
      copy_array_elements R fuel x array_writer st
/-- The loop `while (auto key = x.read_key()) { ... }` of the map arm; the arguments of the
second call are evaluated left to right. -/
def copy_map_pairs (R : Reader σ B A M) :
    Nat → M → ContainerWriter → σ × List Event →
      Except Fault (ContainerWriter × σ × List Event)
  | 0, _, _, _ => .error .fuel
  | fuel + 1, x, map_writer, (rs, log) => do
    let (key, x, rs) ← R.read_key x rs
    match key with
    | none => pure (map_writer, rs, log)
    | some key =>
      let (w, map_writer, log) := Recorder.append_key map_writer log
      let (rs, log) ← copy_sax_document R fuel w key (rs, log)
      let (w, map_writer, log) := Recorder.append_value map_writer log
      let (value, x, rs) ← R.read_value x rs
      let st ← copy_sax_document R fuel w value (rs, log)
      copy_map_pairs R fuel x map_writer st
end

end copy

/-! ## A reader over an abstract document -/

/-- Modelled from the spec: the state of a plain map reader (§3.4), the value of the key
handed out last, if its value was not read yet, and the pairs still to come. -/
abbrev PlainMap := Option Doc × List (Doc × Doc)

/-- Modelled from the spec: the reader-side document of an abstract document (§3.2); a
scalar carries its value, a blob the bytes still unread, an array the elements still to
come, a map its pairs. -/
def Doc.view : Doc → Document (List Byte) (List Doc) PlainMap
  | .scalar v => v.document
  | .blob .binary bytes => .binary bytes
  | .blob .string bytes => .string bytes
  | .array elems => .array elems
  | .map pairs => .map (none, pairs)

/-- Modelled from the spec: the reader a document is read through (§3.3, §3.4, §6.1), the
`Stream` and `Document` template parameters of the copy engine. A blob pull returns up to
`n` bytes and is short only at the end of the blob; an array yields its elements and then
`none`; a map yields a key, then its value, and `none` at its end. -/
def plain : Reader Unit (List Byte) (List Doc) PlainMap where
  read_buffer := fun x n rs => .ok (x.take n, x.drop n, rs)
  read := fun x rs =>
    match x with
    | [] => .ok (none, [], rs)
    | d :: ds => .ok (some d.view, ds, rs)
  read_key := fun x rs =>
    match x.2 with
    | [] => .ok (none, (none, []), rs)
    | (k, v) :: rest => .ok (some k.view, (some v, rest), rs)
  read_value := fun x rs =>
    match x.1 with
    | some v => .ok (v.view, (none, x.2), rs)
    | none => .error .ill_formed

/-! ## What a recorded event sequence denotes -/

/-- The bytes written to the output stream `out` up to its `flush`: the concatenation of the
chunks, and the events after the `flush`. -/
def decode_chunks (out : WriterId) : List Event → Option (List Byte × List Event)
  | [] => none
  | e :: es =>
    if e.target = out then
      match e.op with
      | .write_buffer chunk =>
        match decode_chunks out es with
        | some (bytes, rest) => some (chunk ++ bytes, rest)
        | none => none
      | .flush => some ([], es)
      | _ => none
    else none

mutual
/-- The document the events received by the document writer `w` denote, and the events after
it. A definite-length blob must receive exactly the declared number of bytes. -/
def decode : Nat → WriterId → List Event → Option (Doc × List Event)
  | 0, _, _ => none
  | _ + 1, _, [] => none
  | fuel + 1, w, e :: es =>
    if e.target = w then
      match e.op with
      | .write v => some (.scalar v, es)
      | .write_blob tag cb =>
        match decode_chunks (w ++ [0]) es with
        | some (bytes, rest) => if bytes.length = cb then some (.blob tag bytes, rest) else none
        | none => none
      | .write_stream tag =>
        match decode_chunks (w ++ [0]) es with
        | some (bytes, rest) => some (.blob tag bytes, rest)
        | none => none
      | .write_array =>
        match decode_elements fuel ⟨w ++ [0], 0⟩ es with
        | some (elems, rest) => some (.array elems, rest)
        | none => none
      | .write_map =>
        match decode_pairs fuel ⟨w ++ [0], 0⟩ es with
        | some (pairs, rest) => some (.map pairs, rest)
        | none => none
      | _ => none
    else none
/-- The elements an array writer receives up to its `flush`: each `append` is followed by
the events of one document, written to the writer that `append` returned. -/
def decode_elements : Nat → ContainerWriter → List Event → Option (List Doc × List Event)
  | 0, _, _ => none
  | _ + 1, _, [] => none
  | fuel + 1, aw, e :: es =>
    if e.target = aw.id then
      match e.op with
      | .flush => some ([], es)
      | .append =>
        match decode fuel (aw.id ++ [aw.count]) es with
        | some (d, rest) =>
          match decode_elements fuel ⟨aw.id, aw.count + 1⟩ rest with
          | some (ds, rest) => some (d :: ds, rest)
          | none => none
        | none => none
      | _ => none
    else none
/-- The pairs a map writer receives up to its `flush`: `append_key`, one document,
`append_value`, one document, repeated. -/
def decode_pairs : Nat → ContainerWriter → List Event → Option (List (Doc × Doc) × List Event)
  | 0, _, _ => none
  | _ + 1, _, [] => none
  | fuel + 1, mw, e :: es =>
    if e.target = mw.id then
      match e.op with
      | .flush => some ([], es)
      | .append_key =>
        match decode fuel (mw.id ++ [mw.count]) es with
        | some (k, rest) =>
          match rest with
          | [] => none
          | e :: es =>
            if e.target = mw.id ∧ e.op = .append_value then
              match decode fuel (mw.id ++ [mw.count + 1]) es with
              | some (v, rest) =>
                match decode_pairs fuel ⟨mw.id, mw.count + 2⟩ rest with
                | some (ps, rest) => some ((k, v) :: ps, rest)
                | none => none
              | none => none
            else none
        | none => none
      | _ => none
    else none
end

/-- The document an event sequence written to the document writer `w` denotes: the sequence
must be exactly the events of one document. -/
def denotes (w : WriterId) (log : List Event) : Option Doc :=
  match decode log.length w log with
  | some (d, []) => some d
  | _ => none

/-! ## Recursion budget -/

mutual
/-- A recursion budget that suffices to copy the document. -/
def Doc.fuel : Doc → Nat
  | .scalar _ => 1
  | .blob _ bytes => bytes.length / buffer_size + 2
  | .array elems => fuel_elements elems + 1
  | .map pairs => fuel_pairs pairs + 1
/-- A recursion budget that suffices for the element loop. -/
def fuel_elements : List Doc → Nat
  | [] => 1
  | d :: ds => d.fuel + fuel_elements ds + 1
/-- A recursion budget that suffices for the pair loop. -/
def fuel_pairs : List (Doc × Doc) → Nat
  | [] => 1
  | (k, v) :: ps => k.fuel + v.fuel + fuel_pairs ps + 1
end
/-! ## The events a document is copied to -/

/-- The `i`-th buffer-sized slice of a blob: the bytes the `i`-th pull returns. -/
def chunk (bytes : List Byte) (i : Nat) : List Byte :=
  (bytes.drop (i * buffer_size)).take buffer_size

/-- The `write_buffer` calls of an indefinite-length copy of `bytes` to `out`. -/
def chunk_events (out : WriterId) (bytes : List Byte) : List Event :=
  (List.range (bytes.length / buffer_size + 1)).map
    (fun i => (⟨out, .write_buffer (chunk bytes i)⟩ : Event))

/-- The events `copy_stream` records for a blob, by the two framings. -/
def blob_events (tag : BlobTag) (bytes : List Byte) (w : WriterId) : List Event :=
  if bytes.length < buffer_size then
    [⟨w, .write_blob tag bytes.length⟩, ⟨w ++ [0], .write_buffer bytes⟩, ⟨w ++ [0], .flush⟩]
  else
    ⟨w, .write_stream tag⟩ :: chunk_events (w ++ [0]) bytes ++ [⟨w ++ [0], .flush⟩]

mutual
/-- The events `copy_sax_document` records when it copies the document to the document
writer `w`. -/
def Doc.events : Doc → WriterId → List Event
  | .scalar v, w => [⟨w, .write v⟩]
  | .blob tag bytes, w => blob_events tag bytes w
  | .array elems, w =>
    ⟨w, .write_array⟩ :: element_events elems (w ++ [0]) 0 ++ [⟨w ++ [0], .flush⟩]
  | .map pairs, w =>
    ⟨w, .write_map⟩ :: pair_events pairs (w ++ [0]) 0 ++ [⟨w ++ [0], .flush⟩]
/-- The events of the element loop on the array writer `aw` that has handed out `n`
sub-writers. -/
def element_events : List Doc → WriterId → Nat → List Event
  | [], _, _ => []
  | d :: ds, aw, n => ⟨aw, .append⟩ :: d.events (aw ++ [n]) ++ element_events ds aw (n + 1)
/-- The events of the pair loop on the map writer `mw` that has handed out `n` sub-writers.
-/
def pair_events : List (Doc × Doc) → WriterId → Nat → List Event
  | [], _, _ => []
  | (k, v) :: ps, mw, n =>
    ⟨mw, .append_key⟩ :: k.events (mw ++ [n]) ++
      (⟨mw, .append_value⟩ :: v.events (mw ++ [n + 1]) ++ pair_events ps mw (n + 2))
end


/-! ## The checked reader -/

/-- Modelled from the spec: the alternation state of a checked map reader (§4.7). -/
inductive Alternation
  | expect_key
  | expect_value
  | done
  deriving DecidableEq, Repr

/-- Modelled from the spec: what a sub-reader still has to yield (§3.3, §3.4): the unread
bytes of a blob, the elements of an array still to come, the pairs of a map still to come
(the head pair is the one whose key was handed out when the map expects a value), and
whether its end was signalled. -/
inductive Body
  | blob (rest : List Byte) (ended : Bool)
  | array (rest : List Doc) (ended : Bool)
  | map (rest : List (Doc × Doc)) (alt : Alternation)
  deriving Repr

/-- Modelled from the spec: a checked sub-reader of `debug_checks_reader.h`, which is not
among the sources (§4.7): the handle of its parent (none for the top-level document), its
own gate, and its content. Handles are named by their position in the list of all handles
created so far. -/
structure Handle where
  parent : Option Nat
  armed : Bool
  body : Body
  deriving Repr

/-- Modelled from the spec: a sub-reader is finalized once its end was signalled to the
caller (§3.6, §4.7). -/
def Body.finalized : Body → Bool
  | .blob _ ended => ended
  | .array _ ended => ended
  | .map _ alt => decide (alt = .done)

/-- Whether a reader-side document is a sub-reader handle rather than a scalar value. -/
def Document.is_sub_reader {B A M : Type} : Document B A M → Bool
  | .binary _ => true
  | .string _ => true
  | .array _ => true
  | .map _ => true
  | _ => false

namespace checked

/-- Modelled from the spec: arming or disarming the gate of the handle `p`, if there is one
(§4.7). -/
def gate (hs : List Handle) (p : Option Nat) (armed : Bool) : List Handle :=
  match p with
  | none => hs
  | some p =>
    match hs[p]? with
    | some h => hs.set p { h with armed := armed }
    | none => hs

/-- Modelled from the spec: `debug_checks_reader.h`, which is not among the sources (§3.5,
§4.7 and the cases of `tests/debug_checks_reader.cpp`). Creation of a child sub-reader with
the given content: it disarms the parent, and the child is armed. -/
def spawn (hs : List Handle) (parent : Option Nat) (body : Body) : List Handle :=
  gate hs parent false ++ [⟨parent, true, body⟩]

/-- Modelled from the spec: a document as the reader hands it to the caller (§3.2). A scalar
is a plain value and leaves the gates alone; a blob, an array or a map is a new child
sub-reader of `parent`. -/
def hand_out (hs : List Handle) (parent : Option Nat) : Doc → Document Nat Nat Nat × List Handle
  | .scalar v => (v.document, hs)
  | .blob .binary bytes => (.binary hs.length, spawn hs parent (.blob bytes false))
  | .blob .string bytes => (.string hs.length, spawn hs parent (.blob bytes false))
  | .array elems => (.array hs.length, spawn hs parent (.array elems false))
  | .map pairs => (.map hs.length, spawn hs parent (.map pairs .expect_key))

/-- Modelled from the spec: finalization of the sub-reader `id` (§4.7): its content becomes
`body`, which records the end, and the gate of its parent is rearmed. -/
def finish (hs : List Handle) (id : Nat) (h : Handle) (body : Body) : List Handle :=
  gate (hs.set id { h with body := body }) h.parent true

/-- Modelled from the spec: the top-level document a checked reader returns for the abstract
document `d` (`json::read(..., debug_check::throw_on_error{})`). -/
def open_document (d : Doc) : Document Nat Nat Nat × List Handle :=
  hand_out [] none d

/-- Modelled from the spec: a pull of up to `n` bytes from the blob sub-reader `id` (§3.3,
§6.1). It fails with `library_misused` when the gate is disarmed or the blob is finalized; a
short read is the end of the blob and finalizes it. -/
def read_buffer (id n : Nat) (hs : List Handle) : Except Fault (List Byte × Nat × List Handle) :=
  match hs[id]? with
  | some ⟨parent, true, .blob rest false⟩ =>
    if (rest.take n).length < n then
      .ok (rest.take n, id, finish hs id ⟨parent, true, .blob rest false⟩ (.blob (rest.drop n) true))
    else
      .ok (rest.take n, id, hs.set id ⟨parent, true, .blob (rest.drop n) false⟩)
  | _ => .error .library_misused

/-- Modelled from the spec: a forward seek of `n` bytes on the blob sub-reader `id` (§3.3,
§6.1, §9): it returns the number of bytes skipped, and skipping fewer than `n` is the end of
the blob and finalizes it. -/
def seek (id n : Nat) (hs : List Handle) : Except Fault (Nat × List Handle) :=
  match hs[id]? with
  | some ⟨parent, true, .blob rest false⟩ =>
    if (rest.take n).length < n then
      .ok ((rest.take n).length,
        finish hs id ⟨parent, true, .blob rest false⟩ (.blob (rest.drop n) true))
    else
      .ok ((rest.take n).length, hs.set id ⟨parent, true, .blob (rest.drop n) false⟩)
  | _ => .error .library_misused

/-- Modelled from the spec: `read()` on the array sub-reader `id` (§3.4, §4.7). It fails
with `library_misused` when the gate is disarmed or the array is finalized; `none` is
the end of the array and finalizes it. -/
def read (id : Nat) (hs : List Handle) :
    Except Fault (Option (Document Nat Nat Nat) × Nat × List Handle) :=
  match hs[id]? with
  | some ⟨parent, true, .array rest false⟩ =>
    match rest with
    | [] => .ok (none, id, finish hs id ⟨parent, true, .array [] false⟩ (.array [] true))
    | d :: ds =>
      let out := hand_out (hs.set id ⟨parent, true, .array ds false⟩) (some id) d
      .ok (some out.1, id, out.2)
  | _ => .error .library_misused

/-- Modelled from the spec: `read_key()` on the map sub-reader `id` (§3.4, §3.5, §4.7). It
fails with `library_misused` when the gate is disarmed or the map does not expect a key;
`none` is the end of the map and finalizes it. -/
def read_key (id : Nat) (hs : List Handle) :
    Except Fault (Option (Document Nat Nat Nat) × Nat × List Handle) :=
  match hs[id]? with
  | some ⟨parent, true, .map rest .expect_key⟩ =>
    match rest with
    | [] => .ok (none, id, finish hs id ⟨parent, true, .map [] .expect_key⟩ (.map [] .done))
    | (k, v) :: ps =>
      let out := hand_out (hs.set id ⟨parent, true, .map ((k, v) :: ps) .expect_value⟩) (some id) k
      .ok (some out.1, id, out.2)
  | _ => .error .library_misused

/-- Modelled from the spec: `read_value()` on the map sub-reader `id` (§3.4, §3.5, §4.7). It
fails with `library_misused` when the gate is disarmed or the map does not expect a value.
-/
def read_value (id : Nat) (hs : List Handle) :
    Except Fault (Document Nat Nat Nat × Nat × List Handle) :=
  match hs[id]? with
  | some ⟨parent, true, .map ((_, v) :: ps) .expect_value⟩ =>
    let out := hand_out (hs.set id ⟨parent, true, .map ps .expect_key⟩) (some id) v
    .ok (out.1, id, out.2)
  | _ => .error .library_misused

/-- Modelled from the spec: the checked reader as the `Stream` and `Document` parameters of
the copy engine. -/
def reader : Reader (List Handle) Nat Nat Nat where
  read_buffer := read_buffer
  read := read
  read_key := read_key
  read_value := read_value

/-- Modelled from the spec: one call made on a sub-reader by the application. A call on a
handle of another kind cannot be written in the source; here it is rejected like a misuse.
-/
inductive Op
  | read_buffer (id n : Nat)
  | seek (id n : Nat)
  | read (id : Nat)
  | read_key (id : Nat)
  | read_value (id : Nat)
  deriving DecidableEq, Repr

/-- The target of a call: the sub-reader it is made on. -/
def Op.target : Op → Nat
  | .read_buffer id _ => id
  | .seek id _ => id
  | .read id => id
  | .read_key id => id
  | .read_value id => id

/-- The handles after a call; a call that fails with `library_misused` throws before it
changes anything. -/
def step (hs : List Handle) : Op → List Handle
  | .read_buffer id n =>
    match read_buffer id n hs with
    | .ok r => r.2.2
    | .error _ => hs
  | .seek id n =>
    match seek id n hs with
    | .ok r => r.2
    | .error _ => hs
  | .read id =>
    match read id hs with
    | .ok r => r.2.2
    | .error _ => hs
  | .read_key id =>
    match read_key id hs with
    | .ok r => r.2.2
    | .error _ => hs
  | .read_value id =>
    match read_value id hs with
    | .ok r => r.2.2
    | .error _ => hs

/-- The handles after a sequence of calls on the document `d`. -/
def run (d : Doc) (ops : List Op) : List Handle :=
  ops.foldl step (open_document d).2

end checked

namespace checked

/-- The gates are consistent with the tree of sub-readers: a parent is older than its child;
a sub-reader that is not finalized keeps its parent disarmed and not finalized; and no
sub-reader has two children that are not finalized. -/
structure Inv (hs : List Handle) : Prop where
  parent_lt : ∀ (c : Nat) (hc : Handle) (p : Nat), hs[c]? = some hc → hc.parent = some p → p < c
  gated : ∀ (c : Nat) (hc : Handle) (p : Nat), hs[c]? = some hc → hc.parent = some p → hc.body.finalized = false →
    ∃ hp : Handle, hs[p]? = some hp ∧ hp.armed = false ∧ hp.body.finalized = false
  single : ∀ (c c' : Nat) (hc hc' : Handle) (p : Nat), hs[c]? = some hc → hs[c']? = some hc' →
    hc.parent = some p → hc'.parent = some p →
    hc.body.finalized = false → hc'.body.finalized = false → c = c'

end checked

namespace checked

/-- The content of the sub-reader `m`, if there is such a handle. -/
def body_at (hs : List Handle) (m : Nat) : Option Body :=
  (hs[m]?).map (fun h => h.body)

/-- The parent of a sub-reader about to be created is armed, if there is a parent. -/
def ParentArmed (hs : List Handle) (parent : Option Nat) : Prop :=
  ∀ q, parent = some q → ∃ hq : Handle, hs[q]? = some hq ∧ hq.armed = true

/-- Consuming a handed-out document to its end, in the order the copy engine reads it: a
blob is pulled until a short read, an array is read until `none` with every element consumed
in turn, a map is read key and value in turn until `read_key()` returns `none`. -/
def consume (fuel : Nat) (doc : Document Nat Nat Nat) (hs : List Handle) :
    Except Fault (List Handle) :=
  match copy_sax_document reader fuel [] doc (hs, []) with
  | .ok (hs, _) => .ok hs
  | .error e => .error e

/-- The strictly alternating sequence of `rounds` rounds on the map sub-reader `m`:
`read_key()`, the key consumed, `read_value()`, the value consumed. It fails with
`ill_formed` when the map runs out of keys. -/
def alternate (fuel : Nat) (m : Nat) : Nat → List Handle → Except Fault (List Handle)
  | 0, hs => .ok hs
  | rounds + 1, hs => do
    let (key, _, hs) ← read_key m hs
    match key with
    | none => .error .ill_formed
    | some key =>
      let hs ← consume fuel key hs
      let (value, _, hs) ← read_value m hs
      let hs ← consume fuel value hs
      alternate fuel m rounds hs

end checked

/-! ## Seeking forward on a blob -/

section seek
variable {σ B A M : Type}

end seek

namespace checked

end checked

/-! ## The calls the copy engine makes on a checked reader -/

namespace checked

/-- The checked reader, recording each call made on it: the state is the handles together
with the calls accepted so far, in the order they were made. A call that is rejected with
`library_misused` throws, which ends the copy. -/
def traced : Reader (List Handle × List Op) Nat Nat Nat where
  read_buffer := fun id n s =>
    match read_buffer id n s.1 with
    | .ok r => .ok (r.1, r.2.1, r.2.2, s.2 ++ [.read_buffer id n])
    | .error e => .error e
  read := fun id s =>
    match read id s.1 with
    | .ok r => .ok (r.1, r.2.1, r.2.2, s.2 ++ [.read id])
    | .error e => .error e
  read_key := fun id s =>
    match read_key id s.1 with
    | .ok r => .ok (r.1, r.2.1, r.2.2, s.2 ++ [.read_key id])
    | .error e => .error e
  read_value := fun id s =>
    match read_value id s.1 with
    | .ok r => .ok (r.1, r.2.1, r.2.2, s.2 ++ [.read_value id])
    | .error e => .error e

/-- Whether the checked reader accepts the call, rather than rejecting it with
`library_misused`. -/
def accepted (hs : List Handle) : Op → Bool
  | .read_buffer id n =>
    match read_buffer id n hs with
    | .ok _ => true
    | .error _ => false
  | .seek id n =>
    match seek id n hs with
    | .ok _ => true
    | .error _ => false
  | .read id =>
    match read id hs with
    | .ok _ => true
    | .error _ => false
  | .read_key id =>
    match read_key id hs with
    | .ok _ => true
    | .error _ => false
  | .read_value id =>
    match read_value id hs with
    | .ok _ => true
    | .error _ => false

/-- Whether every call of the sequence is accepted, each from the handles the calls
before it left. -/
def all_accepted : List Handle → List Op → Bool
  | _, [] => true
  | hs, op :: ops => accepted hs op && all_accepted (step hs op) ops

/-- Modelled from the spec: the one-live-child rule at the sub-reader `p` (§3.5): every
child sub-reader that `p` handed out so far was driven to its observed end (a blob pulled
until a short read, an array read until `none`, a map read until `read_key()` returned
`none`). -/
def children_ended (hs : List Handle) (p : Nat) : Bool :=
  hs.all (fun h => decide (h.parent ≠ some p) || h.body.finalized)

/-- Whether the sub-reader `m` is a map in the alternation state `alt`. -/
def expects (hs : List Handle) (m : Nat) (alt : Alternation) : Bool :=
  match body_at hs m with
  | some (.map _ a) => decide (a = alt)
  | _ => false

/-- Modelled from the spec: the one-live-child and alternation rules for one call (§3.5).
`read()`, `read_key()` and `read_value()` are made on a parent only when every child it
handed out was driven to its end; `read_key()` is made on a map only when it expects a key
(it was just handed out, or the value of the key read last was read), and `read_value()`
only when it expects a value (the call on the map before it was a `read_key()` that
returned a key). A pull or a seek on a blob, which has no children, is free. -/
def permitted (hs : List Handle) : Op → Bool
  | .read_buffer _ _ => true
  | .seek _ _ => true
  | .read id => children_ended hs id
  | .read_key id => children_ended hs id && expects hs id .expect_key
  | .read_value id => children_ended hs id && expects hs id .expect_value

/-- Modelled from the spec: a sequence of calls complies with the one-live-child and
alternation rules (§3.5) when each call is permitted from the handles the calls before it
left. -/
def complies : List Handle → List Op → Bool
  | _, [] => true
  | hs, op :: ops => permitted hs op && complies (step hs op) ops

/-- The calls of a sequence made on the map `m` alternate, `read_key()` first: no two
`read_key()` without a `read_value()` between them, and no `read_value()` that does not
follow a `read_key()` of its own. `pending` says that a key was read whose value was not
read yet. -/
def alternates (m : Nat) : Bool → List Op → Bool
  | _, [] => true
  | pending, .read_key id :: ops =>
    if id = m then !pending && alternates m true ops else alternates m pending ops
  | pending, .read_value id :: ops =>
    if id = m then pending && alternates m false ops else alternates m pending ops
  | pending, _ :: ops => alternates m pending ops

end checked

/-! ## `variant.h` -/

/-- The exception `struct bad_variant_access {}`. -/
inductive bad_variant_access
  | mk
  deriving DecidableEq, Repr

/-- What a call evaluates to: a value, a thrown `bad_variant_access`, or undefined
behaviour (a failed `assert`, a `reinterpret_cast` to a type the storage does not hold,
an index outside a table). -/
inductive Outcome (α : Type)
  | value (a : α)
  | throws (e : bad_variant_access)
  | undefined
  deriving Repr

section variant
variable {K : Type} [DecidableEq K]

/-- The template `index_of<U, Args...>`: the position of the first argument equal to
`U`; it has no `value` when no argument is. -/
def index_of (U : K) : List K → Option Nat
  | [] => none
  | Head :: Tail =>
    if U = Head then some 0
    else
      match index_of U Tail with
      | some value => some (1 + value)
      | none => none

/-- The template `nth_type<N, Args...>`: the `N`-th argument; it has no `type` when
there are `N` arguments or fewer. -/
def nth_type : Nat → List K → Option K
  | _, [] => none
  | 0, Head :: _ => some Head
  | N + 1, _ :: Tail => nth_type N Tail

/-- The type traits the source branches on, one answer per type. -/
structure Traits (K : Type) where
  is_trivially_destructible : K → Bool
  is_trivially_copy_constructible : K → Bool
  is_trivially_copy_assignable : K → Bool
  is_trivially_copyable : K → Bool

/-- The layout facts the source takes from the compiler, one answer per type, a value of
the type `T` being an `El T`: `sizeof(T)`, `alignof(T)`, whether `T` has a `uint8_t`
member named `padding_for_variant` (which selects the specialization of `with_padding`),
and the last byte of the object representation of a `T`, the one at offset
`sizeof(T) - 1`, read and written. -/
structure Layout (K : Type) (El : K → Type) where
  sizeof : K → Nat
  alignof : K → Nat
  declares_padding_for_variant : K → Bool
  last_byte : (T : K) → El T → Nat
  set_last_byte : (T : K) → Nat → El T → El T

/-- The template `largest<size_t...>`: the largest of its arguments; it has no `value`
for the empty pack. -/
def largest : List Nat → Option Nat
  | [] => none
  | [x] => some x
  | x :: y :: z =>
    match largest (y :: z) with
    | some value => some (if x > value then x else value)
    | none => none

/-- The least multiple of `align` that is at least `size`: the size of a struct whose
members end at offset `size`, and of `std::aligned_storage_t<size, align>`. -/
def round_up (size align : Nat) : Nat :=
  size + (align - size % align) % align

/-- The size `sizeof(with_padding<T>)`: the primary template is `struct { T data; uint8_t
padding_for_variant; }`, one byte more than a `T`, rounded up to the alignment; the
specialization for a `T` that declares `padding_for_variant` is `struct { T data; }`. -/
def sizeof_with_padding {El : K → Type} (L : Layout K El) (T : K) : Nat :=
  if L.declares_padding_for_variant T then L.sizeof T
  else round_up (L.sizeof T + 1) (L.alignof T)

/-- The size `sizeof(m_data)` of
`std::aligned_storage_t<largest<sizeof(with_padding<types>)...>::value,
largest<alignof(with_padding<types>)...>::value>`. -/
def sizeof_m_data {El : K → Type} (L : Layout K El) (types : List K) : Option Nat :=
  match largest (types.map (sizeof_with_padding L)), largest (types.map L.alignof) with
  | some size, some align => some (round_up size align)
  | _, _ => none

/-- Whether an object of the type `T` that lives in `m_data`, where it starts at offset 0,
reaches the last byte of `m_data`, the byte `which()` reads and `set_which` writes:
`sizeof(m_data) - 1 < sizeof(T)`. -/
def covers {El : K → Type} (L : Layout K El) (types : List K) (T : K) : Bool :=
  match sizeof_m_data L types with
  | some size => decide (size ≤ L.sizeof T)
  | none => false

/-- A write of the byte `b` to the last byte of `m_data`, as the object that lives in
`m_data` sees it: the last byte of the object becomes `b` when the object reaches the last
byte of `m_data`, and the object is left as it was when it does not. -/
def stamp {El : K → Type} (L : Layout K El) (types : List K) (b : Nat)
    (x : Σ T : K, El T) : Σ T : K, El T :=
  if covers L types x.1 then ⟨x.1, L.set_last_byte x.1 b x.2⟩ else x

/-- The class `variant<types...>` over the types named by `K`: the bytes of `m_data` in
the two views the source takes of them, the object that lives at the start of `m_data`,
if one was constructed there, and the last byte of `m_data`, which is the discriminant.
The last byte of `m_data` is a byte of the object when the object reaches it (`covers`),
so every write through one view writes the other view as well. -/
structure variant (El : K → Type) (types : List K) where
  object : Option (Σ T : K, El T)
  last_byte : Nat

/-- A callable `TLambda` passed to `visit`: its result type on each argument type, the
call, and the implicit conversion a `return` statement applies to the result. -/
structure Visitor (El : K → Type) where
  Result : K → Type
  call : (T : K) → El T → Result T
  convert : (T Return : K) → Result T → Result Return

/-- A visitor that has the result type `R` on every argument type. -/
def Visitor.uniform {El : K → Type} (R : Type) (f : (T : K) → El T → R) : Visitor El where
  Result := fun _ => R
  call := f
  convert := fun _ _ r => r

namespace variant
variable {El : K → Type} {types : List K}

/-- The method `which()`: the last byte of `m_data`. -/
def which (v : variant El types) : Nat := v.last_byte

/-- The method `set_which(uint8_t i)`: the last byte of `m_data` becomes `i`, and with it
the last byte of the object that lives in `m_data` when that object reaches it. -/
def set_which (L : Layout K El) (i : Nat) (v : variant El types) : variant El types :=
  { object := v.object.map (stamp L types (i % 256)), last_byte := i % 256 }

/-- The storage `m_data` before a constructor has written it: no object lives in it; its
bytes are indeterminate, and the last one is taken to be 0. -/
def uninitialized : variant El types :=
  ⟨none, 0⟩

/-- A write of the object `u` of the type `U` at the start of `m_data`, as done by
`new (&m_data) U(u)`, by `memcpy(&m_data, &data, sizeof(head))` and by the assignment
`as_unchecked<U>() = u` to the object already there: `u` is the object that lives in
`m_data`, and the last byte of `m_data` is the last byte of `u` when `u` reaches it, and
is left as it was when `u` does not. -/
def emplace (L : Layout K El) (U : K) (u : El U) (v : variant El types) : variant El types :=
  { object := some ⟨U, u⟩,
    last_byte := if covers L types U then L.last_byte U u else v.last_byte }

/-- The method `as_unchecked<N>()`: `assert(which() == N)`, then the storage viewed as
the `N`-th type. -/
def as_unchecked (N : Nat) (v : variant El types) : Option (Σ T : K, El T) :=
  if v.which = N then
    match nth_type N types, v.object with
    | some T, some x => if x.1 = T then some x else none
    | _, _ => none
  else none

/-- The method `as<N>()`: it throws when `which() != N` and writes nothing; the variant
after the call is returned with the payload. -/
def as (N : Nat) (v : variant El types) : Outcome ((Σ T : K, El T) × variant El types) :=
  if v.which ≠ N then .throws .mk
  else
    match as_unchecked N v with
    | some x => .value (x, v)
    | none => .undefined

/-- The method `as<T>()`, which is `as<index_of<T, types...>::value>()`. -/
def as_type (T : K) (v : variant El types) : Outcome ((Σ T : K, El T) × variant El types) :=
  match index_of T types with
  | some N => as N v
  | none => .undefined

/-- The method `as_unchecked<T>()`, which is `as_unchecked<index_of<T, types...>::value>()`. -/
def as_unchecked_type (T : K) (v : variant El types) : Option (Σ T : K, El T) :=
  match index_of T types with
  | some N => as_unchecked N v
  | none => none

/-- The method `is<T>()`: `which() == index_of<T, types...>::value`. -/
def is (T : K) (v : variant El types) : Option Bool :=
  match index_of T types with
  | some N => some (decide (v.which = N))
  | none => none

/-- The result type `Return` of `apply_helper`: the result type of the callable on the
first alternative. -/
def Return (l : Visitor El) : List K → Type
  | [] => Empty
  | Head :: _ => l.Result Head

/-- The function `eval<Return, N, TLambda>(v, l)`: `return l(v.as_unchecked<N>())`,
converted to `Return`. -/
def eval (l : Visitor El) (Head : K) (N : Nat) (v : variant El types) : Option (l.Result Head) :=
  match as_unchecked N v with
  | some x => some (l.convert x.1 Head (l.call x.1 x.2))
  | none => none

/-- The method `apply_helper(l, index_sequence<Is...>)`: the table `fns` holds
`eval<Return, Is, TLambda>` for every `Is`, and the entry `fns[which()]` is called. -/
def apply_helper (l : Visitor El) (Is : List Nat) :
    {types : List K} → variant El types → Option (Return l types)
  | [], _ => none
  | Head :: _, v =>
    match (Is.map (fun N => eval l Head N))[v.which]? with
    | some fn => fn v
    | none => none

/-- The method `visit(l)`: `apply_helper(l, index_sequence_for<types...>{})`. -/
def visit (l : Visitor El) (v : variant El types) : Option (Return l types) :=
  apply_helper l (List.range types.length) v

/-- The value of a visit with a callable that has the result type `R` on every
alternative. -/
def visit_with {R : Type} (f : (T : K) → El T → R) :
    {types : List K} → variant El types → Option R
  | [], _ => none
  | _ :: _, v => visit (Visitor.uniform R f) v

/-- The method `destroy()`: nothing when every alternative is trivially destructible,
else `visit` with the call of the destructor `x.~T()`, after which no object lives in
`m_data`; the bytes of `m_data` are left as they are. -/
def destroy (traits : Traits K) (v : variant El types) : Option (variant El types) :=
  if types.all traits.is_trivially_destructible then some v
  else
    match visit_with (fun _ _ => ()) v with
    | some _ => some { v with object := none }
    | none => none

/-- The method `safe_destroy_construct<U>(u)` in its three overloads: `destroy()`, then
`new (&m_data) U(u)`, then `set_which(index_of<U, types...>::value)`. -/
def safe_destroy_construct (traits : Traits K) (L : Layout K El) (U : K) (u : El U)
    (v : variant El types) : Option (variant El types) :=
  match destroy traits v, index_of U types with
  | some v, some N => some (set_which L N (emplace L U u v))
  | _, _ => none

/-- The operator `operator = (U&& u)`, declared only when `U` is one of the
alternatives. In the branch `as_unchecked<U>() = std::forward<U>(u)` the assignment
operator of `U` makes the object in `m_data` equal to `u`, all of its bytes, and
`set_which` is not called. -/
def assign (traits : Traits K) (L : Layout K El) (U : K) (u : El U) (v : variant El types) :
    Option (variant El types) :=
  match index_of U types with
  | none => none
  | some N =>
    if types.all traits.is_trivially_destructible && traits.is_trivially_copyable U then
      safe_destroy_construct traits L U u v
    else if v.which = N then
      match as_unchecked_type U v with
      | some _ => some (emplace L U u v)
      | none => none
    else
      safe_destroy_construct traits L U u v

/-- The operator `operator = (const variant& rhs)`: `rhs.visit` with the callable that
assigns the payload of `rhs` to `*this`. The result is `*this` after the call; `rhs` is
read only. -/
def copy_assign (traits : Traits K) (L : Layout K El) (rhs v : variant El types) :
    Option (variant El types) :=
  match visit_with (fun T x => assign traits L T x v) rhs with
  | some r => r
  | none => none

/-- The operator `operator = (variant&& rhs)`: the same steps with `std::move(x)`; the
moved-from `rhs` keeps its discriminant. -/
def move_assign (traits : Traits K) (L : Layout K El) (rhs v : variant El types) :
    Option (variant El types) :=
  match visit_with (fun T x => assign traits L T x v) rhs with
  | some r => r
  | none => none

/-- The copy constructor. `variant_copy<types...>` is `variant_copy_impl<true, types...>`
when every alternative is trivially copy constructible and trivially copy assignable:
the copy is then the implicit one, which copies the bytes of `m_data`. Otherwise it is
the constructor of `variant_copy_impl<false, types...>`: `m_data = rhs.m_data` when
every alternative is trivially copy constructible, else `rhs.visit` with the placement
`new (&m_data) T(x)`; then `set_which(rhs.which())`. -/
def copy_construct (traits : Traits K) (L : Layout K El) (rhs : variant El types) :
    Option (variant El types) :=
  if types.all traits.is_trivially_copy_constructible &&
      types.all traits.is_trivially_copy_assignable then
    some ⟨rhs.object, rhs.last_byte⟩
  else if types.all traits.is_trivially_copy_constructible then
    some (set_which L rhs.which ⟨rhs.object, rhs.last_byte⟩)
  else
    match visit_with (fun T x => emplace L T x (uninitialized : variant El types)) rhs with
    | some v => some (set_which L rhs.which v)
    | none => none

/-- The move constructor: the same steps with `T(std::move(x))`; the moved-from `rhs`
keeps its discriminant. -/
def move_construct (traits : Traits K) (L : Layout K El) (rhs : variant El types) :
    Option (variant El types) :=
  if types.all traits.is_trivially_copy_constructible &&
      types.all traits.is_trivially_copy_assignable then
    some ⟨rhs.object, rhs.last_byte⟩
  else if types.all traits.is_trivially_copy_constructible then
    some (set_which L rhs.which ⟨rhs.object, rhs.last_byte⟩)
  else
    match visit_with (fun T x => emplace L T x (uninitialized : variant El types)) rhs with
    | some v => some (set_which L rhs.which v)
    | none => none

/-- The constructors `add_constructors(const head& data)` and `add_constructors(head&&
data)` of `add_constructors<T, index, head, types...>`, which derives from
`add_constructors<T, index + 1, types...>`: the constructor of the most derived class
that takes the type of the argument stores the argument in `m_data` (by `memcpy` or by
placement `new`) and calls `set_which(index)`. There is no constructor for a type that
is not an alternative. -/
def add_constructors (L : Layout K El) (all : List K) :
    Nat → List K → (U : K) → El U → Option (variant El all)
  | _, [], _, _ => none
  | index, head :: rest, U, data =>
    if U = head then some (set_which L index (emplace L U data uninitialized))
    else add_constructors L all (index + 1) rest U data

/-- The construction of a `variant<types...>` from a value:
`variant_with_constructors<types...>` is `add_constructors<variant_copy<types...>, 0,
types...>`. -/
def construct (L : Layout K El) (U : K) (data : El U) : Option (variant El types) :=
  add_constructors L types 0 types U data

/-- The default constructor `variant()`: construction from the value-initialized first
alternative `nth_type_t<0, types...>()`, given by `init`. -/
def default_construct (L : Layout K El) (init : (T : K) → El T) : Option (variant El types) :=
  match nth_type 0 types with
  | some T => construct L T (init T)
  | none => none

/-- The payload of `rhs` viewed as a `T`, as in `rhs.as_unchecked<T>()`. -/
def payload_as (T : K) (rhs : variant El types) : Option (El T) :=
  match as_unchecked_type T rhs with
  | some y => if h : y.1 = T then some (h ▸ y.2) else none
  | none => none

/-- The operator `operator ==`, with `==` of the alternatives given by `eq`. -/
def equal (eq : (T : K) → El T → El T → Bool) (lhs rhs : variant El types) : Option Bool :=
  if lhs.which = rhs.which then
    match visit_with (fun T x =>
        match payload_as T rhs with
        | some y => some (eq T x y)
        | none => none) lhs with
    | some r => r
    | none => none
  else some false

/-- The operator `operator <`, with `<` of the alternatives given by `lt`. -/
def less (lt : (T : K) → El T → El T → Bool) (lhs rhs : variant El types) : Option Bool :=
  if lhs.which = rhs.which then
    match visit_with (fun T x =>
        match payload_as T rhs with
        | some y => some (lt T x y)
        | none => none) lhs with
    | some r => r
    | none => none
  else some (decide (lhs.which < rhs.which))

/-- The function `invalid_state::set(data)`: the last byte of the storage becomes
`sizeof...(types)`. -/
def invalid_state.set (L : Layout K El) (data : variant El types) : variant El types :=
  { object := data.object.map (stamp L types (types.length % 256)),
    last_byte := types.length % 256 }

/-- The function `invalid_state::is(data)`: whether the last byte of the storage is
`sizeof...(types)`. -/
def invalid_state.is (data : variant El types) : Bool :=
  decide (data.last_byte = types.length)

/-- A variant holds an alternative: an object lives in `m_data`, and the discriminant is
the index of its type. -/
def Valid (v : variant El types) : Prop :=
  ∃ x : Σ T : K, El T, v.object = some x ∧ index_of x.1 types = some v.which

end variant
end variant

/-! ## Sample documents -/

/-- A document with every kind of node: `[1, "hi", {"a": null, []: {}}]`. -/
def sample_document : Doc :=
  .array [.scalar (.unsigned_int 1), .blob .string [104, 105],
    .map [(.blob .string [97], .scalar .null), (.array [], .map [])]]

/-- A blob of exactly 8192 bytes. -/
def full_buffer_blob : List Byte := List.replicate 8192 0

/-! ## The documents of `tests/debug_checks_reader.cpp` -/

/-- The JSON text `["hello"]`. -/
def hello_array : Doc := .array [.blob .string [104, 101, 108, 108, 111]]

/-- The JSON text `[[1, 2]]`. -/
def nested_array : Doc := .array [.array [.scalar (.unsigned_int 1), .scalar (.unsigned_int 2)]]

/-- The JSON text `[{"a":1, "b":2}]`. -/
def map_in_array : Doc :=
  .array [.map [(.blob .string [97], .scalar (.unsigned_int 1)),
    (.blob .string [98], .scalar (.unsigned_int 2))]]

/-- The JSON text `[{"a":"1", "b":2}]`. -/
def string_value_map : Doc :=
  .array [.map [(.blob .string [97], .blob .string [49]),
    (.blob .string [98], .scalar (.unsigned_int 2))]]


/-! ## Sample alternatives for `variant` -/

/-- Two unsigned alternative types: `uint8_t` and `uint32_t`. -/
inductive Num
  | uint8_t
  | uint32_t
  deriving DecidableEq, Repr

/-- The values of the sample types: an unsigned integer is carried as its value. -/
abbrev Num.El : Num → Type := fun _ => Nat

/-- The operator `==` of the unsigned sample types: equal values. -/
def Num.eq : (T : Num) → Num.El T → Num.El T → Bool :=
  fun _ x y => Nat.beq x y

/-- The operator `<` of the unsigned sample types, by value. -/
def Num.lt : (T : Num) → Num.El T → Num.El T → Bool :=
  fun _ x y => Nat.blt x y

/-- The callable `[](auto x) { return x; }` on the unsigned sample types: its result has
the type of its argument, and a `return` to another unsigned type reduces the value
modulo the width of that type. -/
def Num.identity : Visitor Num.El where
  Result := fun _ => Nat
  call := fun _ x => x
  convert := fun _ Return r =>
    match Return with
    | .uint8_t => r % 2 ^ 8
    | .uint32_t => r % 2 ^ 32

/-- The traits of the sample types: an arithmetic type is trivially destructible, trivially
copy constructible, trivially copy assignable and trivially copyable. -/
def Num.traits : Traits Num where
  is_trivially_destructible := fun _ => true
  is_trivially_copy_constructible := fun _ => true
  is_trivially_copy_assignable := fun _ => true
  is_trivially_copyable := fun _ => true

/-- The size and alignment of the unsigned sample types. -/
def Num.sizeof : Num → Nat
  | .uint8_t => 1
  | .uint32_t => 4

/-- The layout of the unsigned sample types on a little-endian machine: the last byte of
an unsigned integer is its most significant byte; neither type has a member. -/
def Num.layout : Layout Num Num.El where
  sizeof := Num.sizeof
  alignof := Num.sizeof
  declares_padding_for_variant := fun _ => false
  last_byte := fun T x => x / 256 ^ (Num.sizeof T - 1) % 256
  set_last_byte := fun T b x => x % 256 ^ (Num.sizeof T - 1) + b * 256 ^ (Num.sizeof T - 1)

/-- A `variant<uint8_t, uint32_t>` that holds the `uint32_t` 300. -/
def Num.three_hundred : variant Num.El [Num.uint8_t, Num.uint32_t] :=
  ⟨some ⟨.uint32_t, (300 : Nat)⟩, 1⟩

/-- A `variant<uint8_t, uint32_t>` that holds the `uint8_t` 7. -/
def Num.seven : variant Num.El [Num.uint8_t, Num.uint32_t] :=
  ⟨some ⟨.uint8_t, (7 : Nat)⟩, 0⟩

/-! ## Sample alternatives with a `double` -/

/-- The alternative types `uint8_t` and `double`. -/
inductive Mixed
  | uint8_t
  | double
  deriving DecidableEq, Repr

/-- The values of the sample types: a `uint8_t` is carried as its value, a `double` as the
64 bits of its IEEE 754 representation. -/
abbrev Mixed.El : Mixed → Type := fun _ => Nat

/-- Whether the 64 bits are a NaN: the exponent is all ones and the fraction is not zero. -/
def Mixed.is_nan (bits : Nat) : Bool :=
  decide (bits / 2 ^ 52 % 2 ^ 11 = 2 ^ 11 - 1) && decide (bits % 2 ^ 52 ≠ 0)

/-- Whether the 64 bits are one of the two zeros. -/
def Mixed.is_zero (bits : Nat) : Bool :=
  decide (bits % 2 ^ 63 = 0)

/-- The operator `==` of the sample types. Two `double`s are equal when neither is a NaN
and they have the same bits or are both zeros. -/
def Mixed.eq : (T : Mixed) → Mixed.El T → Mixed.El T → Bool
  | .uint8_t, x, y => Nat.beq x y
  | .double, x, y =>
    !Mixed.is_nan x && !Mixed.is_nan y && (Nat.beq x y || (Mixed.is_zero x && Mixed.is_zero y))

/-- The traits of the sample types: an arithmetic type is trivial in every respect. -/
def Mixed.traits : Traits Mixed where
  is_trivially_destructible := fun _ => true
  is_trivially_copy_constructible := fun _ => true
  is_trivially_copy_assignable := fun _ => true
  is_trivially_copyable := fun _ => true

/-- The size and alignment of the sample types. -/
def Mixed.sizeof : Mixed → Nat
  | .uint8_t => 1
  | .double => 8

/-- The layout of the sample types on a little-endian machine: the last byte is the most
significant one; neither type has a member. -/
def Mixed.layout : Layout Mixed Mixed.El where
  sizeof := Mixed.sizeof
  alignof := Mixed.sizeof
  declares_padding_for_variant := fun _ => false
  last_byte := fun T x => x / 256 ^ (Mixed.sizeof T - 1) % 256
  set_last_byte := fun T b x =>
    x % 256 ^ (Mixed.sizeof T - 1) + b * 256 ^ (Mixed.sizeof T - 1)

/-- A `variant<uint8_t, double>` that holds the `uint8_t` 7. -/
def Mixed.seven : variant Mixed.El [Mixed.uint8_t, Mixed.double] :=
  ⟨some ⟨.uint8_t, (7 : Nat)⟩, 0⟩

/-! ## Sample alternatives with a type that declares `padding_for_variant` -/

/-- Three alternative types: `uint8_t`; `NT`, an empty class with a user-provided
destructor, `struct NT { ~NT() {} };`; and `Q`, a struct of two `uint8_t` members one of
which is named `padding_for_variant`, as `struct Q { uint8_t value; uint8_t
padding_for_variant; };` or with the two members in the other order. -/
inductive Pad
  | uint8_t
  | NT
  | Q
  deriving DecidableEq, Repr

/-- The values of the sample types: a `uint8_t` is its value, an `NT` has no state, and a
`Q` is its two members in the order they are declared, the second being its last byte. -/
abbrev Pad.El : Pad → Type
  | .uint8_t => Nat
  | .NT => Unit
  | .Q => Nat × Nat

/-- The traits of the sample types: `NT` has a destructor of its own, and so is not
trivially destructible, not trivially copy constructible and not trivially copyable; the
other two types are trivial. -/
def Pad.traits : Traits Pad where
  is_trivially_destructible := fun T => decide (T ≠ .NT)
  is_trivially_copy_constructible := fun T => decide (T ≠ .NT)
  is_trivially_copy_assignable := fun _ => true
  is_trivially_copyable := fun T => decide (T ≠ .NT)

/-- The layout of the sample types: `uint8_t` and the empty class `NT` have the size 1,
`Q` has the size 2, all with the alignment 1; only `Q` declares `padding_for_variant`.
The one byte of an `NT` holds no value. -/
def Pad.layout : Layout Pad Pad.El where
  sizeof := fun T => match T with
    | .uint8_t => 1
    | .NT => 1
    | .Q => 2
  alignof := fun _ => 1
  declares_padding_for_variant := fun T => decide (T = .Q)
  last_byte := fun T => match T with
    | .uint8_t => fun x => x % 256
    | .NT => fun _ => 0
    | .Q => fun x => x.2
  set_last_byte := fun T b => match T with
    | .uint8_t => fun _ => b
    | .NT => fun x => x
    | .Q => fun x => (x.1, b)

/-- A `variant<NT, Q>` that holds the `Q` with the members 5 and 1, as constructed from a
`Q` whose first member is 5. -/
def Pad.five : variant Pad.El [Pad.NT, Pad.Q] :=
  ⟨some ⟨.Q, ((5, 1) : Nat × Nat)⟩, 1⟩

/-- A `variant<uint8_t, Q>` that holds the `uint8_t` 7. -/
def Pad.seven : variant Pad.El [Pad.uint8_t, Pad.Q] :=
  ⟨some ⟨.uint8_t, (7 : Nat)⟩, 0⟩

/-! ## Proofs: blobs -/

theorem buffer_size_pos : 0 < buffer_size := by decide

theorem chunk_zero (bytes : List Byte) : chunk bytes 0 = bytes.take buffer_size := by
  simp [chunk]

theorem chunk_succ (bytes : List Byte) (i : Nat) :
    chunk bytes (i + 1) = chunk (bytes.drop buffer_size) i := by
  simp [chunk, List.drop_drop, Nat.add_mul, Nat.add_comm]

theorem chunk_events_short (out : WriterId) (bytes : List Byte)
    (h : bytes.length < buffer_size) :
    chunk_events out bytes = [⟨out, .write_buffer bytes⟩] := by
  rw [chunk_events, Nat.div_eq_of_lt h, Nat.zero_add, List.range_succ, List.range_zero, List.nil_append, List.map_singleton,
    chunk_zero, List.take_of_length_le (Nat.le_of_lt h)]

theorem chunk_events_full (out : WriterId) (bytes : List Byte)
    (h : buffer_size ≤ bytes.length) :
    chunk_events out bytes =
      ⟨out, .write_buffer (bytes.take buffer_size)⟩ ::
        chunk_events out (bytes.drop buffer_size) := by
  have hd : bytes.length / buffer_size = (bytes.length - buffer_size) / buffer_size + 1 :=
    Nat.div_eq_sub_div buffer_size_pos h
  unfold chunk_events
  rw [List.length_drop, hd]
  generalize (bytes.length - buffer_size) / buffer_size = n
  rw [List.range_succ_eq_map, List.map_cons, List.map_map, chunk_zero]
  refine congrArg _ (List.map_congr_left ?_)
  intro i _
  simp only [Function.comp, Nat.succ_eq_add_one, chunk_succ]

theorem plain_read_buffer (x : List Byte) (n : Nat) (rs : Unit) :
    plain.read_buffer x n rs = .ok (x.take n, x.drop n, rs) := rfl

/-- The pull loop over the plain reader: it writes the remaining slices and leaves
the blob empty. -/
theorem copy_stream_loop_plain (out : WriterId) :
    ∀ (fuel : Nat) (s : List Byte) (log : List Event), s.length / buffer_size < fuel →
      copy_stream_loop plain out fuel s ((), log) =
        .ok ([], (), log ++ chunk_events out s) := by
  intro fuel
  induction fuel with
  | zero => intro s log h; exact absurd h (Nat.not_lt_zero _)
  | succ fuel ih =>
    intro s log h
    rw [copy_stream_loop]
    simp only [plain_read_buffer, bind, Except.bind, Recorder.write_buffer, List.length_take]
    by_cases hs : buffer_size ≤ s.length
    · have hd : s.length / buffer_size = (s.length - buffer_size) / buffer_size + 1 :=
        Nat.div_eq_sub_div buffer_size_pos hs
      rw [if_pos (Nat.min_eq_left hs), ih _ _ (by rw [List.length_drop]; omega),
        chunk_events_full out s hs]
      simp
    · have hlt : s.length < buffer_size := Nat.lt_of_not_le hs
      rw [if_neg (by rw [Nat.min_eq_right (Nat.le_of_lt hlt)]; omega),
        chunk_events_short out s hlt, List.take_of_length_le (Nat.le_of_lt hlt),
        List.drop_of_length_le (Nat.le_of_lt hlt)]
      rfl

/-- The result of `copy_stream` over the plain reader, in both framings. -/
theorem copy_stream_plain (fuel : Nat) (bytes : List Byte) (w : WriterId) (tag : BlobTag)
    (log : List Event) (h : bytes.length / buffer_size < fuel + 1) :
    copy_stream plain fuel bytes w tag ((), log) =
      .ok ([], (), log ++ blob_events tag bytes w) := by
  rw [copy_stream]
  simp only [plain_read_buffer, bind, Except.bind, List.length_take, Recorder.write_blob,
    Recorder.write_buffer, Recorder.flush, Recorder.write_stream, blob_events]
  by_cases hs : buffer_size ≤ bytes.length
  · have hd : bytes.length / buffer_size = (bytes.length - buffer_size) / buffer_size + 1 :=
      Nat.div_eq_sub_div buffer_size_pos hs
    rw [if_neg (by rw [Nat.min_eq_left hs]; omega), if_neg (by omega),
      copy_stream_loop_plain _ _ _ _ (by rw [List.length_drop]; omega),
      chunk_events_full _ bytes hs]
    simp [List.take_take, pure, Except.pure]
  · have hlt : bytes.length < buffer_size := Nat.lt_of_not_le hs
    rw [if_pos (by rw [Nat.min_eq_right (Nat.le_of_lt hlt)]; exact hlt), if_pos hlt,
      List.take_of_length_le (Nat.le_of_lt hlt), List.drop_of_length_le (Nat.le_of_lt hlt),
      Nat.min_eq_right (Nat.le_of_lt hlt)]
    simp [pure, Except.pure]

/-! ## Proofs: documents -/

theorem Doc.fuel_pos (D : Doc) : 0 < D.fuel := by
  cases D <;> simp [Doc.fuel]

theorem plain_read_nil (rs : Unit) : plain.read [] rs = .ok (none, [], rs) := rfl

theorem plain_read_cons (d : Doc) (ds : List Doc) (rs : Unit) :
    plain.read (d :: ds) rs = .ok (some d.view, ds, rs) := rfl

theorem plain_read_key_nil (p : Option Doc) (rs : Unit) :
    plain.read_key (p, []) rs = .ok (none, (none, []), rs) := rfl

theorem plain_read_key_cons (p : Option Doc) (k v : Doc) (ps : List (Doc × Doc)) (rs : Unit) :
    plain.read_key (p, (k, v) :: ps) rs = .ok (some k.view, (some v, ps), rs) := rfl

theorem plain_read_value_some (v : Doc) (ps : List (Doc × Doc)) (rs : Unit) :
    plain.read_value (some v, ps) rs = .ok (v.view, (none, ps), rs) := rfl

mutual
/-- Copying a document read through the plain reader records exactly its events. -/
theorem copy_sax_document_plain : ∀ (D : Doc) (fuel : Nat) (w : WriterId) (log : List Event),
    D.fuel ≤ fuel →
      copy_sax_document plain fuel w D.view ((), log) = .ok ((), log ++ D.events w)
  | .scalar v, fuel, w, log, h => by
    obtain ⟨fuel, rfl⟩ : ∃ k, fuel = k + 1 := ⟨fuel - 1, by simp [Doc.fuel] at h; omega⟩
    cases v <;> rfl
  | .blob tag bytes, fuel, w, log, h => by
    obtain ⟨fuel, rfl⟩ : ∃ k, fuel = k + 1 := ⟨fuel - 1, by have := Doc.fuel_pos (.blob tag bytes); omega⟩
    have hb : bytes.length / buffer_size < fuel + 1 := by
      simp only [Doc.fuel] at h
      generalize bytes.length / buffer_size = q at h
      omega
    cases tag <;>
      simp only [Doc.view, copy_sax_document, copy_stream_plain _ _ _ _ _ hb, bind, Except.bind,
        pure, Except.pure, Doc.events]
  | .array elems, fuel, w, log, h => by
    obtain ⟨fuel, rfl⟩ : ∃ k, fuel = k + 1 := ⟨fuel - 1, by simp [Doc.fuel] at h; omega⟩
    have he : fuel_elements elems ≤ fuel := by simp [Doc.fuel] at h; omega
    simp only [Doc.view, copy_sax_document, Recorder.write_array, Recorder.flush, bind,
      Except.bind, pure, Except.pure, Doc.events,
      copy_array_elements_plain elems fuel (w ++ [0]) 0 _ he]
    simp
  | .map pairs, fuel, w, log, h => by
    obtain ⟨fuel, rfl⟩ : ∃ k, fuel = k + 1 := ⟨fuel - 1, by simp [Doc.fuel] at h; omega⟩
    have he : fuel_pairs pairs ≤ fuel := by simp [Doc.fuel] at h; omega
    simp only [Doc.view, copy_sax_document, Recorder.write_map, Recorder.flush, bind,
      Except.bind, pure, Except.pure, Doc.events,
      copy_map_pairs_plain pairs fuel (w ++ [0]) 0 _ he]
    simp
/-- The element loop over the plain reader. -/
theorem copy_array_elements_plain : ∀ (ds : List Doc) (fuel : Nat) (aw : WriterId) (n : Nat)
    (log : List Event), fuel_elements ds ≤ fuel →
      copy_array_elements plain fuel ds ⟨aw, n⟩ ((), log) =
        .ok (⟨aw, n + ds.length⟩, (), log ++ element_events ds aw n)
  | [], fuel, aw, n, log, h => by
    obtain ⟨fuel, rfl⟩ : ∃ k, fuel = k + 1 := ⟨fuel - 1, by simp [fuel_elements] at h; omega⟩
    simp [copy_array_elements, plain_read_nil, bind, Except.bind, pure, Except.pure, element_events]
  | d :: ds, fuel, aw, n, log, h => by
    obtain ⟨fuel, rfl⟩ : ∃ k, fuel = k + 1 := ⟨fuel - 1, by simp [fuel_elements] at h; omega⟩
    have h1 : d.fuel ≤ fuel := by simp [fuel_elements] at h; omega
    have h2 : fuel_elements ds ≤ fuel := by simp [fuel_elements] at h; omega
    have r1 := copy_sax_document_plain d fuel (aw ++ [n]) (log ++ [⟨aw, .append⟩]) h1
    have r2 := copy_array_elements_plain ds fuel aw (n + 1)
      (log ++ [⟨aw, .append⟩] ++ d.events (aw ++ [n])) h2
    simp only [copy_array_elements, plain_read_cons, bind, Except.bind, Recorder.append, r1, r2,
      element_events]
    simp [Nat.add_assoc, Nat.add_comm 1]
/-- The pair loop over the plain reader. -/
theorem copy_map_pairs_plain : ∀ (ps : List (Doc × Doc)) (fuel : Nat) (mw : WriterId) (n : Nat)
    (log : List Event), fuel_pairs ps ≤ fuel →
      copy_map_pairs plain fuel (none, ps) ⟨mw, n⟩ ((), log) =
        .ok (⟨mw, n + 2 * ps.length⟩, (), log ++ pair_events ps mw n)
  | [], fuel, mw, n, log, h => by
    obtain ⟨fuel, rfl⟩ : ∃ k, fuel = k + 1 := ⟨fuel - 1, by simp [fuel_pairs] at h; omega⟩
    simp [copy_map_pairs, plain_read_key_nil, bind, Except.bind, pure, Except.pure, pair_events]
  | (k, v) :: ps, fuel, mw, n, log, h => by
    obtain ⟨fuel, rfl⟩ : ∃ k, fuel = k + 1 := ⟨fuel - 1, by simp [fuel_pairs] at h; omega⟩
    have h1 : k.fuel ≤ fuel := by simp [fuel_pairs] at h; omega
    have h2 : v.fuel ≤ fuel := by simp [fuel_pairs] at h; omega
    have h3 : fuel_pairs ps ≤ fuel := by simp [fuel_pairs] at h; omega
    have r1 := copy_sax_document_plain k fuel (mw ++ [n]) (log ++ [⟨mw, .append_key⟩]) h1
    have r2 := copy_sax_document_plain v fuel (mw ++ [n + 1])
      (log ++ [⟨mw, .append_key⟩] ++ k.events (mw ++ [n]) ++ [⟨mw, .append_value⟩]) h2
    have r3 := copy_map_pairs_plain ps fuel mw (n + 2)
      (log ++ [⟨mw, .append_key⟩] ++ k.events (mw ++ [n]) ++ [⟨mw, .append_value⟩] ++
        v.events (mw ++ [n + 1])) h3
    simp only [copy_map_pairs, plain_read_key_cons, plain_read_value_some, bind, Except.bind, Recorder.append_key,
      Recorder.append_value, r1, r2, r3, pair_events]
    simp [Nat.mul_add, Nat.add_assoc, Nat.add_comm 2]
end

/-! ## Proofs: decoding the recorded events -/

/-- The chunks of an indefinite-length copy concatenate to the blob. -/
theorem decode_chunks_chunk_events (out : WriterId) (rest : List Event) :
    ∀ (n : Nat) (bytes : List Byte), bytes.length / buffer_size < n →
      decode_chunks out (chunk_events out bytes ++ ⟨out, .flush⟩ :: rest) = some (bytes, rest) := by
  intro n
  induction n with
  | zero => intro bytes h; exact absurd h (Nat.not_lt_zero _)
  | succ n ih =>
    intro bytes h
    by_cases hs : buffer_size ≤ bytes.length
    · have hd : bytes.length / buffer_size = (bytes.length - buffer_size) / buffer_size + 1 :=
        Nat.div_eq_sub_div buffer_size_pos hs
      have hn : (bytes.drop buffer_size).length / buffer_size < n := by
        rw [List.length_drop]
        generalize (bytes.length - buffer_size) / buffer_size = q at hd
        omega
      rw [chunk_events_full out bytes hs, List.cons_append, decode_chunks, if_pos rfl]
      simp only [ih _ hn, List.take_append_drop]
    · have hlt : bytes.length < buffer_size := Nat.lt_of_not_le hs
      rw [chunk_events_short out bytes hlt]
      simp [decode_chunks]

theorem decode_blob_events (tag : BlobTag) (bytes : List Byte) (w : WriterId)
    (rest : List Event) (fuel : Nat) :
    decode (fuel + 1) w (blob_events tag bytes w ++ rest) = some (.blob tag bytes, rest) := by
  unfold blob_events
  by_cases hs : bytes.length < buffer_size
  · rw [if_pos hs]
    simp [decode, decode_chunks]
  · rw [if_neg hs]
    simp only [List.cons_append, List.append_assoc, List.nil_append, List.append_eq, List.singleton_append, decode, if_pos,
      decode_chunks_chunk_events (w ++ [0]) rest _ bytes (Nat.lt_succ_self _)]

theorem Doc.events_length_pos (D : Doc) (w : WriterId) : 0 < (D.events w).length := by
  cases D with
  | blob tag bytes =>
    simp only [Doc.events, blob_events]
    split <;> simp
  | _ => simp [Doc.events]

mutual
/-- Decoding the events of a document gives the document back. -/
theorem decode_events : ∀ (D : Doc) (fuel : Nat) (w : WriterId) (rest : List Event),
    (D.events w).length ≤ fuel → decode fuel w (D.events w ++ rest) = some (D, rest)
  | .scalar v, fuel, w, rest, h => by
    obtain ⟨fuel, rfl⟩ : ∃ k, fuel = k + 1 := ⟨fuel - 1, by simp [Doc.events] at h; omega⟩
    simp [Doc.events, decode]
  | .blob tag bytes, fuel, w, rest, h => by
    obtain ⟨fuel, rfl⟩ : ∃ k, fuel = k + 1 :=
      ⟨fuel - 1, by have := Doc.events_length_pos (.blob tag bytes) w; omega⟩
    simp only [Doc.events, decode_blob_events]
  | .array elems, fuel, w, rest, h => by
    obtain ⟨fuel, rfl⟩ : ∃ k, fuel = k + 1 := ⟨fuel - 1, by simp [Doc.events] at h; omega⟩
    have he : (element_events elems (w ++ [0]) 0).length + 1 ≤ fuel := by
      simp [Doc.events] at h; omega
    simp only [Doc.events, List.cons_append, List.append_assoc, List.nil_append, List.append_eq, List.singleton_append, decode,
      if_pos, decode_elements_events elems fuel (w ++ [0]) 0 rest he]
  | .map pairs, fuel, w, rest, h => by
    obtain ⟨fuel, rfl⟩ : ∃ k, fuel = k + 1 := ⟨fuel - 1, by simp [Doc.events] at h; omega⟩
    have he : (pair_events pairs (w ++ [0]) 0).length + 1 ≤ fuel := by
      simp [Doc.events] at h; omega
    simp only [Doc.events, List.cons_append, List.append_assoc, List.nil_append, List.append_eq, List.singleton_append, decode,
      if_pos, decode_pairs_events pairs fuel (w ++ [0]) 0 rest he]
/-- Decoding the events of an element loop, closed by the `flush` of the array writer. -/
theorem decode_elements_events : ∀ (ds : List Doc) (fuel : Nat) (aw : WriterId) (n : Nat)
    (rest : List Event), (element_events ds aw n).length + 1 ≤ fuel →
      decode_elements fuel ⟨aw, n⟩ (element_events ds aw n ++ ⟨aw, .flush⟩ :: rest) =
        some (ds, rest)
  | [], fuel, aw, n, rest, h => by
    obtain ⟨fuel, rfl⟩ : ∃ k, fuel = k + 1 := ⟨fuel - 1, by omega⟩
    simp [element_events, decode_elements]
  | d :: ds, fuel, aw, n, rest, h => by
    obtain ⟨fuel, rfl⟩ : ∃ k, fuel = k + 1 := ⟨fuel - 1, by omega⟩
    have h1 : (d.events (aw ++ [n])).length ≤ fuel := by
      simp [element_events] at h; omega
    have h2 : (element_events ds aw (n + 1)).length + 1 ≤ fuel := by
      simp [element_events] at h; omega
    simp only [element_events, List.cons_append, List.append_assoc, List.nil_append, List.append_eq, decode_elements, if_pos,
      decode_events d fuel (aw ++ [n]) _ h1, decode_elements_events ds fuel aw (n + 1) rest h2]
/-- Decoding the events of a pair loop, closed by the `flush` of the map writer. -/
theorem decode_pairs_events : ∀ (ps : List (Doc × Doc)) (fuel : Nat) (mw : WriterId) (n : Nat)
    (rest : List Event), (pair_events ps mw n).length + 1 ≤ fuel →
      decode_pairs fuel ⟨mw, n⟩ (pair_events ps mw n ++ ⟨mw, .flush⟩ :: rest) =
        some (ps, rest)
  | [], fuel, mw, n, rest, h => by
    obtain ⟨fuel, rfl⟩ : ∃ k, fuel = k + 1 := ⟨fuel - 1, by omega⟩
    simp [pair_events, decode_pairs]
  | (k, v) :: ps, fuel, mw, n, rest, h => by
    obtain ⟨fuel, rfl⟩ : ∃ k, fuel = k + 1 := ⟨fuel - 1, by omega⟩
    have h1 : (k.events (mw ++ [n])).length ≤ fuel := by
      simp [pair_events] at h; omega
    have h2 : (v.events (mw ++ [n + 1])).length ≤ fuel := by
      simp [pair_events] at h; omega
    have h3 : (pair_events ps mw (n + 2)).length + 1 ≤ fuel := by
      simp [pair_events] at h; omega
    simp only [pair_events, List.cons_append, List.append_assoc, List.nil_append, List.append_eq, decode_pairs, if_pos,
      decode_events k fuel (mw ++ [n]) _ h1, decode_events v fuel (mw ++ [n + 1]) _ h2,
      decode_pairs_events ps fuel mw (n + 2) rest h3, and_self]
end

/-- The events of a document denote the document. -/
theorem denotes_events (D : Doc) (w : WriterId) : denotes w (D.events w) = some D := by
  have h := decode_events D (D.events w).length w [] (Nat.le_refl _)
  rw [List.append_nil] at h
  simp only [denotes, h]

/-! ## Proofs: which writer an event is addressed to -/

theorem prefix_of_append_prefix {w x : WriterId} {n : Nat} (h : w ++ [n] <+: x) : w <+: x :=
  List.IsPrefix.trans (List.prefix_append w [n]) h

theorem not_append_prefix_self (w : WriterId) (n : Nat) : ¬ (w ++ [n] <+: w) := by
  intro h
  have := h.length_le
  simp at this

theorem mem_chunk_events {out : WriterId} {bytes : List Byte} {e : Event}
    (h : e ∈ chunk_events out bytes) : e.target = out := by
  simp only [chunk_events, List.mem_map] at h
  obtain ⟨i, _, rfl⟩ := h
  rfl

theorem blob_events_target {tag : BlobTag} {bytes : List Byte} {w : WriterId} {e : Event}
    (h : e ∈ blob_events tag bytes w) : w <+: e.target := by
  unfold blob_events at h
  split at h
  · simp only [List.mem_cons, List.mem_singleton, List.not_mem_nil, or_false] at h
    rcases h with rfl | rfl | rfl
    · exact List.prefix_refl _
    · exact List.prefix_append _ _
    · exact List.prefix_append _ _
  · simp only [List.mem_cons, List.mem_append, List.mem_singleton, List.not_mem_nil,
      or_false] at h
    rcases h with (rfl | h) | rfl
    · exact List.prefix_refl _
    · rw [mem_chunk_events h]; exact List.prefix_append _ _
    · exact List.prefix_append _ _

mutual
/-- Every event of a copy is addressed to the document writer or to a writer below it. -/
theorem Doc.events_target : ∀ (D : Doc) (w : WriterId) (e : Event),
    e ∈ D.events w → w <+: e.target
  | .scalar v, w, e, h => by
    simp only [Doc.events, List.mem_singleton] at h
    subst h
    exact List.prefix_refl _
  | .blob tag bytes, w, e, h => blob_events_target h
  | .array elems, w, e, h => by
    simp only [Doc.events, List.mem_cons, List.mem_append, List.mem_singleton,
      List.not_mem_nil, or_false] at h
    rcases h with (rfl | h) | rfl
    · exact List.prefix_refl _
    · exact prefix_of_append_prefix (element_events_target elems (w ++ [0]) 0 e h)
    · exact List.prefix_append _ _
  | .map pairs, w, e, h => by
    simp only [Doc.events, List.mem_cons, List.mem_append, List.mem_singleton,
      List.not_mem_nil, or_false] at h
    rcases h with (rfl | h) | rfl
    · exact List.prefix_refl _
    · exact prefix_of_append_prefix (pair_events_target pairs (w ++ [0]) 0 e h)
    · exact List.prefix_append _ _
/-- Every event of an element loop is addressed to the array writer or below it. -/
theorem element_events_target : ∀ (ds : List Doc) (aw : WriterId) (n : Nat) (e : Event),
    e ∈ element_events ds aw n → aw <+: e.target
  | [], aw, n, e, h => by simp [element_events] at h
  | d :: ds, aw, n, e, h => by
    simp only [element_events, List.mem_cons, List.mem_append] at h
    rcases h with (rfl | h) | h
    · exact List.prefix_refl _
    · exact prefix_of_append_prefix (Doc.events_target d (aw ++ [n]) e h)
    · exact element_events_target ds aw (n + 1) e h
/-- Every event of a pair loop is addressed to the map writer or below it. -/
theorem pair_events_target : ∀ (ps : List (Doc × Doc)) (mw : WriterId) (n : Nat) (e : Event),
    e ∈ pair_events ps mw n → mw <+: e.target
  | [], mw, n, e, h => by simp [pair_events] at h
  | (k, v) :: ps, mw, n, e, h => by
    simp only [pair_events, List.mem_cons, List.mem_append] at h
    rcases h with (rfl | h) | (rfl | h) | h
    · exact List.prefix_refl _
    · exact prefix_of_append_prefix (Doc.events_target k (mw ++ [n]) e h)
    · exact List.prefix_refl _
    · exact prefix_of_append_prefix (Doc.events_target v (mw ++ [n + 1]) e h)
    · exact pair_events_target ps mw (n + 2) e h
end

/-- The events of a copy to a writer handed out by `x` are not addressed to `x`. -/
theorem filter_events_below (D : Doc) (x : WriterId) (n : Nat) :
    (D.events (x ++ [n])).filter (fun e => e.target = x) = [] := by
  rw [List.filter_eq_nil_iff]
  intro e he
  have hp := Doc.events_target D (x ++ [n]) e he
  intro h
  rw [decide_eq_true_eq] at h
  rw [h] at hp
  exact not_append_prefix_self x n hp

theorem filter_element_events_below (ds : List Doc) (x : WriterId) (k n : Nat) :
    (element_events ds (x ++ [k]) n).filter (fun e => e.target = x) = [] := by
  rw [List.filter_eq_nil_iff]
  intro e he
  have hp := element_events_target ds (x ++ [k]) n e he
  intro h
  rw [decide_eq_true_eq] at h
  rw [h] at hp
  exact not_append_prefix_self x k hp

theorem filter_pair_events_below (ps : List (Doc × Doc)) (x : WriterId) (k n : Nat) :
    (pair_events ps (x ++ [k]) n).filter (fun e => e.target = x) = [] := by
  rw [List.filter_eq_nil_iff]
  intro e he
  have hp := pair_events_target ps (x ++ [k]) n e he
  intro h
  rw [decide_eq_true_eq] at h
  rw [h] at hp
  exact not_append_prefix_self x k hp

/-- The calls an element loop makes on its array writer: one `append` per element. -/
theorem filter_element_events (aw : WriterId) : ∀ (ds : List Doc) (n : Nat),
    (element_events ds aw n).filter (fun e => e.target = aw) =
      List.replicate ds.length ⟨aw, .append⟩
  | [], n => by simp [element_events]
  | d :: ds, n => by
    simp [element_events, List.filter_cons, List.filter_append, filter_events_below,
      filter_element_events aw ds (n + 1), List.replicate_succ]

/-- The calls a pair loop makes on its map writer: `append_key` then `append_value`
for each pair. -/
theorem filter_pair_events (mw : WriterId) : ∀ (ps : List (Doc × Doc)) (n : Nat),
    (pair_events ps mw n).filter (fun e => e.target = mw) =
      (List.replicate ps.length [(⟨mw, .append_key⟩ : Event), ⟨mw, .append_value⟩]).flatten
  | [], n => by simp [pair_events]
  | (k, v) :: ps, n => by
    simp [pair_events, List.filter_cons, List.filter_append, filter_events_below,
      filter_pair_events mw ps (n + 2), List.replicate_succ]

/-- The element loop as one `append` and one copy per index. -/
theorem element_events_eq (aw : WriterId) : ∀ (ds : List Doc) (n : Nat),
    element_events ds aw n =
      (List.range ds.length).flatMap (fun i =>
        ⟨aw, .append⟩ ::
          (match ds[i]? with
           | some d => d.events (aw ++ [n + i])
           | none => []))
  | [], n => by simp [element_events]
  | d :: ds, n => by
    rw [element_events, element_events_eq aw ds (n + 1), List.length_cons,
      List.range_succ_eq_map, List.flatMap_cons, List.flatMap_map]
    simp [Nat.add_assoc, Nat.add_comm 1]

/-- The pair loop as `append_key`, a copy, `append_value`, a copy per index. -/
theorem pair_events_eq (mw : WriterId) : ∀ (ps : List (Doc × Doc)) (n : Nat),
    pair_events ps mw n =
      (List.range ps.length).flatMap (fun i =>
        ⟨mw, .append_key⟩ ::
          (match ps[i]? with
           | some p => p.1.events (mw ++ [n + 2 * i])
           | none => []) ++
        ⟨mw, .append_value⟩ ::
          (match ps[i]? with
           | some p => p.2.events (mw ++ [n + 2 * i + 1])
           | none => []))
  | [], n => by simp [pair_events]
  | (k, v) :: ps, n => by
    rw [pair_events, pair_events_eq mw ps (n + 2), List.length_cons,
      List.range_succ_eq_map, List.flatMap_cons, List.flatMap_map]
    simp [Nat.mul_add, Nat.add_assoc, Nat.add_comm 2, Nat.add_left_comm 2]

/-! ## The copy engine: main results -/

/-- C1: for every finite abstract document `D`, `copy_sax_document` run on a reader that
yields `D` and a recording writer terminates (any budget of at least `D.fuel` gives a
result) and the events it records denote exactly `D`. -/
theorem copy_sax_document_denotes (D : Doc) (fuel : Nat) (writer : WriterId)
    (log : List Event) (h : D.fuel ≤ fuel) :
    ∃ added : List Event,
      copy_sax_document plain fuel writer D.view ((), log) = .ok ((), log ++ added) ∧
      denotes writer added = some D :=
  ⟨D.events writer, copy_sax_document_plain D fuel writer log h, denotes_events D writer⟩

theorem copy_sax_document_denotes_witness :
    sample_document.fuel ≤ 19 ∧
    ∃ added : List Event,
      copy_sax_document plain 19 [] sample_document.view ((), []) = .ok ((), [] ++ added) ∧
      denotes [] added = some sample_document :=
  ⟨by decide, copy_sax_document_denotes sample_document 19 [] [] (by decide)⟩

/-- C2: when the first pull of `copy_stream` is a short read, which for a blob of
length `L` read through the plain reader means `L < 8192`, the copy is one
`write(tag, L)` with the tag of the blob, one `write_buffer` with its `L` bytes and one
`flush` on the stream that `write` returned; this holds for every reader whose first
pull returns these bytes, and for `L = 0`. -/
theorem copy_stream_definite (tag : BlobTag) (bytes : List Byte)
    (h : bytes.length < buffer_size) :
    buffer_size = 8192 ∧
    plain.read_buffer bytes buffer_size () = .ok (bytes, [], ()) ∧
    ∀ (σ B A M : Type) (R : Reader σ B A M) (s s' : B) (rs rs' : σ) (fuel : Nat)
      (writer : WriterId) (log : List Event),
      R.read_buffer s buffer_size rs = .ok (bytes, s', rs') →
        copy_stream R fuel s writer tag (rs, log) =
          .ok (s', rs', log ++ [⟨writer, .write_blob tag bytes.length⟩,
            ⟨writer ++ [0], .write_buffer bytes⟩, ⟨writer ++ [0], .flush⟩]) := by
  refine ⟨rfl, ?_, ?_⟩
  · rw [plain_read_buffer, List.take_of_length_le (Nat.le_of_lt h),
      List.drop_of_length_le (Nat.le_of_lt h)]
  · intro σ B A M R s s' rs rs' fuel writer log hread
    rw [copy_stream]
    simp only [hread, bind, Except.bind, if_pos h, Recorder.write_blob, Recorder.write_buffer,
      Recorder.flush, pure, Except.pure, List.append_assoc, List.singleton_append,
      List.cons_append, List.nil_append]

theorem copy_stream_definite_witness :
    [104, 101, 108, 108, 111].length < buffer_size ∧
    copy_stream plain 0 [104, 101, 108, 108, 111] [] .string ((), []) =
      .ok ([], (), [⟨[], .write_blob .string 5⟩, ⟨[0], .write_buffer [104, 101, 108, 108, 111]⟩,
        ⟨[0], .flush⟩]) :=
  ⟨by decide,
    (copy_stream_definite .string [104, 101, 108, 108, 111] (by decide)).2.2
      Unit (List Byte) (List Doc) PlainMap plain _ _ _ _ 0 [] []
      (copy_stream_definite .string [104, 101, 108, 108, 111] (by decide)).2.1⟩

/-- C3: for every blob of length `L ≥ 8192` read through the plain reader, `copy_stream`
records `write(tag)` without a length, then `L / 8192 + 1` calls of `write_buffer` on
the stream it returned, then one `flush`; chunk `i < L / 8192` is the next 8192 bytes
of the blob, the last chunk is the remaining `L mod 8192` bytes (empty when 8192
divides `L`), and no chunk is longer than 8192 bytes. -/
theorem copy_stream_indefinite (tag : BlobTag) (bytes : List Byte) (fuel : Nat)
    (writer : WriterId) (log : List Event)
    (hlen : buffer_size ≤ bytes.length) (hfuel : bytes.length / buffer_size ≤ fuel) :
    buffer_size = 8192 ∧
    ∃ chunks : List (List Byte),
      copy_stream plain fuel bytes writer tag ((), log) =
        .ok ([], (), log ++
          (⟨writer, .write_stream tag⟩ ::
            chunks.map (fun c => (⟨writer ++ [0], .write_buffer c⟩ : Event)) ++
          [⟨writer ++ [0], .flush⟩])) ∧
      chunks.length = bytes.length / buffer_size + 1 ∧
      (∀ i, i < bytes.length / buffer_size →
        chunks[i]? = some ((bytes.drop (i * buffer_size)).take buffer_size) ∧
        ((bytes.drop (i * buffer_size)).take buffer_size).length = buffer_size) ∧
      chunks[bytes.length / buffer_size]? =
        some (bytes.drop (bytes.length / buffer_size * buffer_size)) ∧
      (bytes.drop (bytes.length / buffer_size * buffer_size)).length =
        bytes.length % buffer_size ∧
      (∀ c ∈ chunks, c.length ≤ buffer_size) := by
  refine ⟨rfl, (List.range (bytes.length / buffer_size + 1)).map (chunk bytes), ?_, ?_, ?_, ?_,
    ?_, ?_⟩
  · rw [copy_stream_plain fuel bytes writer tag log (Nat.lt_succ_of_le hfuel), blob_events,
      if_neg (Nat.not_lt_of_le hlen), chunk_events, List.map_map]
    rfl
  · simp
  · intro i hi
    have hmul : i * buffer_size + buffer_size ≤ bytes.length := by
      have h1 : (i + 1) * buffer_size ≤ bytes.length / buffer_size * buffer_size :=
        Nat.mul_le_mul_right _ hi
      have h2 := Nat.div_mul_le_self bytes.length buffer_size
      rw [Nat.add_mul, Nat.one_mul] at h1
      exact Nat.le_trans h1 h2
    constructor
    · rw [List.getElem?_map, List.getElem?_range (Nat.lt_succ_of_lt hi)]
      rfl
    · rw [List.length_take, List.length_drop]
      generalize buffer_size = b at hmul
      omega
  · rw [List.getElem?_map, List.getElem?_range (Nat.lt_succ_self _)]
    simp only [Option.map_some', chunk]
    rw [List.take_of_length_le]
    rw [List.length_drop]
    have h2 := Nat.div_add_mod bytes.length buffer_size
    have h3 := Nat.mod_lt bytes.length buffer_size_pos
    rw [Nat.mul_comm] at h2
    generalize bytes.length / buffer_size * buffer_size = q at h2
    generalize bytes.length % buffer_size = r at h2 h3
    generalize buffer_size = b at h3
    omega
  · rw [List.length_drop]
    have h2 := Nat.div_add_mod bytes.length buffer_size
    rw [Nat.mul_comm] at h2
    generalize bytes.length / buffer_size * buffer_size = q at h2
    generalize bytes.length % buffer_size = r at h2
    omega
  · intro c hc
    rw [List.mem_map] at hc
    obtain ⟨i, _, rfl⟩ := hc
    rw [chunk, List.length_take]
    exact Nat.min_le_left _ _

theorem copy_stream_indefinite_witness :
    buffer_size ≤ full_buffer_blob.length ∧
    full_buffer_blob.length / buffer_size ≤ 1 ∧
    buffer_size = 8192 ∧
    ∃ chunks : List (List Byte),
      copy_stream plain 1 full_buffer_blob [] .binary ((), []) =
        .ok ([], (), [] ++
          (⟨[], .write_stream .binary⟩ ::
            chunks.map (fun c => (⟨[] ++ [0], .write_buffer c⟩ : Event)) ++
          [⟨[] ++ [0], .flush⟩])) ∧
      chunks.length = full_buffer_blob.length / buffer_size + 1 ∧
      (∀ i, i < full_buffer_blob.length / buffer_size →
        chunks[i]? = some ((full_buffer_blob.drop (i * buffer_size)).take buffer_size) ∧
        ((full_buffer_blob.drop (i * buffer_size)).take buffer_size).length = buffer_size) ∧
      chunks[full_buffer_blob.length / buffer_size]? =
        some (full_buffer_blob.drop (full_buffer_blob.length / buffer_size * buffer_size)) ∧
      (full_buffer_blob.drop (full_buffer_blob.length / buffer_size * buffer_size)).length =
        full_buffer_blob.length % buffer_size ∧
      (∀ c ∈ chunks, c.length ≤ buffer_size) :=
  have h1 : buffer_size ≤ full_buffer_blob.length := by
    rw [full_buffer_blob, List.length_replicate]; decide
  have h2 : full_buffer_blob.length / buffer_size ≤ 1 := by
    rw [full_buffer_blob, List.length_replicate]; decide
  ⟨h1, h2, copy_stream_indefinite .binary full_buffer_blob 1 [] [] h1 h2⟩

theorem fuel_le_fuel_elements : ∀ (ds : List Doc) (d : Doc), d ∈ ds → d.fuel ≤ fuel_elements ds
  | [], d, h => by simp at h
  | x :: xs, d, h => by
    rw [List.mem_cons] at h
    rw [fuel_elements]
    rcases h with rfl | h
    · omega
    · have := fuel_le_fuel_elements xs d h
      omega

theorem fuel_le_fuel_pairs : ∀ (ps : List (Doc × Doc)) (p : Doc × Doc), p ∈ ps →
    p.1.fuel ≤ fuel_pairs ps ∧ p.2.fuel ≤ fuel_pairs ps
  | [], p, h => by simp at h
  | (k, v) :: xs, p, h => by
    rw [List.mem_cons] at h
    rw [fuel_pairs]
    rcases h with rfl | h
    · constructor <;> simp only <;> omega
    · have := fuel_le_fuel_pairs xs p h
      constructor <;> omega

/-- C4: for every array reader that yields the `n` elements `elems` and then `none`,
`copy_sax_document` makes one `write(tags::array{})` on the document writer, and on the
array writer `writer ++ [0]` it returned exactly `n` calls of `append()` followed by
one `flush()`; the events recorded after the `i`-th `append()` are the copy of the
`i`-th element to the document writer that `append()` returned. -/
theorem copy_sax_document_array (elems : List Doc) (fuel : Nat) (writer : WriterId)
    (log : List Event) (h : (Doc.array elems).fuel ≤ fuel) :
    ∃ (added : List Event) (copies : Nat → List Event),
      copy_sax_document plain fuel writer (.array elems) ((), log) = .ok ((), log ++ added) ∧
      added = ⟨writer, .write_array⟩ ::
        (List.range elems.length).flatMap (fun i => ⟨writer ++ [0], .append⟩ :: copies i) ++
        [⟨writer ++ [0], .flush⟩] ∧
      (∀ (i : Nat) (hi : i < elems.length),
        copy_sax_document plain fuel (Recorder.append ⟨writer ++ [0], i⟩ []).1
          (elems.get ⟨i, hi⟩).view ((), []) = .ok ((), copies i)) ∧
      added.filter (fun e => e.target = writer ++ [0]) =
        List.replicate elems.length ⟨writer ++ [0], .append⟩ ++ [⟨writer ++ [0], .flush⟩] ∧
      added.filter (fun e => e.target = writer) = [⟨writer, .write_array⟩] := by
  have hfuel : fuel_elements elems ≤ fuel := by simp only [Doc.fuel] at h; omega
  refine ⟨(Doc.array elems).events writer,
    fun i => match elems[i]? with
      | some d => d.events (writer ++ [0] ++ [i])
      | none => [], ?_, ?_, ?_, ?_, ?_⟩
  · exact copy_sax_document_plain (.array elems) fuel writer log h
  · rw [Doc.events, element_events_eq]
    simp
  · intro i hi
    have hmem : elems.get ⟨i, hi⟩ ∈ elems := List.get_mem _ _ _
    have hf := Nat.le_trans (fuel_le_fuel_elements elems _ hmem) hfuel
    have := copy_sax_document_plain (elems.get ⟨i, hi⟩) fuel (writer ++ [0] ++ [i]) [] hf
    simp only [List.nil_append, List.get_eq_getElem] at this
    simp only [Recorder.append, this, List.get_eq_getElem, List.getElem?_eq_getElem hi]
  · simp [Doc.events, List.filter_cons, List.filter_append, filter_element_events]
  · simp [Doc.events, List.filter_cons, List.filter_append, filter_element_events_below]

theorem copy_sax_document_array_witness :
    (Doc.array [.scalar (.unsigned_int 1), .scalar (.unsigned_int 2)]).fuel ≤ 6 ∧
    ∃ (added : List Event) (copies : Nat → List Event),
      copy_sax_document plain 6 [] (.array [.scalar (.unsigned_int 1), .scalar (.unsigned_int 2)])
        ((), []) = .ok ((), [] ++ added) ∧
      added = ⟨[], .write_array⟩ ::
        (List.range [Doc.scalar (.unsigned_int 1), Doc.scalar (.unsigned_int 2)].length).flatMap
          (fun i => ⟨[] ++ [0], .append⟩ :: copies i) ++
        [⟨[] ++ [0], .flush⟩] :=
  ⟨by decide,
    match copy_sax_document_array [.scalar (.unsigned_int 1), .scalar (.unsigned_int 2)] 6 [] []
      (by decide) with
    | ⟨added, copies, h1, h2, _⟩ => ⟨added, copies, h1, h2⟩⟩

/-- C5: for every map reader that yields the `n` pairs `pairs` and then `none`, the
calls `copy_sax_document` makes on the map writer `writer ++ [0]` are exactly `n`
repetitions of `append_key()` followed by `append_value()`, then one `flush()`; the
events recorded after the `i`-th `append_key()` are the copy of the `i`-th key to the
writer that call returned, and those after the `i`-th `append_value()` are the copy of
the `i`-th value to the writer that call returned. -/
theorem copy_sax_document_map (pairs : List (Doc × Doc)) (fuel : Nat) (writer : WriterId)
    (log : List Event) (h : (Doc.map pairs).fuel ≤ fuel) :
    ∃ (added : List Event) (keys values : Nat → List Event),
      copy_sax_document plain fuel writer (.map (none, pairs)) ((), log) =
        .ok ((), log ++ added) ∧
      added = ⟨writer, .write_map⟩ ::
        (List.range pairs.length).flatMap (fun i =>
          ⟨writer ++ [0], .append_key⟩ :: keys i ++
            ⟨writer ++ [0], .append_value⟩ :: values i) ++
        [⟨writer ++ [0], .flush⟩] ∧
      (∀ (i : Nat) (hi : i < pairs.length),
        copy_sax_document plain fuel (Recorder.append_key ⟨writer ++ [0], 2 * i⟩ []).1
          (pairs.get ⟨i, hi⟩).1.view ((), []) = .ok ((), keys i) ∧
        copy_sax_document plain fuel (Recorder.append_value ⟨writer ++ [0], 2 * i + 1⟩ []).1
          (pairs.get ⟨i, hi⟩).2.view ((), []) = .ok ((), values i)) ∧
      added.filter (fun e => e.target = writer ++ [0]) =
        (List.replicate pairs.length
          [(⟨writer ++ [0], .append_key⟩ : Event), ⟨writer ++ [0], .append_value⟩]).flatten ++
        [⟨writer ++ [0], .flush⟩] ∧
      added.filter (fun e => e.target = writer) = [⟨writer, .write_map⟩] := by
  have hfuel : fuel_pairs pairs ≤ fuel := by simp only [Doc.fuel] at h; omega
  refine ⟨(Doc.map pairs).events writer,
    (fun i => match pairs[i]? with
      | some p => p.1.events (writer ++ [0] ++ [2 * i])
      | none => []),
    (fun i => match pairs[i]? with
      | some p => p.2.events (writer ++ [0] ++ [2 * i + 1])
      | none => []), ?_, ?_, ?_, ?_, ?_⟩
  · exact copy_sax_document_plain (.map pairs) fuel writer log h
  · rw [Doc.events, pair_events_eq]
    simp
  · intro i hi
    have hmem : pairs.get ⟨i, hi⟩ ∈ pairs := List.get_mem _ _ _
    have hf := fuel_le_fuel_pairs pairs _ hmem
    have r1 := copy_sax_document_plain (pairs.get ⟨i, hi⟩).1 fuel (writer ++ [0] ++ [2 * i]) []
      (Nat.le_trans hf.1 hfuel)
    have r2 := copy_sax_document_plain (pairs.get ⟨i, hi⟩).2 fuel (writer ++ [0] ++ [2 * i + 1])
      [] (Nat.le_trans hf.2 hfuel)
    simp only [List.nil_append, List.get_eq_getElem] at r1 r2
    simp only [Recorder.append_key, Recorder.append_value, r1, r2, List.get_eq_getElem,
      List.getElem?_eq_getElem hi, and_self]
  · simp [Doc.events, List.filter_cons, List.filter_append, filter_pair_events]
  · simp [Doc.events, List.filter_cons, List.filter_append, filter_pair_events_below]

theorem copy_sax_document_map_witness :
    (Doc.map [(.blob .string [97], .scalar (.unsigned_int 1)),
      (.blob .string [98], .scalar (.unsigned_int 2))]).fuel ≤ 10 ∧
    ∃ (added : List Event) (keys values : Nat → List Event),
      copy_sax_document plain 10 [] (.map (none, [(.blob .string [97], .scalar (.unsigned_int 1)),
        (.blob .string [98], .scalar (.unsigned_int 2))])) ((), []) = .ok ((), [] ++ added) ∧
      added = ⟨[], .write_map⟩ ::
        (List.range [(Doc.blob .string [97], Doc.scalar (.unsigned_int 1)),
          (Doc.blob .string [98], Doc.scalar (.unsigned_int 2))].length).flatMap (fun i =>
          ⟨[] ++ [0], .append_key⟩ :: keys i ++ ⟨[] ++ [0], .append_value⟩ :: values i) ++
        [⟨[] ++ [0], .flush⟩] :=
  ⟨by decide,
    match copy_sax_document_map [(.blob .string [97], .scalar (.unsigned_int 1)),
      (.blob .string [98], .scalar (.unsigned_int 2))] 10 [] [] (by decide) with
    | ⟨added, keys, values, h1, h2, _⟩ => ⟨added, keys, values, h1, h2⟩⟩

/-- C6: for every document of a scalar kind, `copy_sax_document` records exactly one
call, `write(v)` with the value of the document, on the document writer; it leaves the
state of the reader as it was, whatever the reader is, so it invokes no operation of the
reader. -/
theorem copy_sax_document_scalar (σ B A M : Type) (R : Reader σ B A M) (v : Scalar)
    (fuel : Nat) (writer : WriterId) (rs : σ) (log : List Event) :
    copy_sax_document R (fuel + 1) writer v.document (rs, log) =
      .ok (rs, log ++ [⟨writer, .write v⟩]) := by
  cases v <;> rfl

/-! ## Proofs: the gates of the checked reader -/

namespace checked

theorem lt_length_of_getElem? {hs : List Handle} {i : Nat} {h : Handle}
    (hi : hs[i]? = some h) : i < hs.length := by
  rw [List.getElem?_eq_some] at hi
  exact hi.1

theorem getElem?_set_at {hs : List Handle} {id : Nat} {h : Handle} (hid : hs[id]? = some h)
    (h' : Handle) (i : Nat) :
    (hs.set id h')[i]? = if i = id then some h' else hs[i]? := by
  rw [List.getElem?_set]
  by_cases e : id = i
  · subst e
    simp [lt_length_of_getElem? hid]
  · rw [if_neg e, if_neg (fun x => e x.symm)]

theorem length_gate (hs : List Handle) (p : Option Nat) (b : Bool) :
    (gate hs p b).length = hs.length := by
  unfold gate
  split
  · rfl
  · split <;> simp

theorem getElem?_gate (hs : List Handle) (p : Nat) (b : Bool) (i : Nat) :
    (gate hs (some p) b)[i]? =
      if i = p then (hs[i]?).map (fun h => { h with armed := b }) else hs[i]? := by
  unfold gate
  simp only
  cases hp : hs[p]? with
  | none =>
    simp only
    by_cases e : i = p
    · subst e; simp [hp]
    · simp [e]
  | some h =>
    simp only
    rw [getElem?_set_at hp]
    by_cases e : i = p
    · subst e; simp [hp]
    · simp [e]

theorem length_spawn (hs : List Handle) (p : Option Nat) (body : Body) :
    (spawn hs p body).length = hs.length + 1 := by
  simp [spawn, length_gate]

theorem getElem?_spawn (hs : List Handle) (p : Nat) (body : Body) (i : Nat) :
    (spawn hs (some p) body)[i]? =
      if i = hs.length then some ⟨some p, true, body⟩
      else if i = p then (hs[i]?).map (fun h => { h with armed := false })
      else hs[i]? := by
  unfold spawn
  rw [List.getElem?_append, length_gate]
  by_cases e : i = hs.length
  · subst e; simp
  · rw [if_neg e]
    by_cases hlt : i < hs.length
    · rw [if_pos hlt, getElem?_gate]
    · have hge : hs.length ≤ i := Nat.le_of_not_lt hlt
      rw [if_neg hlt, List.getElem?_eq_none hge]
      have : i - hs.length ≠ 0 := by omega
      obtain ⟨k, hk⟩ : ∃ k, i - hs.length = k + 1 := ⟨i - hs.length - 1, by omega⟩
      rw [hk]
      simp

theorem getElem?_spawn_none (hs : List Handle) (body : Body) (i : Nat) :
    (spawn hs none body)[i]? =
      if i = hs.length then some ⟨none, true, body⟩ else hs[i]? := by
  unfold spawn gate
  simp only
  rw [List.getElem?_append]
  by_cases e : i = hs.length
  · subst e; simp
  · rw [if_neg e]
    by_cases hlt : i < hs.length
    · rw [if_pos hlt]
    · have hge : hs.length ≤ i := Nat.le_of_not_lt hlt
      rw [if_neg hlt, List.getElem?_eq_none hge]
      obtain ⟨k, hk⟩ : ∃ k, i - hs.length = k + 1 := ⟨i - hs.length - 1, by omega⟩
      rw [hk]
      simp

theorem length_finish (hs : List Handle) (id : Nat) (h : Handle) (body : Body) :
    (finish hs id h body).length = hs.length := by
  simp [finish, length_gate]

theorem getElem?_finish {hs : List Handle} {id : Nat} {h : Handle} (hid : hs[id]? = some h)
    (body : Body) (i : Nat) :
    (finish hs id h body)[i]? =
      if h.parent = some i then
        (if i = id then some { h with body := body, armed := true }
         else (hs[i]?).map (fun x => { x with armed := true }))
      else if i = id then some { h with body := body }
      else hs[i]? := by
  unfold finish
  cases hp : h.parent with
  | none => simp [gate, getElem?_set_at hid]
  | some p =>
    rw [getElem?_gate, getElem?_set_at hid]
    by_cases e : i = p
    · subst e
      by_cases e2 : i = id <;> simp [e2]
    · have : ¬ (some p = some i) := fun x => e (Option.some.inj x).symm
      simp [e, this]

end checked

namespace checked

theorem inv_nil : Inv [] :=
  ⟨fun c hc p h => by simp at h, fun c hc p h => by simp at h,
    fun c c' hc hc' p h => by simp at h⟩

/-- A change of the content of a sub-reader that does not finalize it keeps the gates
consistent. -/
theorem inv_set_body {hs : List Handle} {id : Nat} {h : Handle} (inv : Inv hs)
    (hid : hs[id]? = some h) (body : Body) (hb : body.finalized = h.body.finalized) :
    Inv (hs.set id { h with body := body }) := by
  have key : ∀ (i : Nat) (x : Handle), (hs.set id { h with body := body })[i]? = some x →
      ∃ y, hs[i]? = some y ∧ x.parent = y.parent ∧ x.armed = y.armed ∧
        x.body.finalized = y.body.finalized := by
    intro i x hx
    rw [getElem?_set_at hid] at hx
    by_cases e : i = id
    · subst e
      rw [if_pos rfl] at hx
      cases hx
      exact ⟨h, hid, rfl, rfl, hb⟩
    · rw [if_neg e] at hx
      exact ⟨x, hx, rfl, rfl, rfl⟩
  have back : ∀ (i : Nat) (y : Handle), hs[i]? = some y →
      ∃ x, (hs.set id { h with body := body })[i]? = some x ∧ x.armed = y.armed ∧
        x.body.finalized = y.body.finalized := by
    intro i y hy
    rw [getElem?_set_at hid]
    by_cases e : i = id
    · subst e
      rw [hid] at hy
      cases hy
      exact ⟨_, if_pos rfl, rfl, hb⟩
    · exact ⟨y, by rw [if_neg e]; exact hy, rfl, rfl⟩
  refine ⟨?_, ?_, ?_⟩
  · intro c hc p h1 h2
    obtain ⟨y, hy, e1, _, _⟩ := key c hc h1
    exact inv.parent_lt c y p hy (e1 ▸ h2)
  · intro c hc p h1 h2 h3
    obtain ⟨y, hy, e1, _, e3⟩ := key c hc h1
    obtain ⟨hp, hp1, hp2, hp3⟩ := inv.gated c y p hy (e1 ▸ h2) (e3 ▸ h3)
    obtain ⟨x, hx, x1, x2⟩ := back p hp hp1
    exact ⟨x, hx, x1.trans hp2, x2.trans hp3⟩
  · intro c c' hc hc' p h1 h1' h2 h2' h3 h3'
    obtain ⟨y, hy, e1, _, e3⟩ := key c hc h1
    obtain ⟨y', hy', e1', _, e3'⟩ := key c' hc' h1'
    exact inv.single c c' y y' p hy hy' (e1 ▸ h2) (e1' ▸ h2') (e3 ▸ h3) (e3' ▸ h3')

/-- Finalizing an armed sub-reader keeps the gates consistent. -/
theorem inv_finish {hs : List Handle} {id : Nat} {h : Handle} (inv : Inv hs)
    (hid : hs[id]? = some h) (harmed : h.armed = true) (hlive : h.body.finalized = false)
    (body : Body) (hb : body.finalized = true) :
    Inv (finish hs id h body) := by
  have hne : ∀ i, h.parent = some i → i ≠ id := fun i hp e =>
    Nat.lt_irrefl id (e ▸ inv.parent_lt id h i hid hp)
  have key : ∀ (i : Nat) (x : Handle), (finish hs id h body)[i]? = some x →
      x.body.finalized = false →
      i ≠ id ∧ ∃ y, hs[i]? = some y ∧ x.parent = y.parent ∧ x.body = y.body := by
    intro i x hx hf
    rw [getElem?_finish hid] at hx
    by_cases e : i = id
    · subst e
      have : ¬ h.parent = some i := fun hp => hne i hp rfl
      rw [if_neg this, if_pos rfl] at hx
      cases hx
      simp [hb] at hf
    · refine ⟨e, ?_⟩
      by_cases hp : h.parent = some i
      · rw [if_pos hp, if_neg e] at hx
        cases hy : hs[i]? with
        | none => rw [hy] at hx; simp at hx
        | some y =>
          rw [hy] at hx
          simp only [Option.map_some', Option.some.injEq] at hx
          subst hx
          exact ⟨y, rfl, rfl, rfl⟩
      · rw [if_neg hp, if_neg e] at hx
        exact ⟨x, hx, rfl, rfl⟩
  have par : ∀ (i : Nat) (x : Handle), (finish hs id h body)[i]? = some x →
      ∃ y, hs[i]? = some y ∧ x.parent = y.parent := by
    intro i x hx
    rw [getElem?_finish hid] at hx
    by_cases e : i = id
    · subst e
      have : ¬ h.parent = some i := fun hp => hne i hp rfl
      rw [if_neg this, if_pos rfl] at hx
      cases hx
      exact ⟨h, hid, rfl⟩
    · by_cases hp : h.parent = some i
      · rw [if_pos hp, if_neg e] at hx
        cases hy : hs[i]? with
        | none => rw [hy] at hx; simp at hx
        | some y =>
          rw [hy] at hx
          simp only [Option.map_some', Option.some.injEq] at hx
          subst hx
          exact ⟨y, rfl, rfl⟩
      · rw [if_neg hp, if_neg e] at hx
        exact ⟨x, hx, rfl⟩
  refine ⟨?_, ?_, ?_⟩
  · intro c hc p h1 h2
    obtain ⟨y, hy, e1⟩ := par c hc h1
    exact inv.parent_lt c y p hy (e1 ▸ h2)
  · intro c hc p h1 h2 h3
    obtain ⟨hcid, y, hy, e1, e3⟩ := key c hc h1 h3
    obtain ⟨hp, hp1, hp2, hp3⟩ := inv.gated c y p hy (e1 ▸ h2) (e3 ▸ h3)
    have hpid : p ≠ id := by
      intro e
      subst e
      rw [hid] at hp1
      cases hp1
      rw [harmed] at hp2
      cases hp2
    have hpar : ¬ h.parent = some p := by
      intro e
      exact hcid (inv.single c id y h p hy hid (e1 ▸ h2) e (e3 ▸ h3) hlive)
    refine ⟨hp, ?_, hp2, hp3⟩
    rw [getElem?_finish hid, if_neg hpar, if_neg hpid]
    exact hp1
  · intro c c' hc hc' p h1 h1' h2 h2' h3 h3'
    obtain ⟨_, y, hy, e1, e3⟩ := key c hc h1 h3
    obtain ⟨_, y', hy', e1', e3'⟩ := key c' hc' h1' h3'
    exact inv.single c c' y y' p hy hy' (e1 ▸ h2) (e1' ▸ h2') (e3 ▸ h3) (e3' ▸ h3')

/-- Creating a child of an armed sub-reader that is not finalized keeps the gates
consistent. -/
theorem inv_spawn {hs : List Handle} {id : Nat} {h : Handle} (inv : Inv hs)
    (hid : hs[id]? = some h) (harmed : h.armed = true) (hlive : h.body.finalized = false)
    (body : Body) :
    Inv (spawn hs (some id) body) := by
  have hlt : id < hs.length := lt_length_of_getElem? hid
  have key : ∀ (i : Nat) (x : Handle), (spawn hs (some id) body)[i]? = some x →
      (i = hs.length ∧ x = ⟨some id, true, body⟩) ∨
      (i < hs.length ∧ ∃ y, hs[i]? = some y ∧ x.parent = y.parent ∧ x.body = y.body ∧
        (y.armed = false → x.armed = false)) := by
    intro i x hx
    rw [getElem?_spawn] at hx
    by_cases e : i = hs.length
    · rw [if_pos e] at hx
      cases hx
      exact Or.inl ⟨e, rfl⟩
    · rw [if_neg e] at hx
      right
      by_cases e2 : i = id
      · rw [if_pos e2] at hx
        cases hy : hs[i]? with
        | none => rw [hy] at hx; simp at hx
        | some y =>
          rw [hy] at hx
          simp only [Option.map_some', Option.some.injEq] at hx
          subst hx
          exact ⟨lt_length_of_getElem? hy, y, rfl, rfl, rfl, fun _ => rfl⟩
      · rw [if_neg e2] at hx
        exact ⟨lt_length_of_getElem? hx, x, hx, rfl, rfl, fun a => a⟩
  have back : ∀ (i : Nat) (y : Handle), hs[i]? = some y → y.armed = false →
      ∃ x, (spawn hs (some id) body)[i]? = some x ∧ x.armed = false ∧ x.body = y.body := by
    intro i y hy ha
    have hi : i ≠ hs.length := Nat.ne_of_lt (lt_length_of_getElem? hy)
    rw [getElem?_spawn, if_neg hi]
    by_cases e2 : i = id
    · rw [if_pos e2, hy]
      exact ⟨_, rfl, rfl, rfl⟩
    · rw [if_neg e2]
      exact ⟨y, hy, ha, rfl⟩
  have hself : (spawn hs (some id) body)[id]? = some { h with armed := false } := by
    rw [getElem?_spawn, if_neg (Nat.ne_of_lt hlt), if_pos rfl, hid]
    rfl
  refine ⟨?_, ?_, ?_⟩
  · intro c hc p h1 h2
    rcases key c hc h1 with ⟨e, rfl⟩ | ⟨_, y, hy, e1, _⟩
    · cases h2
      rw [e]
      exact hlt
    · exact inv.parent_lt c y p hy (e1 ▸ h2)
  · intro c hc p h1 h2 h3
    rcases key c hc h1 with ⟨e, rfl⟩ | ⟨_, y, hy, e1, e3, _⟩
    · cases h2
      exact ⟨_, hself, rfl, hlive⟩
    · obtain ⟨hp, hp1, hp2, hp3⟩ := inv.gated c y p hy (e1 ▸ h2) (e3 ▸ h3)
      obtain ⟨x, hx, x1, x2⟩ := back p hp hp1 hp2
      exact ⟨x, hx, x1, x2 ▸ hp3⟩
  · intro c c' hc hc' p h1 h1' h2 h2' h3 h3'
    have old : ∀ (i : Nat) (y : Handle), hs[i]? = some y → y.parent = some id →
        y.body.finalized = false → False := by
      intro i y hy hpar hfin
      obtain ⟨hp, hp1, hp2, _⟩ := inv.gated i y id hy hpar hfin
      rw [hid] at hp1
      cases hp1
      rw [harmed] at hp2
      cases hp2
    rcases key c hc h1 with ⟨e, rfl⟩ | ⟨hl, y, hy, e1, e3, _⟩
    · rcases key c' hc' h1' with ⟨e', rfl⟩ | ⟨_, y', hy', e1', e3', _⟩
      · rw [e, e']
      · cases h2
        exact (old c' y' hy' (e1' ▸ h2') (e3' ▸ h3')).elim
    · rcases key c' hc' h1' with ⟨e', rfl⟩ | ⟨_, y', hy', e1', e3', _⟩
      · cases h2'
        exact (old c y hy (e1 ▸ h2) (e3 ▸ h3)).elim
      · exact inv.single c c' y y' p hy hy' (e1 ▸ h2) (e1' ▸ h2') (e3 ▸ h3) (e3' ▸ h3')

theorem inv_spawn_root (body : Body) : Inv (spawn [] none body) := by
  have key : ∀ (i : Nat) (x : Handle), (spawn [] none body)[i]? = some x → x.parent = none := by
    intro i x hx
    rw [getElem?_spawn_none] at hx
    by_cases e : i = ([] : List Handle).length
    · rw [if_pos e] at hx
      cases hx
      rfl
    · rw [if_neg e] at hx
      simp at hx
  refine ⟨?_, ?_, ?_⟩
  · intro c hc p h1 h2
    rw [key c hc h1] at h2
    cases h2
  · intro c hc p h1 h2
    rw [key c hc h1] at h2
    cases h2
  · intro c c' hc hc' p h1 _ h2
    rw [key c hc h1] at h2
    cases h2

end checked

namespace checked

theorem inv_hand_out {hs : List Handle} {id : Nat} {h : Handle} (inv : Inv hs)
    (hid : hs[id]? = some h) (harmed : h.armed = true) (hlive : h.body.finalized = false)
    (d : Doc) : Inv (hand_out hs (some id) d).2 := by
  cases d with
  | scalar v => exact inv
  | blob tag bytes => cases tag <;> exact inv_spawn inv hid harmed hlive _
  | array elems => exact inv_spawn inv hid harmed hlive _
  | map pairs => exact inv_spawn inv hid harmed hlive _

theorem inv_open_document (d : Doc) : Inv (open_document d).2 := by
  cases d with
  | scalar v => exact inv_nil
  | blob tag bytes => cases tag <;> exact inv_spawn_root _
  | array elems => exact inv_spawn_root _
  | map pairs => exact inv_spawn_root _

/-- What a successful pull says about the blob and the handles after it. -/
theorem read_buffer_ok {hs hs' : List Handle} {id id' n : Nat} {bytes : List Byte}
    (h : read_buffer id n hs = .ok (bytes, id', hs')) :
    ∃ parent rest, hs[id]? = some ⟨parent, true, .blob rest false⟩ ∧ bytes = rest.take n ∧
      id' = id ∧
      hs' = if bytes.length < n then
          finish hs id ⟨parent, true, .blob rest false⟩ (.blob (rest.drop n) true)
        else hs.set id ⟨parent, true, .blob (rest.drop n) false⟩ := by
  unfold read_buffer at h
  split at h
  · rename_i parent rest heq
    refine ⟨parent, rest, heq, ?_⟩
    split at h
    · rename_i hlt
      cases h
      exact ⟨rfl, rfl, by rw [if_pos hlt]⟩
    · rename_i hlt
      cases h
      exact ⟨rfl, rfl, by rw [if_neg hlt]⟩
  · cases h

/-- What a successful seek says about the blob and the handles after it. -/
theorem seek_ok {hs hs' : List Handle} {id n k : Nat} (h : seek id n hs = .ok (k, hs')) :
    ∃ parent rest, hs[id]? = some ⟨parent, true, .blob rest false⟩ ∧ k = (rest.take n).length ∧
      hs' = if k < n then
          finish hs id ⟨parent, true, .blob rest false⟩ (.blob (rest.drop n) true)
        else hs.set id ⟨parent, true, .blob (rest.drop n) false⟩ := by
  unfold seek at h
  split at h
  · rename_i parent rest heq
    refine ⟨parent, rest, heq, ?_⟩
    split at h
    · rename_i hlt
      cases h
      exact ⟨rfl, by rw [if_pos hlt]⟩
    · rename_i hlt
      cases h
      exact ⟨rfl, by rw [if_neg hlt]⟩
  · cases h

/-- What a successful `read()` says about the array and the handles after it. -/
theorem read_ok {hs hs' : List Handle} {id id' : Nat} {r : Option (Document Nat Nat Nat)}
    (h : read id hs = .ok (r, id', hs')) :
    ∃ parent rest, hs[id]? = some ⟨parent, true, .array rest false⟩ ∧ id' = id ∧
      ((rest = [] ∧ r = none ∧
        hs' = finish hs id ⟨parent, true, .array [] false⟩ (.array [] true)) ∨
       (∃ d ds, rest = d :: ds ∧
        r = some (hand_out (hs.set id ⟨parent, true, .array ds false⟩) (some id) d).1 ∧
        hs' = (hand_out (hs.set id ⟨parent, true, .array ds false⟩) (some id) d).2)) := by
  unfold read at h
  split at h
  · rename_i parent rest heq
    refine ⟨parent, rest, heq, ?_⟩
    split at h
    · cases h
      exact ⟨rfl, Or.inl ⟨rfl, rfl, rfl⟩⟩
    · rename_i d ds
      cases h
      exact ⟨rfl, Or.inr ⟨d, ds, rfl, rfl, rfl⟩⟩
  · cases h

/-- What a successful `read_key()` says about the map and the handles after it. -/
theorem read_key_ok {hs hs' : List Handle} {id id' : Nat} {r : Option (Document Nat Nat Nat)}
    (h : read_key id hs = .ok (r, id', hs')) :
    ∃ parent rest, hs[id]? = some ⟨parent, true, .map rest .expect_key⟩ ∧ id' = id ∧
      ((rest = [] ∧ r = none ∧
        hs' = finish hs id ⟨parent, true, .map [] .expect_key⟩ (.map [] .done)) ∨
       (∃ k v ps, rest = (k, v) :: ps ∧
        r = some (hand_out (hs.set id ⟨parent, true, .map ((k, v) :: ps) .expect_value⟩)
          (some id) k).1 ∧
        hs' = (hand_out (hs.set id ⟨parent, true, .map ((k, v) :: ps) .expect_value⟩)
          (some id) k).2)) := by
  unfold read_key at h
  split at h
  · rename_i parent rest heq
    refine ⟨parent, rest, heq, ?_⟩
    split at h
    · cases h
      exact ⟨rfl, Or.inl ⟨rfl, rfl, rfl⟩⟩
    · rename_i k v ps
      cases h
      exact ⟨rfl, Or.inr ⟨k, v, ps, rfl, rfl, rfl⟩⟩
  · cases h

/-- What a successful `read_value()` says about the map and the handles after it. -/
theorem read_value_ok {hs hs' : List Handle} {id id' : Nat} {r : Document Nat Nat Nat}
    (h : read_value id hs = .ok (r, id', hs')) :
    ∃ parent k v ps, hs[id]? = some ⟨parent, true, .map ((k, v) :: ps) .expect_value⟩ ∧
      id' = id ∧
      r = (hand_out (hs.set id ⟨parent, true, .map ps .expect_key⟩) (some id) v).1 ∧
      hs' = (hand_out (hs.set id ⟨parent, true, .map ps .expect_key⟩) (some id) v).2 := by
  unfold read_value at h
  split at h
  · rename_i parent k v ps heq
    cases h
    exact ⟨parent, k, v, ps, heq, rfl, rfl, rfl⟩
  · cases h

theorem getElem?_set_self_at {hs : List Handle} {id : Nat} {h : Handle}
    (hid : hs[id]? = some h) (h' : Handle) : (hs.set id h')[id]? = some h' := by
  rw [getElem?_set_at hid, if_pos rfl]

theorem inv_read_buffer {hs : List Handle} (inv : Inv hs) {id n : Nat}
    {r : List Byte × Nat × List Handle} (h : read_buffer id n hs = .ok r) : Inv r.2.2 := by
  obtain ⟨bytes, id', hs'⟩ := r
  obtain ⟨parent, rest, hid, _, _, rfl⟩ := read_buffer_ok h
  simp only
  split
  · exact inv_finish inv hid rfl rfl _ rfl
  · exact inv_set_body inv hid _ rfl

theorem inv_seek {hs : List Handle} (inv : Inv hs) {id n : Nat}
    {r : Nat × List Handle} (h : seek id n hs = .ok r) : Inv r.2 := by
  obtain ⟨k, hs'⟩ := r
  obtain ⟨parent, rest, hid, _, rfl⟩ := seek_ok h
  simp only
  split
  · exact inv_finish inv hid rfl rfl _ rfl
  · exact inv_set_body inv hid _ rfl

theorem inv_read {hs : List Handle} (inv : Inv hs) {id : Nat}
    {r : Option (Document Nat Nat Nat) × Nat × List Handle} (h : read id hs = .ok r) :
    Inv r.2.2 := by
  obtain ⟨x, id', hs'⟩ := r
  obtain ⟨parent, rest, hid, _, hcase⟩ := read_ok h
  rcases hcase with ⟨rfl, _, rfl⟩ | ⟨d, ds, rfl, _, rfl⟩
  · exact inv_finish inv hid rfl rfl _ rfl
  · exact inv_hand_out (inv_set_body inv hid (.array ds false) rfl)
      (getElem?_set_self_at hid _) rfl rfl d

theorem inv_read_key {hs : List Handle} (inv : Inv hs) {id : Nat}
    {r : Option (Document Nat Nat Nat) × Nat × List Handle} (h : read_key id hs = .ok r) :
    Inv r.2.2 := by
  obtain ⟨x, id', hs'⟩ := r
  obtain ⟨parent, rest, hid, _, hcase⟩ := read_key_ok h
  rcases hcase with ⟨rfl, _, rfl⟩ | ⟨k, v, ps, rfl, _, rfl⟩
  · exact inv_finish inv hid rfl rfl _ rfl
  · exact inv_hand_out (inv_set_body inv hid (.map ((k, v) :: ps) .expect_value) rfl)
      (getElem?_set_self_at hid _) rfl rfl k

theorem inv_read_value {hs : List Handle} (inv : Inv hs) {id : Nat}
    {r : Document Nat Nat Nat × Nat × List Handle} (h : read_value id hs = .ok r) :
    Inv r.2.2 := by
  obtain ⟨x, id', hs'⟩ := r
  obtain ⟨parent, k, v, ps, hid, _, _, rfl⟩ := read_value_ok h
  exact inv_hand_out (inv_set_body inv hid (.map ps .expect_key) rfl)
    (getElem?_set_self_at hid _) rfl rfl v

theorem inv_step {hs : List Handle} (inv : Inv hs) (op : Op) : Inv (step hs op) := by
  cases op with
  | read_buffer id n =>
    simp only [step]
    split
    · rename_i r h; exact inv_read_buffer inv h
    · exact inv
  | seek id n =>
    simp only [step]
    split
    · rename_i r h; exact inv_seek inv h
    · exact inv
  | read id =>
    simp only [step]
    split
    · rename_i r h; exact inv_read inv h
    · exact inv
  | read_key id =>
    simp only [step]
    split
    · rename_i r h; exact inv_read_key inv h
    · exact inv
  | read_value id =>
    simp only [step]
    split
    · rename_i r h; exact inv_read_value inv h
    · exact inv

theorem inv_foldl_step (ops : List Op) : ∀ (hs : List Handle), Inv hs → Inv (ops.foldl step hs) := by
  induction ops with
  | nil => intro hs inv; exact inv
  | cons op ops ih => intro hs inv; exact ih _ (inv_step inv op)

/-- The gates are consistent after every sequence of calls on every document. -/
theorem inv_run (d : Doc) (ops : List Op) : Inv (run d ops) :=
  inv_foldl_step ops _ (inv_open_document d)

end checked

namespace checked

theorem read_fails_of_disarmed {hs : List Handle} {id : Nat} {h : Handle}
    (hid : hs[id]? = some h) (hd : h.armed = false) : read id hs = .error .library_misused := by
  cases hr : read id hs with
  | error e =>
    unfold read at hr
    split at hr
    · split at hr <;> cases hr
    · cases hr; rfl
  | ok r =>
    obtain ⟨x, id', hs'⟩ := r
    obtain ⟨parent, rest, hid', _⟩ := read_ok hr
    rw [hid] at hid'
    cases hid'
    cases hd

theorem read_key_fails_of_disarmed {hs : List Handle} {id : Nat} {h : Handle}
    (hid : hs[id]? = some h) (hd : h.armed = false) :
    read_key id hs = .error .library_misused := by
  cases hr : read_key id hs with
  | error e =>
    unfold read_key at hr
    split at hr
    · split at hr <;> cases hr
    · cases hr; rfl
  | ok r =>
    obtain ⟨x, id', hs'⟩ := r
    obtain ⟨parent, rest, hid', _⟩ := read_key_ok hr
    rw [hid] at hid'
    cases hid'
    cases hd

theorem read_value_fails_of_disarmed {hs : List Handle} {id : Nat} {h : Handle}
    (hid : hs[id]? = some h) (hd : h.armed = false) :
    read_value id hs = .error .library_misused := by
  cases hr : read_value id hs with
  | error e =>
    unfold read_value at hr
    split at hr
    · cases hr
    · cases hr; rfl
  | ok r =>
    obtain ⟨x, id', hs'⟩ := r
    obtain ⟨parent, k, v, ps, hid', _⟩ := read_value_ok hr
    rw [hid] at hid'
    cases hid'
    cases hd

/-- After the armed child `c` of the array `p` is finalized, `read()` on `p` succeeds
and returns the next element of `p`, or `none` when there is none. -/
theorem read_after_finish {hs : List Handle} (inv : Inv hs) {c p : Nat} {hc : Handle}
    {pp : Option Nat} {a e : Bool} {rest : List Doc}
    (hchild : hs[c]? = some hc) (hof : hc.parent = some p) (hlive : hc.body.finalized = false)
    (hparent : hs[p]? = some ⟨pp, a, .array rest e⟩) (body : Body) :
    read p (finish hs c hc body) =
      match rest with
      | [] => .ok (none, p,
          finish (finish hs c hc body) p ⟨pp, true, .array [] false⟩ (.array [] true))
      | d :: ds => .ok
          (some (hand_out ((finish hs c hc body).set p ⟨pp, true, .array ds false⟩) (some p) d).1,
            p, (hand_out ((finish hs c hc body).set p ⟨pp, true, .array ds false⟩) (some p) d).2) := by
  obtain ⟨hp, hp1, hp2, hp3⟩ := inv.gated c hc p hchild hof hlive
  rw [hparent] at hp1
  cases hp1
  simp only [Body.finalized] at hp3
  simp only at hp2
  subst hp2 hp3
  have hne : p ≠ c := Nat.ne_of_lt (inv.parent_lt c hc p hchild hof)
  have hnew : (finish hs c hc body)[p]? = some ⟨pp, true, .array rest false⟩ := by
    rw [getElem?_finish hchild, if_pos hof, if_neg hne, hparent]
    rfl
  unfold read
  rw [hnew]
  cases rest <;> rfl

end checked

namespace checked

theorem scalar_not_sub_reader (v : Scalar) :
    (v.document : Document Nat Nat Nat).is_sub_reader = false := by
  cases v <;> rfl

/-- A document handed out as a sub-reader is the newest handle; it is armed, its parent
is the handle that handed it out, and that parent is disarmed. -/
theorem hand_out_sub_reader (hs : List Handle) (p : Nat)
    (d : Doc) (hsub : (hand_out hs (some p) d).1.is_sub_reader = true) :
    ∃ body, (hand_out hs (some p) d).2 = spawn hs (some p) body ∧
      body.finalized = false := by
  cases d with
  | scalar v => simp [hand_out, scalar_not_sub_reader] at hsub
  | blob tag bytes => cases tag <;> exact ⟨_, rfl, rfl⟩
  | array elems => exact ⟨_, rfl, rfl⟩
  | map pairs => exact ⟨_, rfl, rfl⟩

theorem spawn_disarms {hs : List Handle} {p : Nat} {h : Handle} (hp : hs[p]? = some h)
    (body : Body) : (spawn hs (some p) body)[p]? = some { h with armed := false } := by
  rw [getElem?_spawn, if_neg (Nat.ne_of_lt (lt_length_of_getElem? hp)), if_pos rfl, hp]
  rfl

end checked

namespace checked

/-! ### Calls on one sub-reader leave the content of the others alone -/

theorem body_at_gate (hs : List Handle) (p : Option Nat) (b : Bool) (m : Nat) :
    body_at (gate hs p b) m = body_at hs m := by
  cases p with
  | none => rfl
  | some p =>
    unfold body_at
    rw [getElem?_gate]
    by_cases e : m = p
    · rw [if_pos e]
      cases hs[m]? <;> rfl
    · rw [if_neg e]

theorem body_at_set_ne (hs : List Handle) {id m : Nat} (h' : Handle) (hne : m ≠ id) :
    body_at (hs.set id h') m = body_at hs m := by
  unfold body_at
  rw [List.getElem?_set_ne (fun e => hne e.symm)]

theorem body_at_finish (hs : List Handle) {id m : Nat} (h : Handle) (body : Body)
    (hne : m ≠ id) : body_at (finish hs id h body) m = body_at hs m := by
  unfold finish
  rw [body_at_gate, body_at_set_ne hs _ hne]

theorem body_at_spawn (hs : List Handle) (p : Option Nat) (body : Body) {m : Nat}
    (hm : m < hs.length) : body_at (spawn hs p body) m = body_at hs m := by
  have : body_at (spawn hs p body) m = body_at (gate hs p false) m := by
    unfold body_at spawn
    rw [List.getElem?_append_left (by rw [length_gate]; exact hm)]
  rw [this, body_at_gate]

theorem body_at_hand_out (hs : List Handle) (p : Option Nat) (d : Doc) {m : Nat}
    (hm : m < hs.length) : body_at (hand_out hs p d).2 m = body_at hs m := by
  cases d with
  | scalar v => rfl
  | blob tag bytes => cases tag <;> exact body_at_spawn hs p _ hm
  | array elems => exact body_at_spawn hs p _ hm
  | map pairs => exact body_at_spawn hs p _ hm

theorem body_at_step (hs : List Handle) (op : Op) {m : Nat} (hne : op.target ≠ m)
    (hm : m < hs.length) : body_at (step hs op) m = body_at hs m := by
  have hne' : m ≠ op.target := fun e => hne e.symm
  cases op with
  | read_buffer id n =>
    simp only [step]
    split
    · rename_i r h
      obtain ⟨bytes, id', hs'⟩ := r
      obtain ⟨parent, rest, _, _, _, rfl⟩ := read_buffer_ok h
      simp only
      split
      · exact body_at_finish hs _ _ hne'
      · exact body_at_set_ne hs _ hne'
    · rfl
  | seek id n =>
    simp only [step]
    split
    · rename_i r h
      obtain ⟨k, hs'⟩ := r
      obtain ⟨parent, rest, _, _, rfl⟩ := seek_ok h
      simp only
      split
      · exact body_at_finish hs _ _ hne'
      · exact body_at_set_ne hs _ hne'
    · rfl
  | read id =>
    simp only [step]
    split
    · rename_i r h
      obtain ⟨x, id', hs'⟩ := r
      obtain ⟨parent, rest, _, _, hcase⟩ := read_ok h
      rcases hcase with ⟨_, _, rfl⟩ | ⟨d, ds, _, _, rfl⟩
      · exact body_at_finish hs _ _ hne'
      · rw [body_at_hand_out _ _ _ (by rw [List.length_set]; exact hm)]
        exact body_at_set_ne hs _ hne'
    · rfl
  | read_key id =>
    simp only [step]
    split
    · rename_i r h
      obtain ⟨x, id', hs'⟩ := r
      obtain ⟨parent, rest, _, _, hcase⟩ := read_key_ok h
      rcases hcase with ⟨_, _, rfl⟩ | ⟨k, v, ps, _, _, rfl⟩
      · exact body_at_finish hs _ _ hne'
      · rw [body_at_hand_out _ _ _ (by rw [List.length_set]; exact hm)]
        exact body_at_set_ne hs _ hne'
    · rfl
  | read_value id =>
    simp only [step]
    split
    · rename_i r h
      obtain ⟨x, id', hs'⟩ := r
      obtain ⟨parent, k, v, ps, _, _, _, rfl⟩ := read_value_ok h
      rw [body_at_hand_out _ _ _ (by rw [List.length_set]; exact hm)]
      exact body_at_set_ne hs _ hne'
    · rfl

theorem body_at_some {hs : List Handle} {m : Nat} {b : Body} (h : body_at hs m = some b) :
    ∃ hm : Handle, hs[m]? = some hm ∧ hm.body = b := by
  unfold body_at at h
  cases hx : hs[m]? with
  | none => rw [hx] at h; cases h
  | some x =>
    rw [hx] at h
    exact ⟨x, rfl, Option.some.inj h⟩

/-- A call on a map sub-reader that does not expect a value changes nothing, unless it
is `read_key()`. -/
theorem step_map_unless_read_key {hs : List Handle} {m : Nat} {rest : List (Doc × Doc)}
    {alt : Alternation} (hb : body_at hs m = some (.map rest alt)) (halt : alt ≠ .expect_value)
    {op : Op} (ht : op.target = m) (hop : op ≠ .read_key m) : step hs op = hs := by
  obtain ⟨hm, hid, hbody⟩ := body_at_some hb
  cases op with
  | read_buffer id n =>
    obtain rfl : id = m := ht
    simp only [step]
    split
    · rename_i r h
      obtain ⟨bytes, id', hs'⟩ := r
      obtain ⟨parent, rest', hid', _⟩ := read_buffer_ok h
      rw [hid] at hid'
      cases hid'
      cases hbody
    · rfl
  | seek id n =>
    obtain rfl : id = m := ht
    simp only [step]
    split
    · rename_i r h
      obtain ⟨k, hs'⟩ := r
      obtain ⟨parent, rest', hid', _⟩ := seek_ok h
      rw [hid] at hid'
      cases hid'
      cases hbody
    · rfl
  | read id =>
    obtain rfl : id = m := ht
    simp only [step]
    split
    · rename_i r h
      obtain ⟨x, id', hs'⟩ := r
      obtain ⟨parent, rest', hid', _⟩ := read_ok h
      rw [hid] at hid'
      cases hid'
      cases hbody
    · rfl
  | read_key id =>
    obtain rfl : id = m := ht
    exact (hop rfl).elim
  | read_value id =>
    obtain rfl : id = m := ht
    simp only [step]
    split
    · rename_i r h
      obtain ⟨x, id', hs'⟩ := r
      obtain ⟨parent, k, v, ps, hid', _⟩ := read_value_ok h
      rw [hid] at hid'
      cases hid'
      cases hbody
      exact (halt rfl).elim
    · rfl

/-- A call on a map sub-reader that expects a value changes nothing, unless it is
`read_value()`. -/
theorem step_map_unless_read_value {hs : List Handle} {m : Nat} {rest : List (Doc × Doc)}
    (hb : body_at hs m = some (.map rest .expect_value))
    {op : Op} (ht : op.target = m) (hop : op ≠ .read_value m) : step hs op = hs := by
  obtain ⟨hm, hid, hbody⟩ := body_at_some hb
  cases op with
  | read_buffer id n =>
    obtain rfl : id = m := ht
    simp only [step]
    split
    · rename_i r h
      obtain ⟨bytes, id', hs'⟩ := r
      obtain ⟨parent, rest', hid', _⟩ := read_buffer_ok h
      rw [hid] at hid'
      cases hid'
      cases hbody
    · rfl
  | seek id n =>
    obtain rfl : id = m := ht
    simp only [step]
    split
    · rename_i r h
      obtain ⟨k, hs'⟩ := r
      obtain ⟨parent, rest', hid', _⟩ := seek_ok h
      rw [hid] at hid'
      cases hid'
      cases hbody
    · rfl
  | read id =>
    obtain rfl : id = m := ht
    simp only [step]
    split
    · rename_i r h
      obtain ⟨x, id', hs'⟩ := r
      obtain ⟨parent, rest', hid', _⟩ := read_ok h
      rw [hid] at hid'
      cases hid'
      cases hbody
    · rfl
  | read_key id =>
    obtain rfl : id = m := ht
    simp only [step]
    split
    · rename_i r h
      obtain ⟨x, id', hs'⟩ := r
      obtain ⟨parent, rest', hid', _⟩ := read_key_ok h
      rw [hid] at hid'
      cases hid'
      cases hbody
    · rfl
  | read_value id =>
    obtain rfl : id = m := ht
    exact (hop rfl).elim

theorem body_at_foldl_unless_read_key (m : Nat) (rest : List (Doc × Doc)) (alt : Alternation)
    (halt : alt ≠ .expect_value) : ∀ (ops : List Op) (hs : List Handle),
    body_at hs m = some (.map rest alt) → Op.read_key m ∉ ops →
      body_at (ops.foldl step hs) m = some (.map rest alt) := by
  intro ops
  induction ops with
  | nil => intro hs hb _; exact hb
  | cons op ops ih =>
    intro hs hb hno
    rw [List.mem_cons, not_or] at hno
    rw [List.foldl_cons]
    apply ih _ _ hno.2
    by_cases ht : op.target = m
    · rw [step_map_unless_read_key hb halt ht (fun e => hno.1 e.symm)]
      exact hb
    · obtain ⟨hm, hid, _⟩ := body_at_some hb
      rw [body_at_step hs op ht (lt_length_of_getElem? hid)]
      exact hb

theorem body_at_foldl_unless_read_value (m : Nat) (rest : List (Doc × Doc)) :
    ∀ (ops : List Op) (hs : List Handle),
    body_at hs m = some (.map rest .expect_value) → Op.read_value m ∉ ops →
      body_at (ops.foldl step hs) m = some (.map rest .expect_value) := by
  intro ops
  induction ops with
  | nil => intro hs hb _; exact hb
  | cons op ops ih =>
    intro hs hb hno
    rw [List.mem_cons, not_or] at hno
    rw [List.foldl_cons]
    apply ih _ _ hno.2
    by_cases ht : op.target = m
    · rw [step_map_unless_read_value hb ht (fun e => hno.1 e.symm)]
      exact hb
    · obtain ⟨hm, hid, _⟩ := body_at_some hb
      rw [body_at_step hs op ht (lt_length_of_getElem? hid)]
      exact hb

theorem read_value_fails_unless_expected {hs : List Handle} {m : Nat}
    {rest : List (Doc × Doc)} {alt : Alternation} (hb : body_at hs m = some (.map rest alt))
    (halt : alt ≠ .expect_value) : read_value m hs = .error .library_misused := by
  obtain ⟨hm, hid, hbody⟩ := body_at_some hb
  cases hr : read_value m hs with
  | error e =>
    unfold read_value at hr
    split at hr
    · cases hr
    · cases hr; rfl
  | ok r =>
    obtain ⟨x, id', hs'⟩ := r
    obtain ⟨parent, k, v, ps, hid', _⟩ := read_value_ok hr
    rw [hid] at hid'
    cases hid'
    cases hbody
    exact (halt rfl).elim

theorem read_key_fails_unless_expected {hs : List Handle} {m : Nat}
    {rest : List (Doc × Doc)} {alt : Alternation} (hb : body_at hs m = some (.map rest alt))
    (halt : alt ≠ .expect_key) : read_key m hs = .error .library_misused := by
  obtain ⟨hm, hid, hbody⟩ := body_at_some hb
  cases hr : read_key m hs with
  | error e =>
    unfold read_key at hr
    split at hr
    · split at hr <;> cases hr
    · cases hr; rfl
  | ok r =>
    obtain ⟨x, id', hs'⟩ := r
    obtain ⟨parent, rest', hid', _⟩ := read_key_ok hr
    rw [hid] at hid'
    cases hid'
    cases hbody
    exact (halt rfl).elim

end checked

namespace checked

/-- C7: in a checked build, after any sequence of calls on any document, if the array
sub-reader `p` has handed out the child sub-reader `c` and the end of `c` has not been
signalled, `read()` on `p` fails with `library_misused`: the gate of `p` is disarmed.
The end of `c` is signalled by the call that returns it (`Body.finalized`), whatever is
left of its content, so a child whose elements or pairs are all read but whose end was
not returned (`.array [] false`, `.map [] .expect_key`) is not finalized, like one
with unread content. -/
theorem parent_read_fails_while_child_alive (d : Doc) (ops : List Op) (p c : Nat)
    (hp hc : Handle) (rest : List Doc) (ended : Bool)
    (hparent : (run d ops)[p]? = some hp) (harray : hp.body = .array rest ended)
    (hchild : (run d ops)[c]? = some hc) (hof : hc.parent = some p)
    (hlive : hc.body.finalized = false) :
    read p (run d ops) = .error .library_misused ∧ hp.armed = false ∧ ended = false := by
  obtain ⟨hp', h1, h2, h3⟩ := (inv_run d ops).gated c hc p hchild hof hlive
  rw [hparent] at h1
  cases h1
  rw [harray] at h3
  exact ⟨read_fails_of_disarmed hparent h2, h2, h3⟩

theorem parent_read_fails_while_child_alive_witness :
    (run nested_array [.read 0, .read 1, .read 1])[0]? =
      some ⟨none, false, .array [] false⟩ ∧
    (run nested_array [.read 0, .read 1, .read 1])[1]? =
      some ⟨some 0, true, .array [] false⟩ ∧
    (⟨some 0, true, .array [] false⟩ : Handle).body.finalized = false ∧
    read 0 (run nested_array [.read 0, .read 1, .read 1]) = .error .library_misused :=
  ⟨rfl, rfl, rfl,
    (parent_read_fails_while_child_alive nested_array [.read 0, .read 1, .read 1] 0 1
      ⟨none, false, .array [] false⟩ ⟨some 0, true, .array [] false⟩ [] false
      rfl rfl rfl rfl rfl).1⟩

/-- C8: in a checked build, once the child sub-reader `c` of the array sub-reader `p` has
been driven to its observed end (a pull on a blob that returned a short read, `read()`
on an array that returned `none`, `read_key()` on a map that returned `none`, or a seek
on a blob that skipped fewer bytes than asked), `read()` on `p` succeeds and returns the
next element of `p`, or `none` when `p` has no element left. -/
theorem parent_read_succeeds_after_child_end (d : Doc) (ops : List Op) (p c : Nat)
    (hc : Handle) (pp : Option Nat) (a e : Bool) (rest : List Doc) (hs' : List Handle)
    (hparent : (run d ops)[p]? = some ⟨pp, a, .array rest e⟩)
    (hchild : (run d ops)[c]? = some hc) (hof : hc.parent = some p)
    (hend : (∃ n bytes, read_buffer c n (run d ops) = .ok (bytes, c, hs') ∧ bytes.length < n) ∨
      read c (run d ops) = .ok (none, c, hs') ∨
      read_key c (run d ops) = .ok (none, c, hs') ∨
      (∃ n k, seek c n (run d ops) = .ok (k, hs') ∧ k < n)) :
    ∃ r hs'', read p hs' = .ok (r, p, hs'') ∧
      (rest = [] → r = none) ∧
      (∀ x xs, rest = x :: xs →
        r = some (hand_out (hs'.set p ⟨pp, true, .array xs false⟩) (some p) x).1) := by
  have inv := inv_run d ops
  have main : ∀ body, hc.body.finalized = false → hs' = finish (run d ops) c hc body →
      ∃ r hs'', read p hs' = .ok (r, p, hs'') ∧
        (rest = [] → r = none) ∧
        (∀ x xs, rest = x :: xs →
          r = some (hand_out (hs'.set p ⟨pp, true, .array xs false⟩) (some p) x).1) := by
    intro body hlive he
    subst he
    have := read_after_finish inv hchild hof hlive hparent body
    cases rest with
    | nil =>
      refine ⟨_, _, this, ?_, ?_⟩
      · intro _; rfl
      · intro x xs h; cases h
    | cons y ys =>
      refine ⟨_, _, this, ?_, ?_⟩
      · intro h; cases h
      · intro x xs h
        cases h
        rfl
  rcases hend with ⟨n, bytes, h, hshort⟩ | h | h | ⟨n, k, h, hshort⟩
  · obtain ⟨parent, rest', hid, _, _, hst⟩ := read_buffer_ok h
    rw [if_pos hshort] at hst
    rw [hchild] at hid
    cases hid
    exact main _ rfl hst
  · obtain ⟨parent, rest', hid, _, hcase⟩ := read_ok h
    rw [hchild] at hid
    cases hid
    rcases hcase with ⟨rfl, _, hst⟩ | ⟨x, xs, _, hr, _⟩
    · exact main _ rfl hst
    · cases hr
  · obtain ⟨parent, rest', hid, _, hcase⟩ := read_key_ok h
    rw [hchild] at hid
    cases hid
    rcases hcase with ⟨rfl, _, hst⟩ | ⟨x, y, xs, _, hr, _⟩
    · exact main _ rfl hst
    · cases hr
  · obtain ⟨parent, rest', hid, _, hst⟩ := seek_ok h
    rw [if_pos hshort] at hst
    rw [hchild] at hid
    cases hid
    exact main _ rfl hst

theorem parent_read_succeeds_after_child_end_witness :
    seek 1 6 (run hello_array [.read 0]) =
      .ok (5, [⟨none, true, .array [] false⟩, ⟨some 0, true, .blob [] true⟩]) ∧
    ∃ r hs'', read 0 [⟨none, true, .array [] false⟩, ⟨some 0, true, .blob [] true⟩] =
        .ok (r, 0, hs'') ∧
      (([] : List Doc) = [] → r = none) ∧
      (∀ x xs, ([] : List Doc) = x :: xs →
        r = some (hand_out
          ([⟨none, true, .array [] false⟩, ⟨some 0, true, .blob [] true⟩].set 0
            ⟨none, true, .array xs false⟩) (some 0) x).1) :=
  ⟨rfl,
    parent_read_succeeds_after_child_end hello_array [.read 0] 0 1
      ⟨some 0, true, .blob [104, 101, 108, 108, 111] false⟩ none false false []
      [⟨none, true, .array [] false⟩, ⟨some 0, true, .blob [] true⟩]
      rfl rfl rfl (Or.inr (Or.inr (Or.inr ⟨6, 5, rfl, by decide⟩)))⟩

end checked

namespace checked

/-! ### The copy engine over the checked reader -/

theorem getElem?_mid (pre post : List Handle) (h : Handle) :
    (pre ++ h :: post)[pre.length]? = some h := by
  rw [List.getElem?_append_right (Nat.le_refl _), Nat.sub_self, List.getElem?_cons_zero]

theorem set_mid (pre post : List Handle) (h h' : Handle) :
    (pre ++ h :: post).set pre.length h' = pre ++ h' :: post := by
  rw [List.set_append, if_neg (Nat.lt_irrefl _), Nat.sub_self, List.set_cons_zero]

theorem set_getElem?_self : ∀ (hs : List Handle) (i : Nat) (h : Handle),
    hs[i]? = some h → hs.set i h = hs
  | [], _, _, hi => by simp at hi
  | x :: xs, 0, h, hi => by
    simp only [List.getElem?_cons_zero, Option.some.injEq] at hi
    rw [List.set_cons_zero, hi]
  | x :: xs, i + 1, h, hi => by
    simp only [List.getElem?_cons_succ] at hi
    rw [List.set_cons_succ, set_getElem?_self xs i h hi]

/-- Disarming the parent, adding handles, and rearming it leaves the old handles as they
were. -/
theorem gate_gate_append {hs : List Handle} {parent : Option Nat} (hp : ParentArmed hs parent)
    (post : List Handle) :
    gate (gate hs parent false ++ post) parent true = hs ++ post := by
  cases parent with
  | none => rfl
  | some q =>
    obtain ⟨hq, hq1, hq2⟩ := hp q rfl
    have hlt : q < hs.length := lt_length_of_getElem? hq1
    have h1 : gate hs (some q) false = hs.set q { hq with armed := false } := by
      simp only [gate, hq1]
    have h2 : (hs.set q { hq with armed := false } ++ post)[q]? =
        some { hq with armed := false } := by
      rw [List.getElem?_append_left (by rw [List.length_set]; exact hlt),
        getElem?_set_self_at hq1]
    rw [h1]
    simp only [gate, h2]
    rw [List.set_append, if_pos (by rw [List.length_set]; exact hlt), List.set_set]
    have h3 : ({ parent := hq.parent, armed := true, body := hq.body } : Handle) = hq := by
      cases hq
      simp only at hq2
      subst hq2
      rfl
    rw [h3, set_getElem?_self hs q hq hq1]

theorem reader_read_buffer (id n : Nat) (hs : List Handle) :
    reader.read_buffer id n hs = read_buffer id n hs := rfl

theorem reader_read (id : Nat) (hs : List Handle) : reader.read id hs = read id hs := rfl

theorem reader_read_key (id : Nat) (hs : List Handle) :
    reader.read_key id hs = read_key id hs := rfl

theorem reader_read_value (id : Nat) (hs : List Handle) :
    reader.read_value id hs = read_value id hs := rfl

theorem read_buffer_mid (pre post : List Handle) (parent : Option Nat) (rest : List Byte)
    (n : Nat) :
    read_buffer pre.length n (pre ++ ⟨parent, true, .blob rest false⟩ :: post) =
      if (rest.take n).length < n then
        .ok (rest.take n, pre.length,
          gate (pre ++ ⟨parent, true, .blob (rest.drop n) true⟩ :: post) parent true)
      else
        .ok (rest.take n, pre.length,
          pre ++ ⟨parent, true, .blob (rest.drop n) false⟩ :: post) := by
  unfold read_buffer
  rw [getElem?_mid]
  simp only [finish, set_mid]

theorem read_mid_nil (pre post : List Handle) (parent : Option Nat) :
    read pre.length (pre ++ ⟨parent, true, .array [] false⟩ :: post) =
      .ok (none, pre.length,
        gate (pre ++ ⟨parent, true, .array [] true⟩ :: post) parent true) := by
  unfold read
  rw [getElem?_mid]
  simp only [finish, set_mid]

theorem read_mid_cons (pre post : List Handle) (parent : Option Nat) (d : Doc)
    (ds : List Doc) :
    read pre.length (pre ++ ⟨parent, true, .array (d :: ds) false⟩ :: post) =
      .ok (some (hand_out (pre ++ ⟨parent, true, .array ds false⟩ :: post)
          (some pre.length) d).1, pre.length,
        (hand_out (pre ++ ⟨parent, true, .array ds false⟩ :: post) (some pre.length) d).2) := by
  unfold read
  rw [getElem?_mid]
  simp only [set_mid]

theorem read_key_mid_nil (pre post : List Handle) (parent : Option Nat) :
    read_key pre.length (pre ++ ⟨parent, true, .map [] .expect_key⟩ :: post) =
      .ok (none, pre.length,
        gate (pre ++ ⟨parent, true, .map [] .done⟩ :: post) parent true) := by
  unfold read_key
  rw [getElem?_mid]
  simp only [finish, set_mid]

theorem read_key_mid_cons (pre post : List Handle) (parent : Option Nat) (k v : Doc)
    (ps : List (Doc × Doc)) :
    read_key pre.length (pre ++ ⟨parent, true, .map ((k, v) :: ps) .expect_key⟩ :: post) =
      .ok (some (hand_out (pre ++ ⟨parent, true, .map ((k, v) :: ps) .expect_value⟩ :: post)
          (some pre.length) k).1, pre.length,
        (hand_out (pre ++ ⟨parent, true, .map ((k, v) :: ps) .expect_value⟩ :: post)
          (some pre.length) k).2) := by
  unfold read_key
  rw [getElem?_mid]
  simp only [set_mid]

theorem read_value_mid (pre post : List Handle) (parent : Option Nat) (k v : Doc)
    (ps : List (Doc × Doc)) :
    read_value pre.length (pre ++ ⟨parent, true, .map ((k, v) :: ps) .expect_value⟩ :: post) =
      .ok ((hand_out (pre ++ ⟨parent, true, .map ps .expect_key⟩ :: post)
          (some pre.length) v).1, pre.length,
        (hand_out (pre ++ ⟨parent, true, .map ps .expect_key⟩ :: post) (some pre.length) v).2) := by
  unfold read_value
  rw [getElem?_mid]
  simp only [set_mid]

theorem parent_armed_mid (pre post : List Handle) (parent : Option Nat) (body : Body) :
    ParentArmed (pre ++ ⟨parent, true, body⟩ :: post) (some pre.length) := by
  intro q hq
  cases hq
  exact ⟨_, getElem?_mid pre post _, rfl⟩

end checked

namespace checked

/-- The pull loop over the checked reader: it writes the remaining slices, finalizes the
blob and rearms its parent. -/
theorem copy_stream_loop_checked (out : WriterId) {pre hs : List Handle} {parent : Option Nat}
    (hclose : ∀ post, gate (pre ++ post) parent true = hs ++ post) (post : List Handle) :
    ∀ (fuel : Nat) (s : List Byte) (log : List Event), s.length / buffer_size < fuel →
      copy_stream_loop reader out fuel pre.length
          (pre ++ ⟨parent, true, .blob s false⟩ :: post, log) =
        .ok (pre.length, hs ++ ⟨parent, true, .blob [] true⟩ :: post,
          log ++ chunk_events out s) := by
  intro fuel
  induction fuel with
  | zero => intro s log h; exact absurd h (Nat.not_lt_zero _)
  | succ fuel ih =>
    intro s log h
    rw [copy_stream_loop]
    simp only [reader_read_buffer, read_buffer_mid, List.length_take]
    by_cases hs' : buffer_size ≤ s.length
    · have hd : s.length / buffer_size = (s.length - buffer_size) / buffer_size + 1 :=
        Nat.div_eq_sub_div buffer_size_pos hs'
      have hmin : min buffer_size s.length = buffer_size := Nat.min_eq_left hs'
      rw [hmin, if_neg (Nat.lt_irrefl _)]
      simp only [bind, Except.bind, Recorder.write_buffer, List.length_take, hmin, if_pos]
      rw [ih _ _ (by rw [List.length_drop]; omega), chunk_events_full out s hs']
      simp
    · have hlt : s.length < buffer_size := Nat.lt_of_not_le hs'
      have hmin : min buffer_size s.length = s.length := Nat.min_eq_right (Nat.le_of_lt hlt)
      rw [hmin, if_pos hlt]
      simp only [bind, Except.bind, Recorder.write_buffer, List.length_take, hmin,
        if_neg (Nat.ne_of_lt hlt), pure, Except.pure, hclose,
        chunk_events_short out s hlt, List.take_of_length_le (Nat.le_of_lt hlt),
        List.drop_of_length_le (Nat.le_of_lt hlt)]

/-- The result of `copy_stream` over the checked reader, in both framings. -/
theorem copy_stream_checked {pre hs : List Handle} {parent : Option Nat}
    (hclose : ∀ post, gate (pre ++ post) parent true = hs ++ post) (post : List Handle)
    (fuel : Nat) (bytes : List Byte) (w : WriterId) (tag : BlobTag) (log : List Event)
    (h : bytes.length / buffer_size < fuel + 1) :
    copy_stream reader fuel pre.length w tag
        (pre ++ ⟨parent, true, .blob bytes false⟩ :: post, log) =
      .ok (pre.length, hs ++ ⟨parent, true, .blob [] true⟩ :: post,
        log ++ blob_events tag bytes w) := by
  rw [copy_stream]
  simp only [reader_read_buffer, read_buffer_mid, List.length_take, blob_events]
  by_cases hs' : buffer_size ≤ bytes.length
  · have hd : bytes.length / buffer_size = (bytes.length - buffer_size) / buffer_size + 1 :=
      Nat.div_eq_sub_div buffer_size_pos hs'
    have hmin : min buffer_size bytes.length = buffer_size := Nat.min_eq_left hs'
    rw [hmin, if_neg (Nat.lt_irrefl _), if_neg (Nat.not_lt_of_le hs')]
    simp only [bind, Except.bind, Recorder.write_stream, Recorder.write_buffer,
      Recorder.flush, List.length_take, hmin, if_neg (Nat.lt_irrefl _)]
    rw [copy_stream_loop_checked _ hclose post _ _ _ (by rw [List.length_drop]; omega),
      chunk_events_full _ bytes hs']
    simp [List.take_take, pure, Except.pure]
  · have hlt : bytes.length < buffer_size := Nat.lt_of_not_le hs'
    have hmin : min buffer_size bytes.length = bytes.length :=
      Nat.min_eq_right (Nat.le_of_lt hlt)
    rw [hmin, if_pos hlt, if_pos hlt]
    simp only [bind, Except.bind, Recorder.write_blob, Recorder.write_buffer, Recorder.flush,
      List.length_take, hmin, if_pos hlt, pure, Except.pure, hclose,
      List.take_of_length_le (Nat.le_of_lt hlt), List.drop_of_length_le (Nat.le_of_lt hlt)]
    simp

end checked

namespace checked

theorem close_of_parent_armed {hs : List Handle} {parent : Option Nat}
    (hp : ParentArmed hs parent) :
    ∀ post, gate (gate hs parent false ++ post) parent true = hs ++ post :=
  fun post => gate_gate_append hp post

mutual
/-- Copying a document handed out by the checked reader never fails: it records the
events of the document, leaves the older handles as they were, and every sub-reader it
was handed is finalized at the end. -/
theorem copy_sax_document_finalizes : ∀ (d : Doc) (fuel : Nat) (w : WriterId) (log : List Event)
    (hs : List Handle) (parent : Option Nat), d.fuel ≤ fuel → ParentArmed hs parent →
      ∃ extra, (∀ h ∈ extra, h.body.finalized = true) ∧
        copy_sax_document reader fuel w (hand_out hs parent d).1
          ((hand_out hs parent d).2, log) = .ok (hs ++ extra, log ++ d.events w)
  | .scalar v, fuel, w, log, hs, parent, h, _ => by
    obtain ⟨fuel, rfl⟩ : ∃ k, fuel = k + 1 := ⟨fuel - 1, by simp [Doc.fuel] at h; omega⟩
    refine ⟨[], fun _ h => absurd h (List.not_mem_nil _), ?_⟩
    rw [List.append_nil]
    cases v <;> rfl
  | .blob tag bytes, fuel, w, log, hs, parent, h, hp => by
    obtain ⟨fuel, rfl⟩ : ∃ k, fuel = k + 1 :=
      ⟨fuel - 1, by have := Doc.fuel_pos (.blob tag bytes); omega⟩
    have hb : bytes.length / buffer_size < fuel + 1 := by
      simp only [Doc.fuel] at h
      generalize bytes.length / buffer_size = q at h
      omega
    have key := copy_stream_checked (close_of_parent_armed hp) [] fuel bytes w tag log hb
    rw [length_gate] at key
    refine ⟨[⟨parent, true, .blob [] true⟩], ?_, ?_⟩
    · intro h hmem
      rw [List.mem_singleton] at hmem
      subst hmem
      rfl
    · cases tag <;>
      simp only [hand_out, spawn, copy_sax_document, key, bind, Except.bind, pure, Except.pure,
        Doc.events]
  | .array elems, fuel, w, log, hs, parent, h, hp => by
    obtain ⟨fuel, rfl⟩ : ∃ k, fuel = k + 1 := ⟨fuel - 1, by simp [Doc.fuel] at h; omega⟩
    have he : fuel_elements elems ≤ fuel := by simp [Doc.fuel] at h; omega
    obtain ⟨extra, hfin, key⟩ := copy_array_elements_finalizes elems fuel (w ++ [0]) 0
      (log ++ [⟨w, .write_array⟩]) (gate hs parent false) parent hs []
      (close_of_parent_armed hp) he
    rw [length_gate, List.nil_append] at key
    refine ⟨⟨parent, true, .array [] true⟩ :: extra, ?_, ?_⟩
    · intro h hmem
      rcases List.mem_cons.mp hmem with rfl | hmem
      · rfl
      · exact hfin h hmem
    simp only [hand_out, spawn, copy_sax_document, Recorder.write_array, Recorder.flush, bind,
      Except.bind, pure, Except.pure, Doc.events, key]
    simp
  | .map pairs, fuel, w, log, hs, parent, h, hp => by
    obtain ⟨fuel, rfl⟩ : ∃ k, fuel = k + 1 := ⟨fuel - 1, by simp [Doc.fuel] at h; omega⟩
    have he : fuel_pairs pairs ≤ fuel := by simp [Doc.fuel] at h; omega
    obtain ⟨extra, hfin, key⟩ := copy_map_pairs_finalizes pairs fuel (w ++ [0]) 0
      (log ++ [⟨w, .write_map⟩]) (gate hs parent false) parent hs []
      (close_of_parent_armed hp) he
    rw [length_gate, List.nil_append] at key
    refine ⟨⟨parent, true, .map [] .done⟩ :: extra, ?_, ?_⟩
    · intro h hmem
      rcases List.mem_cons.mp hmem with rfl | hmem
      · rfl
      · exact hfin h hmem
    simp only [hand_out, spawn, copy_sax_document, Recorder.write_map, Recorder.flush, bind,
      Except.bind, pure, Except.pure, Doc.events, key]
    simp
/-- The element loop over the checked reader. -/
theorem copy_array_elements_finalizes : ∀ (ds : List Doc) (fuel : Nat) (aw : WriterId) (n : Nat)
    (log : List Event) (pre : List Handle) (parent : Option Nat) (hs post : List Handle),
    (∀ post, gate (pre ++ post) parent true = hs ++ post) → fuel_elements ds ≤ fuel →
      ∃ extra, (∀ h ∈ extra, h.body.finalized = true) ∧
        copy_array_elements reader fuel pre.length ⟨aw, n⟩
          (pre ++ ⟨parent, true, .array ds false⟩ :: post, log) =
        .ok (⟨aw, n + ds.length⟩, hs ++ ⟨parent, true, .array [] true⟩ :: (post ++ extra),
          log ++ element_events ds aw n)
  | [], fuel, aw, n, log, pre, parent, hs, post, hclose, h => by
    obtain ⟨fuel, rfl⟩ : ∃ k, fuel = k + 1 := ⟨fuel - 1, by simp [fuel_elements] at h; omega⟩
    refine ⟨[], fun _ h => absurd h (List.not_mem_nil _), ?_⟩
    simp only [copy_array_elements, reader_read, read_mid_nil, bind, Except.bind, pure,
      Except.pure, element_events, hclose, List.length_nil, Nat.add_zero, List.append_nil]
  | d :: ds, fuel, aw, n, log, pre, parent, hs, post, hclose, h => by
    obtain ⟨fuel, rfl⟩ : ∃ k, fuel = k + 1 := ⟨fuel - 1, by simp [fuel_elements] at h; omega⟩
    have h1 : d.fuel ≤ fuel := by simp [fuel_elements] at h; omega
    have h2 : fuel_elements ds ≤ fuel := by simp [fuel_elements] at h; omega
    obtain ⟨extra1, f1, r1⟩ := copy_sax_document_finalizes d fuel (aw ++ [n])
      (log ++ [⟨aw, .append⟩]) (pre ++ ⟨parent, true, .array ds false⟩ :: post)
      (some pre.length) h1 (parent_armed_mid pre post parent _)
    obtain ⟨extra2, f2, r2⟩ := copy_array_elements_finalizes ds fuel aw (n + 1)
      (log ++ [⟨aw, .append⟩] ++ d.events (aw ++ [n])) pre parent hs (post ++ extra1) hclose h2
    refine ⟨extra1 ++ extra2, ?_, ?_⟩
    · intro h hmem
      rcases List.mem_append.mp hmem with hmem | hmem
      · exact f1 h hmem
      · exact f2 h hmem
    simp only [copy_array_elements, reader_read, read_mid_cons, bind, Except.bind,
      Recorder.append, r1, List.append_assoc, List.cons_append]
    simp only [List.append_assoc, List.cons_append] at r2
    rw [r2]
    simp [element_events, Nat.add_assoc, Nat.add_comm 1]
/-- The pair loop over the checked reader. -/
theorem copy_map_pairs_finalizes : ∀ (ps : List (Doc × Doc)) (fuel : Nat) (mw : WriterId)
    (n : Nat) (log : List Event) (pre : List Handle) (parent : Option Nat)
    (hs post : List Handle),
    (∀ post, gate (pre ++ post) parent true = hs ++ post) → fuel_pairs ps ≤ fuel →
      ∃ extra, (∀ h ∈ extra, h.body.finalized = true) ∧
        copy_map_pairs reader fuel pre.length ⟨mw, n⟩
          (pre ++ ⟨parent, true, .map ps .expect_key⟩ :: post, log) =
        .ok (⟨mw, n + 2 * ps.length⟩, hs ++ ⟨parent, true, .map [] .done⟩ :: (post ++ extra),
          log ++ pair_events ps mw n)
  | [], fuel, mw, n, log, pre, parent, hs, post, hclose, h => by
    obtain ⟨fuel, rfl⟩ : ∃ k, fuel = k + 1 := ⟨fuel - 1, by simp [fuel_pairs] at h; omega⟩
    refine ⟨[], fun _ h => absurd h (List.not_mem_nil _), ?_⟩
    simp only [copy_map_pairs, reader_read_key, read_key_mid_nil, bind, Except.bind, pure,
      Except.pure, pair_events, hclose, List.length_nil, Nat.mul_zero, Nat.add_zero,
      List.append_nil]
  | (k, v) :: ps, fuel, mw, n, log, pre, parent, hs, post, hclose, h => by
    obtain ⟨fuel, rfl⟩ : ∃ k, fuel = k + 1 := ⟨fuel - 1, by simp [fuel_pairs] at h; omega⟩
    have h1 : k.fuel ≤ fuel := by simp [fuel_pairs] at h; omega
    have h2 : v.fuel ≤ fuel := by simp [fuel_pairs] at h; omega
    have h3 : fuel_pairs ps ≤ fuel := by simp [fuel_pairs] at h; omega
    obtain ⟨extra1, f1, r1⟩ := copy_sax_document_finalizes k fuel (mw ++ [n])
      (log ++ [⟨mw, .append_key⟩])
      (pre ++ ⟨parent, true, .map ((k, v) :: ps) .expect_value⟩ :: post)
      (some pre.length) h1 (parent_armed_mid pre post parent _)
    obtain ⟨extra2, f2, r2⟩ := copy_sax_document_finalizes v fuel (mw ++ [n + 1])
      (log ++ [⟨mw, .append_key⟩] ++ k.events (mw ++ [n]) ++ [⟨mw, .append_value⟩])
      (pre ++ ⟨parent, true, .map ps .expect_key⟩ :: (post ++ extra1))
      (some pre.length) h2 (parent_armed_mid pre (post ++ extra1) parent _)
    obtain ⟨extra3, f3, r3⟩ := copy_map_pairs_finalizes ps fuel mw (n + 2)
      (log ++ [⟨mw, .append_key⟩] ++ k.events (mw ++ [n]) ++ [⟨mw, .append_value⟩] ++
        v.events (mw ++ [n + 1])) pre parent hs (post ++ extra1 ++ extra2) hclose h3
    refine ⟨extra1 ++ extra2 ++ extra3, ?_, ?_⟩
    · intro h hmem
      rcases List.mem_append.mp hmem with hmem | hmem
      · rcases List.mem_append.mp hmem with hmem | hmem
        · exact f1 h hmem
        · exact f2 h hmem
      · exact f3 h hmem
    simp only [List.append_assoc, List.cons_append, List.nil_append] at r1 r2 r3
    simp only [copy_map_pairs, reader_read_key, read_key_mid_cons, bind, Except.bind,
      Recorder.append_key, Recorder.append_value, r1, List.append_assoc, List.cons_append,
      List.nil_append, reader_read_value, read_value_mid, r2, r3]
    simp [pair_events, Nat.mul_add, Nat.add_assoc, Nat.add_comm 2]
end

/-- Copying a document handed out by the checked reader never fails: it records the
events of the document, finalizes every sub-reader it was handed and leaves the older
handles as they were. -/
theorem copy_sax_document_checked (d : Doc) (fuel : Nat) (w : WriterId) (log : List Event)
    (hs : List Handle) (parent : Option Nat) (h : d.fuel ≤ fuel) (hp : ParentArmed hs parent) :
    ∃ extra, copy_sax_document reader fuel w (hand_out hs parent d).1
        ((hand_out hs parent d).2, log) = .ok (hs ++ extra, log ++ d.events w) := by
  obtain ⟨extra, _, key⟩ := copy_sax_document_finalizes d fuel w log hs parent h hp
  exact ⟨extra, key⟩

/-- The element loop over the checked reader. -/
theorem copy_array_elements_checked (ds : List Doc) (fuel : Nat) (aw : WriterId) (n : Nat)
    (log : List Event) (pre : List Handle) (parent : Option Nat) (hs post : List Handle)
    (hclose : ∀ post, gate (pre ++ post) parent true = hs ++ post)
    (h : fuel_elements ds ≤ fuel) :
    ∃ extra, copy_array_elements reader fuel pre.length ⟨aw, n⟩
        (pre ++ ⟨parent, true, .array ds false⟩ :: post, log) =
      .ok (⟨aw, n + ds.length⟩, hs ++ ⟨parent, true, .array [] true⟩ :: extra,
        log ++ element_events ds aw n) := by
  obtain ⟨extra, _, key⟩ :=
    copy_array_elements_finalizes ds fuel aw n log pre parent hs post hclose h
  exact ⟨post ++ extra, key⟩

/-- The pair loop over the checked reader. -/
theorem copy_map_pairs_checked (ps : List (Doc × Doc)) (fuel : Nat) (mw : WriterId)
    (n : Nat) (log : List Event) (pre : List Handle) (parent : Option Nat)
    (hs post : List Handle) (hclose : ∀ post, gate (pre ++ post) parent true = hs ++ post)
    (h : fuel_pairs ps ≤ fuel) :
    ∃ extra, copy_map_pairs reader fuel pre.length ⟨mw, n⟩
        (pre ++ ⟨parent, true, .map ps .expect_key⟩ :: post, log) =
      .ok (⟨mw, n + 2 * ps.length⟩, hs ++ ⟨parent, true, .map [] .done⟩ :: extra,
        log ++ pair_events ps mw n) := by
  obtain ⟨extra, _, key⟩ :=
    copy_map_pairs_finalizes ps fuel mw n log pre parent hs post hclose h
  exact ⟨post ++ extra, key⟩

end checked

namespace checked

theorem consume_hand_out (d : Doc) (fuel : Nat) (hs : List Handle) (parent : Option Nat)
    (h : d.fuel ≤ fuel) (hp : ParentArmed hs parent) :
    ∃ extra, consume fuel (hand_out hs parent d).1 (hand_out hs parent d).2 =
      .ok (hs ++ extra) := by
  obtain ⟨extra, key⟩ := copy_sax_document_checked d fuel [] [] hs parent h hp
  exact ⟨extra, by simp only [consume, key]⟩

/-- The alternating rounds on a map whose gate is armed and which expects a key: every
call succeeds, and the map is left expecting the key of the next pair. -/
theorem alternate_mid (fuel : Nat) : ∀ (rounds : Nat) (ps : List (Doc × Doc))
    (pre post : List Handle) (parent : Option Nat),
    rounds ≤ ps.length → fuel_pairs ps ≤ fuel →
      ∃ post', alternate fuel pre.length rounds
          (pre ++ ⟨parent, true, .map ps .expect_key⟩ :: post) =
        .ok (pre ++ ⟨parent, true, .map (ps.drop rounds) .expect_key⟩ :: post')
  | 0, ps, pre, post, parent, _, _ => ⟨post, rfl⟩
  | rounds + 1, [], pre, post, parent, h, _ => by simp at h
  | rounds + 1, (k, v) :: ps, pre, post, parent, h, hf => by
    have h1 : k.fuel ≤ fuel := by simp [fuel_pairs] at hf; omega
    have h2 : v.fuel ≤ fuel := by simp [fuel_pairs] at hf; omega
    have h3 : fuel_pairs ps ≤ fuel := by simp [fuel_pairs] at hf; omega
    obtain ⟨extra1, r1⟩ := consume_hand_out k fuel
      (pre ++ ⟨parent, true, .map ((k, v) :: ps) .expect_value⟩ :: post) (some pre.length) h1
      (parent_armed_mid pre post parent _)
    obtain ⟨extra2, r2⟩ := consume_hand_out v fuel
      (pre ++ ⟨parent, true, .map ps .expect_key⟩ :: (post ++ extra1)) (some pre.length) h2
      (parent_armed_mid pre (post ++ extra1) parent _)
    obtain ⟨post', r3⟩ := alternate_mid fuel rounds ps pre (post ++ extra1 ++ extra2) parent
      (by simpa using h) h3
    refine ⟨post', ?_⟩
    simp only [List.append_assoc, List.cons_append, List.nil_append] at r1 r2 r3
    simp only [alternate, read_key_mid_cons, bind, Except.bind, r1, List.append_assoc,
      List.cons_append, read_value_mid, r2, r3, List.drop_succ_cons]

theorem read_key_mid (pre post : List Handle) (parent : Option Nat) (ps : List (Doc × Doc)) :
    ∃ r hs', read_key pre.length (pre ++ ⟨parent, true, .map ps .expect_key⟩ :: post) =
      .ok (r, pre.length, hs') ∧ (r = none ↔ ps = []) := by
  cases ps with
  | nil => exact ⟨_, _, read_key_mid_nil pre post parent, by simp⟩
  | cons p ps =>
    obtain ⟨k, v⟩ := p
    exact ⟨_, _, read_key_mid_cons pre post parent k v ps, by simp⟩

end checked

namespace checked

theorem hand_out_map {hs : List Handle} {parent : Option Nat} {d : Doc} {m : Nat}
    (h : (hand_out hs parent d).1 = .map m) :
    ∃ pairs, m = hs.length ∧
      (hand_out hs parent d).2 = spawn hs parent (.map pairs .expect_key) := by
  cases d with
  | scalar v => cases v <;> cases h
  | blob tag bytes => cases tag <;> cases h
  | array elems => cases h
  | map pairs =>
    simp only [hand_out, Document.map.injEq] at h
    exact ⟨pairs, h.symm, rfl⟩

theorem body_at_spawn_new (hs : List Handle) (parent : Option Nat) (body : Body) :
    body_at (spawn hs parent body) hs.length = some body := by
  unfold body_at spawn
  rw [← length_gate hs parent false, getElem?_mid]
  rfl

theorem body_at_set_self {hs : List Handle} {id : Nat} {h : Handle} (hid : hs[id]? = some h)
    (h' : Handle) : body_at (hs.set id h') id = some h'.body := by
  unfold body_at
  rw [getElem?_set_self_at hid]
  rfl

/-- C9: in a checked build a map sub-reader enforces the alternation of keys and values.
`read_value()` fails with `library_misused` on a map that was just handed out, and after
a `read_value()` that succeeded, for as long as no `read_key()` is made on the map,
whatever is called on other sub-readers in between. `read_key()` fails with
`library_misused` after a `read_key()` that returned a key, for as long as no
`read_value()` is made on the map, also when the key was consumed in between. And every
strictly alternating sequence succeeds: on a map handed out with `pairs`, any number
`rounds ≤ pairs.length` of rounds `read_key()`, key consumed, `read_value()`, value
consumed, succeeds, and so does the `read_key()` after them, which returns `none`
exactly when all pairs were read. -/
theorem map_alternation :
    (∀ (hs : List Handle) (parent : Option Nat) (d : Doc) (m : Nat) (ops : List Op),
      (hand_out hs parent d).1 = .map m → Op.read_key m ∉ ops →
        read_value m (ops.foldl step (hand_out hs parent d).2) = .error .library_misused) ∧
    (∀ (hs hs1 : List Handle) (m : Nat) (v : Document Nat Nat Nat) (ops : List Op),
      read_value m hs = .ok (v, m, hs1) → Op.read_key m ∉ ops →
        read_value m (ops.foldl step hs1) = .error .library_misused) ∧
    (∀ (hs hs1 : List Handle) (m : Nat) (k : Document Nat Nat Nat) (ops : List Op),
      read_key m hs = .ok (some k, m, hs1) → Op.read_value m ∉ ops →
        read_key m (ops.foldl step hs1) = .error .library_misused) ∧
    (∀ (hs : List Handle) (parent : Option Nat) (pairs : List (Doc × Doc))
      (fuel rounds : Nat),
      ParentArmed hs parent → (Doc.map pairs).fuel ≤ fuel → rounds ≤ pairs.length →
        (hand_out hs parent (.map pairs)).1 = .map hs.length ∧
        ∃ hs2, alternate fuel hs.length rounds (hand_out hs parent (.map pairs)).2 = .ok hs2 ∧
          ∃ r hs3, read_key hs.length hs2 = .ok (r, hs.length, hs3) ∧
            (r = none ↔ rounds = pairs.length)) := by
  refine ⟨?_, ?_, ?_, ?_⟩
  · intro hs parent d m ops hmap hno
    obtain ⟨pairs, rfl, hst⟩ := hand_out_map hmap
    have hb : body_at (hand_out hs parent d).2 hs.length = some (.map pairs .expect_key) := by
      rw [hst]; exact body_at_spawn_new hs parent _
    exact read_value_fails_unless_expected
      (body_at_foldl_unless_read_key _ _ _ (by decide) ops _ hb hno) (by decide)
  · intro hs hs1 m v ops hval hno
    obtain ⟨parent, k, v', ps, hid, _, _, rfl⟩ := read_value_ok hval
    have hb : body_at (hand_out (hs.set m ⟨parent, true, .map ps .expect_key⟩) (some m) v').2 m =
        some (.map ps .expect_key) := by
      rw [body_at_hand_out _ _ _ (by rw [List.length_set]; exact lt_length_of_getElem? hid)]
      exact body_at_set_self hid _
    exact read_value_fails_unless_expected
      (body_at_foldl_unless_read_key _ _ _ (by decide) ops _ hb hno) (by decide)
  · intro hs hs1 m k ops hkey hno
    obtain ⟨parent, rest, hid, _, hcase⟩ := read_key_ok hkey
    rcases hcase with ⟨_, hr, _⟩ | ⟨k', v, ps, rfl, _, rfl⟩
    · cases hr
    · have hb : body_at (hand_out (hs.set m ⟨parent, true, .map ((k', v) :: ps) .expect_value⟩)
          (some m) k').2 m = some (.map ((k', v) :: ps) .expect_value) := by
        rw [body_at_hand_out _ _ _ (by rw [List.length_set]; exact lt_length_of_getElem? hid)]
        exact body_at_set_self hid _
      exact read_key_fails_unless_expected
        (body_at_foldl_unless_read_value _ _ ops _ hb hno) (by decide)
  · intro hs parent pairs fuel rounds hp hfuel hrounds
    refine ⟨rfl, ?_⟩
    have hf : fuel_pairs pairs ≤ fuel := by simp only [Doc.fuel] at hfuel; omega
    obtain ⟨post', h1⟩ := alternate_mid fuel rounds pairs (gate hs parent false) [] parent
      hrounds hf
    rw [length_gate] at h1
    obtain ⟨r, hs3, h2, h3⟩ := read_key_mid (gate hs parent false) post' parent
      (pairs.drop rounds)
    rw [length_gate] at h2
    refine ⟨_, h1, r, hs3, h2, ?_⟩
    rw [h3, List.drop_eq_nil_iff]
    omega

theorem map_alternation_witness :
    read_value 1 (run map_in_array [.read 0]) = .error .library_misused ∧
    read_key 1 ([Op.read_buffer 2 100].foldl step
      [⟨none, false, .array [] false⟩,
       ⟨some 0, false, .map [(.blob .string [97], .scalar (.unsigned_int 1)),
          (.blob .string [98], .scalar (.unsigned_int 2))] .expect_value⟩,
       ⟨some 1, true, .blob [97] false⟩]) = .error .library_misused ∧
    ∃ hs2, alternate 10 1 2 (run map_in_array [.read 0]) = .ok hs2 ∧
      ∃ r hs3, read_key 1 hs2 = .ok (r, 1, hs3) ∧ (r = none ↔ 2 = 2) :=
  ⟨map_alternation.1 [⟨none, true, .array [] false⟩] (some 0)
      (.map [(.blob .string [97], .scalar (.unsigned_int 1)),
        (.blob .string [98], .scalar (.unsigned_int 2))]) 1 [] rfl (by simp),
    map_alternation.2.2.1 (run map_in_array [.read 0]) _ 1 (.string 2) [.read_buffer 2 100]
      rfl (by simp),
    (map_alternation.2.2.2 [⟨none, true, .array [] false⟩] (some 0)
      [(.blob .string [97], .scalar (.unsigned_int 1)),
        (.blob .string [98], .scalar (.unsigned_int 2))] 10 2
      (fun q hq => ⟨⟨none, true, .array [] false⟩, by cases hq; rfl, rfl⟩)
      (by decide) (by decide)).2⟩

/-- C10: in a checked build a map sub-reader is a gated parent of the keys and values it
hands out. While a child of the map `m` is not finalized, both `read_value()` and
`read_key()` on `m` fail with `library_misused`, the gate of `m` being disarmed; so
`read_value()` fails right after a `read_key()` that returned a sub-reader, and
`read_key()` fails right after a `read_value()` that returned a sub-reader. -/
theorem map_gated_by_children (d : Doc) (ops : List Op) (m : Nat) (hm : Handle)
    (rest : List (Doc × Doc)) (alt : Alternation)
    (hmap : (run d ops)[m]? = some hm) (hbody : hm.body = .map rest alt) :
    (∀ (c : Nat) (hc : Handle), (run d ops)[c]? = some hc → hc.parent = some m →
      hc.body.finalized = false →
        read_value m (run d ops) = .error .library_misused ∧
        read_key m (run d ops) = .error .library_misused ∧
        hm.armed = false ∧ alt ≠ .done) ∧
    (∀ (k : Document Nat Nat Nat) (hs1 : List Handle),
      read_key m (run d ops) = .ok (some k, m, hs1) → k.is_sub_reader = true →
        read_value m hs1 = .error .library_misused) ∧
    (∀ (v : Document Nat Nat Nat) (hs1 : List Handle),
      read_value m (run d ops) = .ok (v, m, hs1) → v.is_sub_reader = true →
        read_key m hs1 = .error .library_misused) := by
  refine ⟨?_, ?_, ?_⟩
  · intro c hc hchild hof hlive
    obtain ⟨hp', h1, h2, h3⟩ := (inv_run d ops).gated c hc m hchild hof hlive
    rw [hmap] at h1
    cases h1
    refine ⟨read_value_fails_of_disarmed hmap h2, read_key_fails_of_disarmed hmap h2, h2, ?_⟩
    intro e
    rw [hbody, e] at h3
    cases h3
  · intro k hs1 hkey hsub
    obtain ⟨parent, rest', hid, _, hcase⟩ := read_key_ok hkey
    rcases hcase with ⟨_, hr, _⟩ | ⟨k', v, ps, _, hr, rfl⟩
    · cases hr
    · cases hr
      obtain ⟨body, hst, _⟩ := hand_out_sub_reader _ m k' hsub
      rw [hst]
      exact read_value_fails_of_disarmed (spawn_disarms (getElem?_set_self_at hid _) body) rfl
  · intro v hs1 hval hsub
    obtain ⟨parent, k, v', ps, hid, _, hr, rfl⟩ := read_value_ok hval
    cases hr
    obtain ⟨body, hst, _⟩ := hand_out_sub_reader _ m v' hsub
    rw [hst]
    exact read_key_fails_of_disarmed (spawn_disarms (getElem?_set_self_at hid _) body) rfl

theorem map_gated_by_children_witness :
    (run map_in_array [.read 0, .read_key 1])[1]? =
      some ⟨some 0, false, .map [(.blob .string [97], .scalar (.unsigned_int 1)),
        (.blob .string [98], .scalar (.unsigned_int 2))] .expect_value⟩ ∧
    (run map_in_array [.read 0, .read_key 1])[2]? = some ⟨some 1, true, .blob [97] false⟩ ∧
    read_value 1 (run map_in_array [.read 0, .read_key 1]) = .error .library_misused :=
  ⟨rfl, rfl,
    ((map_gated_by_children map_in_array [.read 0, .read_key 1] 1
      ⟨some 0, false, .map [(.blob .string [97], .scalar (.unsigned_int 1)),
        (.blob .string [98], .scalar (.unsigned_int 2))] .expect_value⟩ _ _ rfl rfl).1
      2 ⟨some 1, true, .blob [97] false⟩ rfl rfl rfl).1⟩

end checked

namespace checked

/-! ### Blob sub-readers stay armed -/

end checked

/-! ### Seeking by consuming and discarding -/

namespace checked

theorem seek_not_short (id n : Nat) (hs : List Handle) (parent : Option Nat)
    (rest : List Byte) (hid : hs[id]? = some ⟨parent, true, .blob rest false⟩)
    (hn : n ≤ rest.length) :
    seek id n hs = .ok (n, hs.set id ⟨parent, true, .blob (rest.drop n) false⟩) := by
  unfold seek
  rw [hid]
  simp only [List.length_take, Nat.min_eq_left hn, if_neg (Nat.lt_irrefl n)]

theorem body_at_finish_self {hs : List Handle} {id : Nat} {h : Handle} (hid : hs[id]? = some h)
    (body : Body) : body_at (finish hs id h body) id = some body := by
  unfold body_at
  rw [getElem?_finish hid]
  by_cases hp : h.parent = some id
  · rw [if_pos hp, if_pos rfl]
    rfl
  · rw [if_neg hp, if_pos rfl]
    rfl

/-- A call on a blob sub-reader whose end was signalled is rejected. -/
theorem seek_fails_of_ended {hs : List Handle} {id : Nat} {h : Handle} {rest : List Byte}
    (hid : hs[id]? = some h) (hbody : h.body = .blob rest true) (n : Nat) :
    seek id n hs = .error .library_misused := by
  obtain ⟨parent, armed, body⟩ := h
  simp only at hbody
  subst hbody
  unfold seek
  rw [hid]
  cases armed <;> rfl

end checked

namespace checked

/-- C11: in a checked build, a forward seek on a string sub-reader by exactly the number
of its unread bytes returns that number and does not finalize the string: the string is
left with no unread byte and its end not signalled, and `read()` on its parent array
fails with `library_misused`. -/
theorem seek_to_exact_end_keeps_parent_disarmed (d : Doc) (ops : List Op) (p c : Nat)
    (hp : Handle) (elems : List Doc) (ended : Bool) (bytes : List Byte)
    (hparent : (run d ops)[p]? = some hp) (harray : hp.body = .array elems ended)
    (hchild : (run d ops)[c]? = some ⟨some p, true, .blob bytes false⟩) :
    seek c bytes.length (run d ops) =
      .ok (bytes.length, (run d ops).set c ⟨some p, true, .blob [] false⟩) ∧
    (Body.blob [] false).finalized = false ∧
    ((run d ops).set c ⟨some p, true, .blob [] false⟩)[p]? = some hp ∧
    hp.armed = false ∧ ended = false ∧
    read p ((run d ops).set c ⟨some p, true, .blob [] false⟩) = .error .library_misused := by
  have hseek := seek_not_short c bytes.length (run d ops) (some p) bytes hchild (Nat.le_refl _)
  rw [List.drop_length] at hseek
  obtain ⟨hp', h1, h2, h3⟩ := (inv_run d ops).gated c _ p hchild rfl rfl
  rw [hparent] at h1
  cases h1
  rw [harray] at h3
  have hne : p ≠ c := Nat.ne_of_lt ((inv_run d ops).parent_lt c _ p hchild rfl)
  have hp2 : ((run d ops).set c ⟨some p, true, .blob [] false⟩)[p]? = some hp := by
    rw [getElem?_set_at hchild, if_neg hne]
    exact hparent
  exact ⟨hseek, rfl, hp2, h2, h3, read_fails_of_disarmed hp2 h2⟩

theorem seek_to_exact_end_keeps_parent_disarmed_witness :
    (run hello_array [.read 0])[0]? = some ⟨none, false, .array [] false⟩ ∧
    (run hello_array [.read 0])[1]? =
      some ⟨some 0, true, .blob [104, 101, 108, 108, 111] false⟩ ∧
    seek 1 5 (run hello_array [.read 0]) =
      .ok (5, (run hello_array [.read 0]).set 1 ⟨some 0, true, .blob [] false⟩) ∧
    read 0 ((run hello_array [.read 0]).set 1 ⟨some 0, true, .blob [] false⟩) =
      .error .library_misused :=
  ⟨rfl, rfl,
    (seek_to_exact_end_keeps_parent_disarmed hello_array [.read 0] 0 1
      ⟨none, false, .array [] false⟩ [] false [104, 101, 108, 108, 111] rfl rfl rfl).1,
    (seek_to_exact_end_keeps_parent_disarmed hello_array [.read 0] 0 1
      ⟨none, false, .array [] false⟩ [] false [104, 101, 108, 108, 111] rfl rfl rfl).2.2.2.2.2⟩

/-- C12, against the claim: for the JSON input `["hello"]`, after a seek of exactly 5 on
the child string the next `read()` of the parent array does not yield `none`; it fails
with `library_misused`. -/
theorem exact_seek_then_parent_read_fails :
    read 0 (run hello_array [.read 0, .seek 1 5]) = .error .library_misused := rfl

/-- C12, as amended: for the JSON input `["hello"]`, a seek of 6 on the 5-byte child
string returns 5 and the next `read()` of the parent array yields `none` without an
error; a seek of exactly 5 returns 5 as well, but leaves the string not finalized, and
the next `read()` of the parent array fails with `library_misused`. -/
theorem seek_past_end_rearms_exact_seek_does_not :
    (∃ hs, seek 1 6 (run hello_array [.read 0]) = .ok (5, hs) ∧
      ∃ hs', read 0 hs = .ok (none, 0, hs')) ∧
    (∃ hs, seek 1 5 (run hello_array [.read 0]) = .ok (5, hs) ∧
      body_at hs 1 = some (.blob [] false) ∧
      read 0 hs = .error .library_misused) :=
  ⟨⟨_, rfl, _, rfl⟩, ⟨_, rfl, rfl, rfl⟩⟩

end checked

namespace checked

theorem traced_read_buffer {hs : List Handle} {id n : Nat} {r : List Byte × Nat × List Handle}
    (tr : List Op) (h : read_buffer id n hs = .ok r) :
    traced.read_buffer id n (hs, tr) = .ok (r.1, r.2.1, r.2.2, tr ++ [.read_buffer id n]) := by
  simp only [traced, h]

theorem traced_read {hs : List Handle} {id : Nat}
    {r : Option (Document Nat Nat Nat) × Nat × List Handle}
    (tr : List Op) (h : read id hs = .ok r) :
    traced.read id (hs, tr) = .ok (r.1, r.2.1, r.2.2, tr ++ [.read id]) := by
  simp only [traced, h]

theorem traced_read_key {hs : List Handle} {id : Nat}
    {r : Option (Document Nat Nat Nat) × Nat × List Handle}
    (tr : List Op) (h : read_key id hs = .ok r) :
    traced.read_key id (hs, tr) = .ok (r.1, r.2.1, r.2.2, tr ++ [.read_key id]) := by
  simp only [traced, h]

theorem traced_read_value {hs : List Handle} {id : Nat}
    {r : Document Nat Nat Nat × Nat × List Handle}
    (tr : List Op) (h : read_value id hs = .ok r) :
    traced.read_value id (hs, tr) = .ok (r.1, r.2.1, r.2.2, tr ++ [.read_value id]) := by
  simp only [traced, h]

theorem all_accepted_append : ∀ (a b : List Op) (hs : List Handle),
    all_accepted hs (a ++ b) = (all_accepted hs a && all_accepted (a.foldl step hs) b)
  | [], b, hs => by simp [all_accepted]
  | op :: a, b, hs => by
    rw [List.cons_append, all_accepted, all_accepted, List.foldl_cons,
      all_accepted_append a b, Bool.and_assoc]

theorem complies_append : ∀ (a b : List Op) (hs : List Handle),
    complies hs (a ++ b) = (complies hs a && complies (a.foldl step hs) b)
  | [], b, hs => by simp [complies]
  | op :: a, b, hs => by
    rw [List.cons_append, complies, complies, List.foldl_cons, complies_append a b,
      Bool.and_assoc]

end checked

namespace checked

theorem step_read_buffer {hs : List Handle} {id n : Nat} {r : List Byte × Nat × List Handle}
    (h : read_buffer id n hs = .ok r) :
    [Op.read_buffer id n].foldl step hs = r.2.2 ∧
      all_accepted hs [Op.read_buffer id n] = true := by
  simp only [List.foldl_cons, List.foldl_nil, step, all_accepted, accepted, h, Bool.and_self,
    and_self]

theorem step_read {hs : List Handle} {id : Nat}
    {r : Option (Document Nat Nat Nat) × Nat × List Handle} (h : read id hs = .ok r) :
    [Op.read id].foldl step hs = r.2.2 ∧ all_accepted hs [Op.read id] = true := by
  simp only [List.foldl_cons, List.foldl_nil, step, all_accepted, accepted, h, Bool.and_self,
    and_self]

theorem step_read_key {hs : List Handle} {id : Nat}
    {r : Option (Document Nat Nat Nat) × Nat × List Handle} (h : read_key id hs = .ok r) :
    [Op.read_key id].foldl step hs = r.2.2 ∧ all_accepted hs [Op.read_key id] = true := by
  simp only [List.foldl_cons, List.foldl_nil, step, all_accepted, accepted, h, Bool.and_self,
    and_self]

theorem step_read_value {hs : List Handle} {id : Nat}
    {r : Document Nat Nat Nat × Nat × List Handle} (h : read_value id hs = .ok r) :
    [Op.read_value id].foldl step hs = r.2.2 ∧ all_accepted hs [Op.read_value id] = true := by
  simp only [List.foldl_cons, List.foldl_nil, step, all_accepted, accepted, h, Bool.and_self,
    and_self]

/-- Two accepted call sequences in a row are an accepted call sequence. -/
theorem accepted_trans {hs hs1 hs2 : List Handle} {a b : List Op}
    (ha : a.foldl step hs = hs1 ∧ all_accepted hs a = true)
    (hb : b.foldl step hs1 = hs2 ∧ all_accepted hs1 b = true) :
    (a ++ b).foldl step hs = hs2 ∧ all_accepted hs (a ++ b) = true := by
  obtain ⟨rfl, ha⟩ := ha
  obtain ⟨rfl, hb⟩ := hb
  rw [List.foldl_append, all_accepted_append, ha, hb]
  exact ⟨rfl, rfl⟩

/-- The pull loop over the recording reader does what it does over the checked reader,
and records the calls it made, which were all accepted. -/
theorem copy_stream_loop_traced (out : WriterId) : ∀ (fuel id : Nat) (hs : List Handle)
    (tr : List Op) (log : List Event) (r : Nat × List Handle × List Event),
    copy_stream_loop reader out fuel id (hs, log) = .ok r →
      ∃ ops, copy_stream_loop traced out fuel id ((hs, tr), log) =
          .ok (r.1, (r.2.1, tr ++ ops), r.2.2) ∧
        ops.foldl step hs = r.2.1 ∧ all_accepted hs ops = true := by
  intro fuel
  induction fuel with
  | zero => intro id hs tr log r h; cases h
  | succ fuel ih =>
    intro id hs tr log r h
    rw [copy_stream_loop] at h ⊢
    rw [reader_read_buffer] at h
    cases hrb : read_buffer id buffer_size hs with
    | error e => rw [hrb] at h; cases h
    | ok x =>
      obtain ⟨bytes, id', hs1⟩ := x
      rw [hrb] at h
      rw [traced_read_buffer tr hrb]
      simp only [bind, Except.bind] at h ⊢
      by_cases hfull : bytes.length = buffer_size
      · rw [if_pos hfull] at h ⊢
        obtain ⟨ops, e, hops⟩ := ih id' hs1 (tr ++ [.read_buffer id buffer_size]) _ r h
        refine ⟨.read_buffer id buffer_size :: ops, ?_, ?_⟩
        · rw [e, List.append_assoc]
          rfl
        · exact accepted_trans (step_read_buffer hrb) hops
      · rw [if_neg hfull] at h ⊢
        cases h
        exact ⟨[.read_buffer id buffer_size], rfl, step_read_buffer hrb⟩

/-- The template `copy_stream` over the recording reader. -/
theorem copy_stream_traced (fuel id : Nat) (w : WriterId) (tag : BlobTag) (hs : List Handle)
    (tr : List Op) (log : List Event) (r : Nat × List Handle × List Event)
    (h : copy_stream reader fuel id w tag (hs, log) = .ok r) :
    ∃ ops, copy_stream traced fuel id w tag ((hs, tr), log) =
        .ok (r.1, (r.2.1, tr ++ ops), r.2.2) ∧
      ops.foldl step hs = r.2.1 ∧ all_accepted hs ops = true := by
  rw [copy_stream] at h ⊢
  rw [reader_read_buffer] at h
  cases hrb : read_buffer id buffer_size hs with
  | error e => rw [hrb] at h; cases h
  | ok x =>
    obtain ⟨bytes, id', hs1⟩ := x
    rw [hrb] at h
    rw [traced_read_buffer tr hrb]
    simp only [bind, Except.bind] at h ⊢
    by_cases hshort : bytes.length < buffer_size
    · rw [if_pos hshort] at h ⊢
      cases h
      exact ⟨[.read_buffer id buffer_size], rfl, step_read_buffer hrb⟩
    · rw [if_neg hshort] at h ⊢
      simp only [Recorder.write_stream, Recorder.write_buffer] at h ⊢
      cases hl : copy_stream_loop reader (w ++ [0]) fuel id'
          (hs1, log ++ [⟨w, .write_stream tag⟩] ++
            [⟨w ++ [0], .write_buffer (bytes.take buffer_size)⟩]) with
      | error e => rw [hl] at h; cases h
      | ok y =>
        rw [hl] at h
        obtain ⟨ops, e, hops⟩ := copy_stream_loop_traced (w ++ [0]) fuel id' hs1
          (tr ++ [.read_buffer id buffer_size]) _ y hl
        cases h
        refine ⟨.read_buffer id buffer_size :: ops, ?_, ?_⟩
        · rw [e, List.append_assoc]
          rfl
        · exact accepted_trans (step_read_buffer hrb) hops

end checked

namespace checked

/-- The copy engine over the recording reader does what it does over the checked reader,
and records the calls it made, which were all accepted: the document arm, the element
loop and the pair loop. -/
theorem copy_traced (fuel : Nat) :
    (∀ (w : WriterId) (doc : Document Nat Nat Nat) (hs : List Handle) (tr : List Op)
      (log : List Event) (r : List Handle × List Event),
      copy_sax_document reader fuel w doc (hs, log) = .ok r →
        ∃ ops, copy_sax_document traced fuel w doc ((hs, tr), log) =
            .ok ((r.1, tr ++ ops), r.2) ∧
          ops.foldl step hs = r.1 ∧ all_accepted hs ops = true) ∧
    (∀ (x : Nat) (aw : ContainerWriter) (hs : List Handle) (tr : List Op)
      (log : List Event) (r : ContainerWriter × List Handle × List Event),
      copy_array_elements reader fuel x aw (hs, log) = .ok r →
        ∃ ops, copy_array_elements traced fuel x aw ((hs, tr), log) =
            .ok (r.1, (r.2.1, tr ++ ops), r.2.2) ∧
          ops.foldl step hs = r.2.1 ∧ all_accepted hs ops = true) ∧
    (∀ (x : Nat) (mw : ContainerWriter) (hs : List Handle) (tr : List Op)
      (log : List Event) (r : ContainerWriter × List Handle × List Event),
      copy_map_pairs reader fuel x mw (hs, log) = .ok r →
        ∃ ops, copy_map_pairs traced fuel x mw ((hs, tr), log) =
            .ok (r.1, (r.2.1, tr ++ ops), r.2.2) ∧
          ops.foldl step hs = r.2.1 ∧ all_accepted hs ops = true) := by
  induction fuel with
  | zero =>
    refine ⟨?_, ?_, ?_⟩
    · intro w doc hs tr log r h; cases h
    · intro x aw hs tr log r h; cases h
    · intro x mw hs tr log r h; cases h
  | succ fuel ih =>
    obtain ⟨ihd, iha, ihm⟩ := ih
    refine ⟨?_, ?_, ?_⟩
    · intro w doc hs tr log r h
      have scalar : ∀ v : Scalar, r = (hs, Recorder.write w v log) →
          ∃ ops, (Except.ok ((hs, tr), Recorder.write w v log) :
              Except Fault ((List Handle × List Op) × List Event)) =
              .ok ((r.1, tr ++ ops), r.2) ∧
            ops.foldl step hs = r.1 ∧ all_accepted hs ops = true := by
        intro v e
        subst e
        exact ⟨[], by rw [List.append_nil], rfl, rfl⟩
      cases doc with
      | binary x =>
        simp only [copy_sax_document, bind, Except.bind] at h ⊢
        cases hc : copy_stream reader fuel x w .binary (hs, log) with
        | error e => rw [hc] at h; cases h
        | ok y =>
          rw [hc] at h
          obtain ⟨ops, e, hops⟩ := copy_stream_traced fuel x w .binary hs tr log y hc
          cases h
          exact ⟨ops, by rw [e]; rfl, hops⟩
      | string x =>
        simp only [copy_sax_document, bind, Except.bind] at h ⊢
        cases hc : copy_stream reader fuel x w .string (hs, log) with
        | error e => rw [hc] at h; cases h
        | ok y =>
          rw [hc] at h
          obtain ⟨ops, e, hops⟩ := copy_stream_traced fuel x w .string hs tr log y hc
          cases h
          exact ⟨ops, by rw [e]; rfl, hops⟩
      | array x =>
        simp only [copy_sax_document, bind, Except.bind, Recorder.write_array] at h ⊢
        cases hc : copy_array_elements reader fuel x ⟨w ++ [0], 0⟩
            (hs, log ++ [⟨w, .write_array⟩]) with
        | error e => rw [hc] at h; cases h
        | ok y =>
          rw [hc] at h
          obtain ⟨ops, e, hops⟩ := iha x ⟨w ++ [0], 0⟩ hs tr _ y hc
          cases h
          exact ⟨ops, by rw [e]; rfl, hops⟩
      | map x =>
        simp only [copy_sax_document, bind, Except.bind, Recorder.write_map] at h ⊢
        cases hc : copy_map_pairs reader fuel x ⟨w ++ [0], 0⟩
            (hs, log ++ [⟨w, .write_map⟩]) with
        | error e => rw [hc] at h; cases h
        | ok y =>
          rw [hc] at h
          obtain ⟨ops, e, hops⟩ := ihm x ⟨w ++ [0], 0⟩ hs tr _ y hc
          cases h
          exact ⟨ops, by rw [e]; rfl, hops⟩
      | undefined => cases h; exact scalar .undefined rfl
      | floating_point x => cases h; exact scalar (.floating_point x) rfl
      | unsigned_int x => cases h; exact scalar (.unsigned_int x) rfl
      | signed_int x => cases h; exact scalar (.signed_int x) rfl
      | boolean x => cases h; exact scalar (.boolean x) rfl
      | null => cases h; exact scalar .null rfl
    · intro x aw hs tr log r h
      rw [copy_array_elements] at h ⊢
      rw [reader_read] at h
      cases hr : read x hs with
      | error e => rw [hr] at h; cases h
      | ok y =>
        obtain ⟨element, x', hs1⟩ := y
        rw [hr] at h
        rw [traced_read tr hr]
        simp only [bind, Except.bind] at h ⊢
        cases element with
        | none =>
          simp only [pure, Except.pure] at h ⊢
          cases h
          exact ⟨[.read x], rfl, step_read hr⟩
        | some element =>
          simp only [Recorder.append] at h ⊢
          cases hc : copy_sax_document reader fuel (aw.id ++ [aw.count]) element
              (hs1, log ++ [⟨aw.id, .append⟩]) with
          | error e => rw [hc] at h; cases h
          | ok st =>
            rw [hc] at h
            obtain ⟨ops1, e1, hops1⟩ := ihd _ element hs1 (tr ++ [.read x]) _ st hc
            obtain ⟨ops2, e2, hops2⟩ := iha x' ⟨aw.id, aw.count + 1⟩ st.1
              (tr ++ [.read x] ++ ops1) st.2 r h
            refine ⟨.read x :: (ops1 ++ ops2), ?_, ?_⟩
            · rw [e1]
              simp only
              rw [e2]
              simp only [List.append_assoc, List.cons_append, List.nil_append]
            · exact accepted_trans (step_read hr) (accepted_trans hops1 hops2)
    · intro x mw hs tr log r h
      rw [copy_map_pairs] at h ⊢
      rw [reader_read_key] at h
      cases hr : read_key x hs with
      | error e => rw [hr] at h; cases h
      | ok y =>
        obtain ⟨key, x', hs1⟩ := y
        rw [hr] at h
        rw [traced_read_key tr hr]
        simp only [bind, Except.bind] at h ⊢
        cases key with
        | none =>
          simp only [pure, Except.pure] at h ⊢
          cases h
          exact ⟨[.read_key x], rfl, step_read_key hr⟩
        | some key =>
          simp only [Recorder.append_key] at h ⊢
          cases hc : copy_sax_document reader fuel (mw.id ++ [mw.count]) key
              (hs1, log ++ [⟨mw.id, .append_key⟩]) with
          | error e => rw [hc] at h; cases h
          | ok st =>
            obtain ⟨hs2, log2⟩ := st
            rw [hc] at h
            obtain ⟨ops1, e1, hops1⟩ := ihd _ key hs1 (tr ++ [.read_key x]) _ _ hc
            rw [e1]
            simp only [Recorder.append_value, reader_read_value] at h ⊢
            cases hv : read_value x' hs2 with
            | error e => rw [hv] at h; cases h
            | ok z =>
              obtain ⟨value, x'', hs3⟩ := z
              rw [hv] at h
              rw [traced_read_value _ hv]
              simp only at h ⊢
              cases hc2 : copy_sax_document reader fuel (mw.id ++ [mw.count + 1]) value
                  (hs3, log2 ++ [⟨mw.id, .append_value⟩]) with
              | error e => rw [hc2] at h; cases h
              | ok st2 =>
                rw [hc2] at h
                obtain ⟨ops2, e2, hops2⟩ := ihd _ value hs3
                  (tr ++ [.read_key x] ++ ops1 ++ [.read_value x']) _ st2 hc2
                obtain ⟨ops3, e3, hops3⟩ := ihm x'' ⟨mw.id, mw.count + 1 + 1⟩ st2.1
                  (tr ++ [.read_key x] ++ ops1 ++ [.read_value x'] ++ ops2) st2.2 r h
                refine ⟨.read_key x :: (ops1 ++ (.read_value x' :: (ops2 ++ ops3))), ?_, ?_⟩
                · rw [e2]
                  simp only
                  rw [e3]
                  simp only [List.append_assoc, List.cons_append, List.nil_append]
                · exact accepted_trans (step_read_key hr) (accepted_trans hops1
                    (accepted_trans (step_read_value hv) (accepted_trans hops2 hops3)))

end checked

namespace checked

/-- A sub-reader whose gate is armed has no child that is not finalized. -/
theorem children_ended_of_armed {hs : List Handle} (inv : Inv hs) {id : Nat} {h : Handle}
    (hid : hs[id]? = some h) (ha : h.armed = true) : children_ended hs id = true := by
  unfold children_ended
  rw [List.all_eq_true]
  intro c hc
  obtain ⟨i, hi⟩ := List.mem_iff_getElem?.mp hc
  by_cases hp : c.parent = some id
  · cases hf : c.body.finalized with
    | true => simp
    | false =>
      obtain ⟨hp', hid', hd, _⟩ := inv.gated i c id hi hp hf
      rw [hid] at hid'
      cases hid'
      rw [ha] at hd
      cases hd
  · simp [hp]

theorem expects_of_getElem? {hs : List Handle} {m : Nat} {parent : Option Nat} {armed : Bool}
    {rest : List (Doc × Doc)} {alt : Alternation}
    (hid : hs[m]? = some ⟨parent, armed, .map rest alt⟩) (alt' : Alternation) :
    expects hs m alt' = decide (alt = alt') := by
  simp only [expects, body_at, hid, Option.map_some']

/-- A call the checked reader accepts is permitted by the one-live-child and alternation
rules. -/
theorem permitted_of_accepted {hs : List Handle} (inv : Inv hs) (op : Op)
    (h : accepted hs op = true) : permitted hs op = true := by
  cases op with
  | read_buffer id n => rfl
  | seek id n => rfl
  | read id =>
    simp only [accepted] at h
    split at h
    · rename_i r hr
      obtain ⟨x, id', hs'⟩ := r
      obtain ⟨parent, rest, hid, _⟩ := read_ok hr
      exact children_ended_of_armed inv hid rfl
    · cases h
  | read_key id =>
    simp only [accepted] at h
    split at h
    · rename_i r hr
      obtain ⟨x, id', hs'⟩ := r
      obtain ⟨parent, rest, hid, _⟩ := read_key_ok hr
      simp only [permitted, children_ended_of_armed inv hid rfl, expects_of_getElem? hid,
        decide_True, Bool.and_self]
    · cases h
  | read_value id =>
    simp only [accepted] at h
    split at h
    · rename_i r hr
      obtain ⟨x, id', hs'⟩ := r
      obtain ⟨parent, k, v, ps, hid, _⟩ := read_value_ok hr
      simp only [permitted, children_ended_of_armed inv hid rfl, expects_of_getElem? hid,
        decide_True, Bool.and_self]
    · cases h

/-- A sequence of calls the checked reader accepts complies with the rules. -/
theorem complies_of_all_accepted : ∀ (ops : List Op) (hs : List Handle), Inv hs →
    all_accepted hs ops = true → complies hs ops = true
  | [], _, _, _ => rfl
  | op :: ops, hs, inv, h => by
    rw [all_accepted, Bool.and_eq_true] at h
    rw [complies, permitted_of_accepted inv op h.1,
      complies_of_all_accepted ops (step hs op) (inv_step inv op) h.2]
    rfl

end checked

namespace checked

theorem expects_congr {hs hs' : List Handle} {m : Nat} (h : body_at hs' m = body_at hs m)
    (alt : Alternation) : expects hs' m alt = expects hs m alt := by
  unfold expects
  rw [h]

theorem expects_of_body_at {hs : List Handle} {m : Nat} {rest : List (Doc × Doc)}
    {a : Alternation} (h : body_at hs m = some (.map rest a)) (alt : Alternation) :
    expects hs m alt = decide (a = alt) := by
  unfold expects
  rw [h]

theorem expects_blob {hs : List Handle} {m : Nat} {rest : List Byte} {e : Bool}
    (h : body_at hs m = some (.blob rest e)) (alt : Alternation) : expects hs m alt = false := by
  unfold expects
  rw [h]

theorem expects_array {hs : List Handle} {m : Nat} {rest : List Doc} {e : Bool}
    (h : body_at hs m = some (.array rest e)) (alt : Alternation) :
    expects hs m alt = false := by
  unfold expects
  rw [h]

theorem expects_none {hs : List Handle} {m : Nat} (h : body_at hs m = none)
    (alt : Alternation) : expects hs m alt = false := by
  unfold expects
  rw [h]

theorem body_at_of_getElem? {hs : List Handle} {m : Nat} {h : Handle} (hid : hs[m]? = some h) :
    body_at hs m = some h.body := by
  unfold body_at
  rw [hid]
  rfl

/-- A sub-reader is in one alternation state at most. -/
theorem expects_unique {hs : List Handle} {m : Nat} {a b : Alternation}
    (ha : expects hs m a = true) (hb : expects hs m b = true) : a = b := by
  unfold expects at ha hb
  split at ha
  · rename_i rest x heq
    rw [heq] at hb
    exact (of_decide_eq_true ha).symm.trans (of_decide_eq_true hb)
  · cases ha

/-- A sub-reader that is created is not a map that expects a value or is at its end. -/
theorem expects_spawn (hs : List Handle) (p : Option Nat) (body : Body) (m : Nat)
    (alt : Alternation) (hnew : ∀ rest a, body = .map rest a → a ≠ alt) :
    expects (spawn hs p body) m alt = expects hs m alt := by
  by_cases hm : m < hs.length
  · exact expects_congr (body_at_spawn hs p body hm) alt
  · have hnone : body_at hs m = none := by
      unfold body_at
      rw [List.getElem?_eq_none (Nat.le_of_not_lt hm)]
      rfl
    rw [expects_none hnone]
    by_cases he : m = hs.length
    · subst he
      have hb := body_at_spawn_new hs p body
      cases body with
      | blob rest e => exact expects_blob hb alt
      | array rest e => exact expects_array hb alt
      | map rest a =>
        rw [expects_of_body_at hb]
        exact decide_eq_false (hnew rest a rfl)
    · apply expects_none
      unfold body_at
      rw [List.getElem?_eq_none (by rw [length_spawn]; omega)]
      rfl

theorem expects_hand_out (hs : List Handle) (p : Option Nat) (d : Doc) (m : Nat)
    (alt : Alternation) (halt : alt ≠ .expect_key) :
    expects (hand_out hs p d).2 m alt = expects hs m alt := by
  cases d with
  | scalar v => rfl
  | blob tag bytes =>
    cases tag <;> exact expects_spawn hs p _ m alt (fun _ _ e => nomatch e)
  | array elems => exact expects_spawn hs p _ m alt (fun _ _ e => nomatch e)
  | map pairs =>
    refine expects_spawn hs p _ m alt ?_
    intro rest a e
    cases e
    exact fun x => halt x.symm

/-- A call other than `read_key()` and `read_value()` on the map `m` does not make `m`
expect a value or be at its end, and does not undo it. -/
theorem expects_step (hs : List Handle) (op : Op) (m : Nat) (alt : Alternation)
    (hk : op ≠ .read_key m) (hv : op ≠ .read_value m) (halt : alt ≠ .expect_key) :
    expects (step hs op) m alt = expects hs m alt := by
  cases op with
  | read_buffer id n =>
    simp only [step]
    split
    · rename_i r h
      obtain ⟨bytes, id', hs'⟩ := r
      obtain ⟨parent, rest, hid, _, _, rfl⟩ := read_buffer_ok h
      simp only
      by_cases e : m = id
      · subst e
        rw [expects_blob (body_at_of_getElem? hid)]
        split
        · exact expects_blob (body_at_finish_self hid _) alt
        · exact expects_blob (body_at_set_self hid _) alt
      · split
        · exact expects_congr (body_at_finish hs _ _ e) alt
        · exact expects_congr (body_at_set_ne hs _ e) alt
    · rfl
  | seek id n =>
    simp only [step]
    split
    · rename_i r h
      obtain ⟨k, hs'⟩ := r
      obtain ⟨parent, rest, hid, _, rfl⟩ := seek_ok h
      simp only
      by_cases e : m = id
      · subst e
        rw [expects_blob (body_at_of_getElem? hid)]
        split
        · exact expects_blob (body_at_finish_self hid _) alt
        · exact expects_blob (body_at_set_self hid _) alt
      · split
        · exact expects_congr (body_at_finish hs _ _ e) alt
        · exact expects_congr (body_at_set_ne hs _ e) alt
    · rfl
  | read id =>
    simp only [step]
    split
    · rename_i r h
      obtain ⟨x, id', hs'⟩ := r
      obtain ⟨parent, rest, hid, _, hcase⟩ := read_ok h
      simp only
      by_cases e : m = id
      · subst e
        rw [expects_array (body_at_of_getElem? hid)]
        rcases hcase with ⟨_, _, rfl⟩ | ⟨d, ds, _, _, rfl⟩
        · exact expects_array (body_at_finish_self hid _) alt
        · rw [expects_hand_out _ _ _ _ _ halt]
          exact expects_array (body_at_set_self hid _) alt
      · rcases hcase with ⟨_, _, rfl⟩ | ⟨d, ds, _, _, rfl⟩
        · exact expects_congr (body_at_finish hs _ _ e) alt
        · rw [expects_hand_out _ _ _ _ _ halt]
          exact expects_congr (body_at_set_ne hs _ e) alt
    · rfl
  | read_key id =>
    have e : m ≠ id := fun e => hk (by rw [e])
    simp only [step]
    split
    · rename_i r h
      obtain ⟨x, id', hs'⟩ := r
      obtain ⟨parent, rest, hid, _, hcase⟩ := read_key_ok h
      simp only
      rcases hcase with ⟨_, _, rfl⟩ | ⟨k, v, ps, _, _, rfl⟩
      · exact expects_congr (body_at_finish hs _ _ e) alt
      · rw [expects_hand_out _ _ _ _ _ halt]
        exact expects_congr (body_at_set_ne hs _ e) alt
    · rfl
  | read_value id =>
    have e : m ≠ id := fun e => hv (by rw [e])
    simp only [step]
    split
    · rename_i r h
      obtain ⟨x, id', hs'⟩ := r
      obtain ⟨parent, k, v, ps, hid, _, _, rfl⟩ := read_value_ok h
      simp only
      rw [expects_hand_out _ _ _ _ _ halt]
      exact expects_congr (body_at_set_ne hs _ e) alt
    · rfl

/-- After an accepted `read_key()` the map expects a value or is at its end. -/
theorem expects_after_read_key {hs : List Handle} {m : Nat}
    (h : accepted hs (.read_key m) = true) :
    expects hs m .expect_key = true ∧
      (expects (step hs (.read_key m)) m .expect_value = true ∨
        expects (step hs (.read_key m)) m .done = true) := by
  simp only [accepted] at h
  split at h
  · rename_i r hr
    obtain ⟨x, id', hs'⟩ := r
    obtain ⟨parent, rest, hid, _, hcase⟩ := read_key_ok hr
    refine ⟨by rw [expects_of_getElem? hid]; rfl, ?_⟩
    simp only [step, hr]
    rcases hcase with ⟨rfl, _, rfl⟩ | ⟨k, v, ps, rfl, _, rfl⟩
    · right
      rw [expects_of_body_at (body_at_finish_self hid _)]
      rfl
    · left
      rw [expects_hand_out _ _ _ _ _ (by decide),
        expects_of_body_at (body_at_set_self hid _)]
      rfl
  · cases h

/-- An accepted `read_value()` is made on a map that expects a value, and leaves it
expecting a key. -/
theorem expects_after_read_value {hs : List Handle} {m : Nat}
    (h : accepted hs (.read_value m) = true) :
    expects hs m .expect_value = true ∧
      expects (step hs (.read_value m)) m .expect_value = false := by
  simp only [accepted] at h
  split at h
  · rename_i r hr
    obtain ⟨x, id', hs'⟩ := r
    obtain ⟨parent, k, v, ps, hid, _, _, rfl⟩ := read_value_ok hr
    refine ⟨by rw [expects_of_getElem? hid]; rfl, ?_⟩
    simp only [step, hr]
    rw [expects_hand_out _ _ _ _ _ (by decide), expects_of_body_at (body_at_set_self hid _)]
    rfl
  · cases h

/-- In a sequence of calls the checked reader accepts, the calls on each map alternate. -/
theorem alternates_of_all_accepted (m : Nat) : ∀ (ops : List Op) (hs : List Handle)
    (pending : Bool), all_accepted hs ops = true →
    (pending = false → expects hs m .expect_value = false) →
    (pending = true → expects hs m .expect_value = true ∨ expects hs m .done = true) →
      alternates m pending ops = true
  | [], _, _, _, _, _ => by rw [alternates]
  | op :: ops, hs, pending, h, hA, hB => by
    rw [all_accepted, Bool.and_eq_true] at h
    have other : op ≠ .read_key m → op ≠ .read_value m →
        alternates m pending ops = true := by
      intro hk hv
      refine alternates_of_all_accepted m ops (step hs op) pending h.2 ?_ ?_
      · intro hp
        rw [expects_step hs op m _ hk hv (by decide)]
        exact hA hp
      · intro hp
        rw [expects_step hs op m _ hk hv (by decide), expects_step hs op m _ hk hv (by decide)]
        exact hB hp
    cases op with
    | read_buffer id n => exact other (fun e => nomatch e) (fun e => nomatch e)
    | seek id n => exact other (fun e => nomatch e) (fun e => nomatch e)
    | read id => exact other (fun e => nomatch e) (fun e => nomatch e)
    | read_key id =>
      show (if id = m then !pending && alternates m true ops
        else alternates m pending ops) = true
      by_cases e : id = m
      · subst e
        rw [if_pos rfl]
        obtain ⟨hbefore, hafter⟩ := expects_after_read_key h.1
        have hp : pending = false := by
          cases pending with
          | false => rfl
          | true =>
            rcases hB rfl with hx | hx
            · exact nomatch expects_unique hbefore hx
            · exact nomatch expects_unique hbefore hx
        subst hp
        rw [alternates_of_all_accepted id ops _ true h.2 (fun x => nomatch x)
          (fun _ => hafter)]
        rfl
      · rw [if_neg e]
        exact other (fun x => e (Op.read_key.inj x)) (fun x => nomatch x)
    | read_value id =>
      show (if id = m then pending && alternates m false ops
        else alternates m pending ops) = true
      by_cases e : id = m
      · subst e
        rw [if_pos rfl]
        obtain ⟨hbefore, hafter⟩ := expects_after_read_value h.1
        have hp : pending = true := by
          cases pending with
          | true => rfl
          | false =>
            rw [hA rfl] at hbefore
            cases hbefore
        subst hp
        rw [alternates_of_all_accepted id ops _ false h.2 (fun _ => hafter)
          (fun x => nomatch x)]
        rfl
      · rw [if_neg e]
        exact other (fun x => nomatch x) (fun x => e (Op.read_value.inj x))

end checked

namespace checked

theorem expects_open_document (d : Doc) (m : Nat) :
    expects (open_document d).2 m .expect_value = false := by
  unfold open_document
  rw [expects_hand_out _ _ _ _ _ (by decide)]
  exact expects_none (show body_at [] m = none from rfl) .expect_value

/-- C17: the calls `copy_sax_document` makes on the reader comply with the one-live-child
and alternation rules, for every document `d`. Run with enough fuel over the checked
reader that records the calls made on it, on the top-level document read for `d`, the
copy returns, having written the events of `d`, and the recorded calls `ops` are such
that: each was accepted, none rejected with `library_misused`; each `read()`,
`read_key()` and `read_value()` was made on a parent all of whose children handed out
before were driven to their observed end, each `read_key()` on a map that expected a key
and each `read_value()` on a map that expected a value; on every map `m` the calls
`read_key()` and `read_value()` alternate, `read_key()` first; and in the end every
sub-reader handed out was driven to its end, so that the last `read_key()` on each map
returned `none` and every key before it was followed by one `read_value()`. -/
theorem copy_sax_document_complies (d : Doc) (fuel : Nat) (w : WriterId) (log : List Event)
    (hfuel : d.fuel ≤ fuel) :
    ∃ ops : List Op,
      copy_sax_document traced fuel w (open_document d).1 (((open_document d).2, []), log) =
        .ok ((run d ops, ops), log ++ d.events w) ∧
      all_accepted (open_document d).2 ops = true ∧
      complies (open_document d).2 ops = true ∧
      (∀ m : Nat, alternates m false ops = true) ∧
      (∀ h ∈ run d ops, h.body.finalized = true) := by
  obtain ⟨extra, hfin, key⟩ :=
    copy_sax_document_finalizes d fuel w log [] none hfuel (fun _ e => nomatch e)
  obtain ⟨ops, e, hrun, hacc⟩ :=
    (copy_traced fuel).1 w (hand_out [] none d).1 (hand_out [] none d).2 [] log _ key
  have hrun' : run d ops = extra := by
    rw [run, open_document]
    simpa using hrun
  refine ⟨ops, ?_, hacc, complies_of_all_accepted ops _ (inv_open_document d) hacc, ?_, ?_⟩
  · rw [hrun']
    simpa using e
  · intro m
    exact alternates_of_all_accepted m ops _ false hacc
      (fun _ => expects_open_document d m) (fun x => nomatch x)
  · rw [hrun']
    exact hfin

theorem copy_sax_document_complies_witness :
    map_in_array.fuel ≤ 13 ∧
    ∃ ops : List Op,
      copy_sax_document traced 13 [] (open_document map_in_array).1
          (((open_document map_in_array).2, []), []) =
        .ok ((run map_in_array ops, ops), [] ++ map_in_array.events []) ∧
      all_accepted (open_document map_in_array).2 ops = true ∧
      complies (open_document map_in_array).2 ops = true ∧
      (∀ m : Nat, alternates m false ops = true) ∧
      (∀ h ∈ run map_in_array ops, h.body.finalized = true) :=
  ⟨by decide, copy_sax_document_complies map_in_array 13 [] [] (by decide)⟩

/-- The calls `copy_sax_document` makes to copy the document `[{"a": 1, "b": 2}]`. -/
theorem copy_sax_document_calls_map_in_array :
    (copy_sax_document traced 13 [] (open_document map_in_array).1
        (((open_document map_in_array).2, []), [])).map (fun r => r.1.2) =
      .ok [.read 0, .read_key 1, .read_buffer 2 buffer_size, .read_value 1, .read_key 1,
        .read_buffer 3 buffer_size, .read_value 1, .read_key 1, .read 0] := rfl

end checked

/-! ## Proofs: `variant.h` -/

section variant_proofs
variable {K : Type} [DecidableEq K]

theorem index_of_lt {U : K} : ∀ {types : List K} {N : Nat},
    index_of U types = some N → N < types.length
  | [], N, h => by simp [index_of] at h
  | Head :: Tail, N, h => by
    unfold index_of at h
    by_cases e : U = Head
    · rw [if_pos e] at h
      cases h
      simp
    · rw [if_neg e] at h
      cases hi : index_of U Tail with
      | none => rw [hi] at h; cases h
      | some M =>
        rw [hi] at h
        cases h
        have := index_of_lt hi
        simp only [List.length_cons]
        omega

theorem nth_type_index_of {U : K} : ∀ {types : List K} {N : Nat},
    index_of U types = some N → nth_type N types = some U
  | [], N, h => by simp [index_of] at h
  | Head :: Tail, N, h => by
    unfold index_of at h
    by_cases e : U = Head
    · rw [if_pos e] at h
      cases h
      rw [e]
      rfl
    · rw [if_neg e] at h
      cases hi : index_of U Tail with
      | none => rw [hi] at h; cases h
      | some M =>
        rw [hi] at h
        cases h
        rw [Nat.add_comm]
        exact (nth_type_index_of hi : nth_type M Tail = some U)

theorem index_of_inj {U V : K} {types : List K} {N : Nat}
    (hU : index_of U types = some N) (hV : index_of V types = some N) : U = V := by
  have h1 := nth_type_index_of hU
  have h2 := nth_type_index_of hV
  rw [h1] at h2
  exact Option.some.inj h2

theorem index_of_cons_self (U : K) (Tail : List K) : index_of U (U :: Tail) = some 0 := by
  simp [index_of]

theorem nth_type_zero_index_of {types : List K} {T : K} (h : nth_type 0 types = some T) :
    index_of T types = some 0 := by
  cases types with
  | nil => simp [nth_type] at h
  | cons Head Tail =>
    simp only [nth_type, Option.some.injEq] at h
    rw [h]
    exact index_of_cons_self T Tail

namespace variant
variable {El : K → Type} {types : List K}

theorem add_constructors_eq (L : Layout K El) (all : List K) (U : K) (data : El U) :
    ∀ (rest : List K) (index : Nat),
      (add_constructors L all index rest U data : Option (variant El all)) =
        match index_of U rest with
        | some N => some (set_which L (index + N) (emplace L U data uninitialized))
        | none => none
  | [], index => rfl
  | head :: rest, index => by
    unfold add_constructors index_of
    by_cases e : U = head
    · simp [e]
    · rw [if_neg e, if_neg e, add_constructors_eq L all U data rest (index + 1)]
      cases index_of U rest with
      | none => rfl
      | some N => simp only [Nat.add_assoc]

/-- Construction from a value of the alternative type `U` of index `N`: the value is
stored, and the discriminant is written over the last byte of `m_data`. -/
theorem construct_eq (L : Layout K El) {U : K} {N : Nat} (h : index_of U types = some N)
    (data : El U) :
    (construct L U data : Option (variant El types)) =
      some ⟨some (stamp L types (N % 256) ⟨U, data⟩), N % 256⟩ := by
  unfold construct
  rw [add_constructors_eq, h]
  simp [set_which, emplace]

theorem Valid.which_lt {v : variant El types} (hv : Valid v) : v.which < types.length := by
  obtain ⟨x, _, hx⟩ := hv
  exact index_of_lt hx

theorem as_unchecked_of_valid {v : variant El types} {x : Σ T : K, El T}
    (hobj : v.object = some x) (hidx : index_of x.1 types = some v.which) :
    as_unchecked v.which v = some x := by
  unfold as_unchecked
  rw [if_pos rfl, nth_type_index_of hidx, hobj]
  simp

theorem as_unchecked_type_of_valid {v : variant El types} {x : Σ T : K, El T}
    (hobj : v.object = some x) (hidx : index_of x.1 types = some v.which) :
    as_unchecked_type x.1 v = some x := by
  unfold as_unchecked_type
  rw [hidx]
  exact as_unchecked_of_valid hobj hidx

theorem eval_of_valid (l : Visitor El) (Head : K) {v : variant El types} {x : Σ T : K, El T}
    (hobj : v.object = some x) (hidx : index_of x.1 types = some v.which) :
    eval l Head v.which v = some (l.convert x.1 Head (l.call x.1 x.2)) := by
  unfold eval
  rw [as_unchecked_of_valid hobj hidx]

/-- A visit of a variant that holds an alternative calls the entry of the table for that
alternative. -/
theorem visit_of_valid (l : Visitor El) (Head : K) (Tail : List K)
    {v : variant El (Head :: Tail)} {x : Σ T : K, El T}
    (hobj : v.object = some x) (hidx : index_of x.1 (Head :: Tail) = some v.which) :
    visit l v = some (l.convert x.1 Head (l.call x.1 x.2)) := by
  have hlt : v.which < (Head :: Tail).length := index_of_lt hidx
  unfold visit apply_helper
  simp only
  rw [List.getElem?_map, List.getElem?_range hlt]
  simp only [Option.map_some']
  exact eval_of_valid l Head hobj hidx

theorem visit_with_of_valid {R : Type} (f : (T : K) → El T → R)
    {v : variant El types} {x : Σ T : K, El T}
    (hobj : v.object = some x) (hidx : index_of x.1 types = some v.which) :
    visit_with f v = some (f x.1 x.2) := by
  cases types with
  | nil => simp [index_of] at hidx
  | cons Head Tail =>
    unfold visit_with
    exact visit_of_valid (Visitor.uniform R f) Head Tail hobj hidx

end variant
end variant_proofs

section variant_claims
variable {K : Type} [DecidableEq K]

namespace variant
variable {El : K → Type} {types : List K}

/-- C14: for every variant `v` that holds an alternative and every alternative index `N`,
the checked accessor `as<N>()` throws `bad_variant_access` if and only if
`v.which() != N`; when `v.which() == N` it returns the stored payload; and in either
case it writes nothing, the variant after the call being `v`. `as<T>()` is `as<N>()`
for the index `N` of `T`. -/
theorem as_throws_iff_other_alternative (v : variant El types) (N : Nat) (hv : Valid v) :
    (as N v = .throws .mk ↔ v.which ≠ N) ∧
    (v.which = N → ∃ x, v.object = some x ∧ as N v = .value (x, v)) ∧
    (∀ T, index_of T types = some N → as_type T v = as N v) := by
  refine ⟨?_, ?_, ?_⟩
  · unfold as
    by_cases h : v.which = N
    · simp only [h, ne_eq, not_true_eq_false, if_false, iff_false]
      cases as_unchecked N v <;> simp
    · simp [h]
  · intro h
    obtain ⟨x, hobj, hidx⟩ := hv
    refine ⟨x, hobj, ?_⟩
    subst h
    unfold as
    rw [if_neg (fun h => h rfl), as_unchecked_of_valid hobj hidx]
  · intro T hT
    unfold as_type
    rw [hT]

theorem as_throws_iff_other_alternative_witness :
    Valid Num.three_hundred ∧
    (as 0 Num.three_hundred = .throws .mk ↔ Num.three_hundred.which ≠ 0) ∧
    (Num.three_hundred.which = 1 →
      ∃ x, Num.three_hundred.object = some x ∧
        as 1 Num.three_hundred = .value (x, Num.three_hundred)) :=
  have hv : Valid Num.three_hundred := ⟨⟨.uint32_t, (300 : Nat)⟩, rfl, rfl⟩
  ⟨hv, (as_throws_iff_other_alternative Num.three_hundred 0 hv).1,
    (as_throws_iff_other_alternative Num.three_hundred 1 hv).2.1⟩

/-- C15, against the claim: on a `variant<uint8_t, uint32_t>` that holds the `uint32_t`
300, the visit with the callable that returns its argument returns 44, not the 300 the
callable returns on the payload: the result is converted to the result type of the
callable on the first alternative, `uint8_t`. -/
theorem visit_converts_to_first_result :
    visit Num.identity Num.three_hundred = some (44 : Nat) ∧
    Num.identity.call .uint32_t (300 : Nat) = (300 : Nat) :=
  ⟨rfl, rfl⟩

/-- C15, as amended: for every variant `v` whose active alternative has the index
`v.which()` of its type `T` and the payload `x`, and every callable `l`, `visit(l)` calls
the entry `v.which()` of its table, which applies `l` once, to `x` viewed as a `T`, and to
no other alternative; it returns `l(x)` converted to the result type of `l` on the first
alternative, which is `l(x)` itself when `l` has one result type on all alternatives. -/
theorem visit_dispatches_to_active_alternative (l : Visitor El) (Head : K) (Tail : List K)
    (v : variant El (Head :: Tail)) (T : K) (x : El T)
    (hobj : v.object = some ⟨T, x⟩) (hidx : index_of T (Head :: Tail) = some v.which) :
    visit l v = some (l.convert T Head (l.call T x)) ∧
    (List.range (Head :: Tail).length)[v.which]? = some v.which ∧
    eval l Head v.which v = some (l.convert T Head (l.call T x)) ∧
    (∀ N, N ≠ v.which → eval l Head N v = none) ∧
    (∀ (R : Type) (f : (T : K) → El T → R), visit (Visitor.uniform R f) v = some (f T x)) := by
  refine ⟨visit_of_valid l Head Tail hobj hidx, List.getElem?_range (index_of_lt hidx),
    eval_of_valid l Head hobj hidx, ?_, ?_⟩
  · intro N hN
    unfold eval as_unchecked
    rw [if_neg (fun h => hN h.symm)]
  · intro R f
    exact visit_of_valid (Visitor.uniform R f) Head Tail hobj hidx

theorem visit_dispatches_to_active_alternative_witness :
    Num.three_hundred.object = some ⟨.uint32_t, (300 : Nat)⟩ ∧
    index_of Num.uint32_t [Num.uint8_t, Num.uint32_t] = some Num.three_hundred.which ∧
    visit Num.identity Num.three_hundred =
      some (Num.identity.convert .uint32_t .uint8_t (Num.identity.call .uint32_t (300 : Nat))) ∧
    visit (Visitor.uniform Nat (fun (_ : Num) (x : Nat) => x + 1)) Num.three_hundred =
      some (301 : Nat) :=
  ⟨rfl, rfl,
    (visit_dispatches_to_active_alternative Num.identity .uint8_t [.uint32_t]
      Num.three_hundred .uint32_t (300 : Nat) rfl rfl).1,
    (visit_dispatches_to_active_alternative Num.identity .uint8_t [.uint32_t]
      Num.three_hundred .uint32_t (300 : Nat) rfl rfl).2.2.2.2 Nat
      (fun (_ : Num) (x : Nat) => x + 1)⟩

end variant
end variant_claims

section layout_proofs
variable {K : Type} {El : K → Type}

namespace variant

/-! ### The last byte of `m_data` and the object in it -/

theorem le_round_up (size align : Nat) : size ≤ round_up size align :=
  Nat.le_add_right _ _

theorem le_largest : ∀ (l : List Nat) (x : Nat), x ∈ l → ∃ m, largest l = some m ∧ x ≤ m
  | [], _, h => absurd h (List.not_mem_nil _)
  | [y], x, h => by
    rw [List.mem_singleton] at h
    exact ⟨y, rfl, Nat.le_of_eq h⟩
  | y :: z :: l, x, h => by
    obtain ⟨m, hm, hz⟩ := le_largest (z :: l) z (List.mem_cons_self _ _)
    simp only [largest, hm]
    refine ⟨_, rfl, ?_⟩
    rcases List.mem_cons.mp h with rfl | h
    · split <;> omega
    · obtain ⟨m', hm', hx⟩ := le_largest (z :: l) x h
      rw [hm] at hm'
      cases hm'
      split <;> omega

theorem stamp_fst (L : Layout K El) (types : List K) (b : Nat) (x : Σ T : K, El T) :
    (stamp L types b x).1 = x.1 := by
  unfold stamp
  split <;> rfl

theorem stamp_of_not_covers (L : Layout K El) {types : List K} (b : Nat)
    {x : Σ T : K, El T} (h : covers L types x.1 = false) : stamp L types b x = x := by
  unfold stamp
  rw [h]
  rfl

theorem stamp_of_covers (L : Layout K El) {types : List K} (b : Nat) {T : K} (x : El T)
    (h : covers L types T = true) :
    stamp L types b ⟨T, x⟩ = ⟨T, L.set_last_byte T b x⟩ := by
  unfold stamp
  rw [h]
  rfl

/-- An alternative that does not declare `padding_for_variant` is shorter than `m_data`:
`with_padding` gives it a byte of its own after the object. -/
theorem not_covers_of_not_declares (L : Layout K El) {types : List K} {T : K}
    (hT : T ∈ types) (hd : L.declares_padding_for_variant T = false) :
    covers L types T = false := by
  unfold covers
  cases hs : sizeof_m_data L types with
  | none => rfl
  | some size =>
    simp only [decide_eq_false_iff_not, Nat.not_le]
    unfold sizeof_m_data at hs
    obtain ⟨m, hm, hle⟩ := le_largest (types.map (sizeof_with_padding L))
      (sizeof_with_padding L T) (List.mem_map_of_mem _ hT)
    rw [hm] at hs
    cases ha : largest (types.map L.alignof) with
    | none => rw [ha] at hs; cases hs
    | some align =>
      rw [ha] at hs
      cases hs
      have h1 : L.sizeof T + 1 ≤ sizeof_with_padding L T := by
        unfold sizeof_with_padding
        rw [hd]
        exact le_round_up _ _
      have h2 := le_round_up m align
      omega

end variant
end layout_proofs

section variant_proofs2
variable {K : Type} [DecidableEq K]

namespace variant
variable {El : K → Type} {types : List K}

theorem mod_of_index {U : K} {N : Nat} (h255 : types.length < 255)
    (h : index_of U types = some N) : N % 256 = N :=
  Nat.mod_eq_of_lt (by have := index_of_lt h; omega)

theorem valid_mk {U : K} {N : Nat} (u : El U) (h : index_of U types = some N) :
    Valid (⟨some ⟨U, u⟩, N⟩ : variant El types) :=
  ⟨⟨U, u⟩, rfl, h⟩

theorem mem_of_index_of {U : K} : ∀ {types : List K} {N : Nat},
    index_of U types = some N → U ∈ types
  | [], _, h => by simp [index_of] at h
  | Head :: Tail, N, h => by
    by_cases e : U = Head
    · rw [e]
      exact List.mem_cons_self _ _
    · simp only [index_of, if_neg e] at h
      cases hi : index_of U Tail with
      | none => rw [hi] at h; cases h
      | some M => exact List.mem_cons_of_mem _ (mem_of_index_of hi)

theorem valid_stamp (L : Layout K El) {U : K} {N : Nat} (b : Nat) (u : El U)
    (h : index_of U types = some N) :
    Valid (⟨some (stamp L types b ⟨U, u⟩), N⟩ : variant El types) :=
  ⟨stamp L types b ⟨U, u⟩, rfl, by rw [stamp_fst]; exact h⟩

theorem destroy_of_valid (traits : Traits K) {v : variant El types} (hv : Valid v) :
    ∃ v', destroy traits v = some v' ∧ v'.last_byte = v.last_byte := by
  obtain ⟨x, hobj, hidx⟩ := hv
  unfold destroy
  split
  · exact ⟨v, rfl, rfl⟩
  · rw [visit_with_of_valid _ hobj hidx]
    exact ⟨_, rfl, rfl⟩

theorem safe_destroy_construct_of_valid (traits : Traits K) (L : Layout K El)
    {v : variant El types} (hv : Valid v) {U : K} {N : Nat} (h : index_of U types = some N)
    (u : El U) :
    safe_destroy_construct traits L U u v =
      some ⟨some (stamp L types (N % 256) ⟨U, u⟩), N % 256⟩ := by
  obtain ⟨v', hd, _⟩ := destroy_of_valid traits hv
  unfold safe_destroy_construct
  rw [hd, h]
  rfl

/-- Assignment of a value of the alternative `U` of index `N`, which does not reach the
last byte of `m_data`, to a variant that holds an alternative. -/
theorem assign_of_valid (traits : Traits K) (L : Layout K El) (h255 : types.length < 255)
    {v : variant El types} (hv : Valid v) {U : K} {N : Nat}
    (h : index_of U types = some N) (hc : covers L types U = false) (u : El U) :
    assign traits L U u v = some ⟨some ⟨U, u⟩, N⟩ := by
  have hmod := mod_of_index h255 h
  have hst : stamp L types N ⟨U, u⟩ = ⟨U, u⟩ := stamp_of_not_covers L N hc
  unfold assign
  rw [h]
  simp only
  split
  · rw [safe_destroy_construct_of_valid traits L hv h, hmod, hst]
  · split
    · rename_i hw
      obtain ⟨x, hobj, hidx⟩ := hv
      have hx : x.1 = U := index_of_inj hidx (hw ▸ h)
      obtain ⟨T, p⟩ := x
      simp only at hx
      subst hx
      rw [as_unchecked_type_of_valid hobj hidx]
      simp only [emplace, hc]
      cases v
      simp only [which] at hw
      subst hw
      rfl
    · rw [safe_destroy_construct_of_valid traits L hv h, hmod, hst]

/-- Copy assignment between variants that hold an alternative, the one of the right-hand
side not reaching the last byte of `m_data`. -/
theorem copy_assign_of_valid (traits : Traits K) (L : Layout K El)
    (h255 : types.length < 255) {rhs v : variant El types} (hv : Valid v) {T : K} {y : El T}
    (hobj : rhs.object = some ⟨T, y⟩) (hidx : index_of T types = some rhs.which)
    (hc : covers L types T = false) :
    copy_assign traits L rhs v = some ⟨some ⟨T, y⟩, rhs.which⟩ := by
  unfold copy_assign
  rw [visit_with_of_valid _ hobj hidx]
  exact assign_of_valid traits L h255 hv hidx hc y

theorem move_assign_of_valid (traits : Traits K) (L : Layout K El)
    (h255 : types.length < 255) {rhs v : variant El types} (hv : Valid v) {T : K} {y : El T}
    (hobj : rhs.object = some ⟨T, y⟩) (hidx : index_of T types = some rhs.which)
    (hc : covers L types T = false) :
    move_assign traits L rhs v = some ⟨some ⟨T, y⟩, rhs.which⟩ := by
  unfold move_assign
  rw [visit_with_of_valid _ hobj hidx]
  exact assign_of_valid traits L h255 hv hidx hc y

/-- Copy construction from a variant that holds an alternative gives one that holds the
same alternative, with the same discriminant. -/
theorem copy_construct_of_valid (traits : Traits K) (L : Layout K El)
    (h255 : types.length < 255) {rhs : variant El types} (hv : Valid rhs) :
    ∃ v, copy_construct traits L rhs = some v ∧ Valid v ∧ v.which = rhs.which := by
  obtain ⟨⟨T, y⟩, hobj, hidx⟩ := hv
  have hmod := mod_of_index h255 hidx
  unfold copy_construct
  split
  · exact ⟨_, rfl, ⟨⟨T, y⟩, hobj, hidx⟩, rfl⟩
  · split
    · refine ⟨_, rfl, ?_, ?_⟩
      · simp only [set_which, hobj, Option.map_some', hmod]
        exact valid_stamp L _ y hidx
      · exact hmod
    · rw [visit_with_of_valid _ hobj hidx]
      refine ⟨_, rfl, ?_, ?_⟩
      · simp only [set_which, emplace, Option.map_some', hmod]
        exact valid_stamp L _ y hidx
      · exact hmod

theorem move_construct_of_valid (traits : Traits K) (L : Layout K El)
    (h255 : types.length < 255) {rhs : variant El types} (hv : Valid rhs) :
    ∃ v, move_construct traits L rhs = some v ∧ Valid v ∧ v.which = rhs.which := by
  obtain ⟨⟨T, y⟩, hobj, hidx⟩ := hv
  have hmod := mod_of_index h255 hidx
  unfold move_construct
  split
  · exact ⟨_, rfl, ⟨⟨T, y⟩, hobj, hidx⟩, rfl⟩
  · split
    · refine ⟨_, rfl, ?_, ?_⟩
      · simp only [set_which, hobj, Option.map_some', hmod]
        exact valid_stamp L _ y hidx
      · exact hmod
    · rw [visit_with_of_valid _ hobj hidx]
      refine ⟨_, rfl, ?_, ?_⟩
      · simp only [set_which, emplace, Option.map_some', hmod]
        exact valid_stamp L _ y hidx
      · exact hmod

theorem payload_as_of_valid {b : variant El types} {T : K} {q : El T}
    (hobj : b.object = some ⟨T, q⟩) (hidx : index_of T types = some b.which) :
    payload_as T b = some q := by
  unfold payload_as
  rw [as_unchecked_type_of_valid (x := ⟨T, q⟩) hobj hidx]
  simp

/-- The comparisons of two variants that hold the same alternative. -/
theorem compare_same (eq lt : (T : K) → El T → El T → Bool) {a b : variant El types}
    {T : K} {p q : El T} (ha : a.object = some ⟨T, p⟩) (hb : b.object = some ⟨T, q⟩)
    (hia : index_of T types = some a.which) (hib : index_of T types = some b.which) :
    equal eq a b = some (eq T p q) ∧ less lt a b = some (lt T p q) := by
  have hw : a.which = b.which := Option.some.inj (hia.symm.trans hib)
  constructor
  · unfold equal
    rw [if_pos hw, visit_with_of_valid _ ha hia]
    simp only [payload_as_of_valid hb hib]
  · unfold less
    rw [if_pos hw, visit_with_of_valid _ ha hia]
    simp only [payload_as_of_valid hb hib]

/-- The comparisons of two variants with different discriminants. -/
theorem compare_other (eq lt : (T : K) → El T → El T → Bool) {a b : variant El types}
    (hw : a.which ≠ b.which) :
    equal eq a b = some false ∧ less lt a b = some (decide (a.which < b.which)) := by
  constructor
  · unfold equal
    rw [if_neg hw]
  · unfold less
    rw [if_neg hw]

end variant
end variant_proofs2

section variant_claims2
variable {K : Type} [DecidableEq K]

namespace variant
variable {El : K → Type} {types : List K}

theorem as_type_mk {U : K} {N : Nat} (u : El U) (h : index_of U types = some N) :
    as_type U (⟨some ⟨U, u⟩, N⟩ : variant El types) = .value (⟨U, u⟩, ⟨some ⟨U, u⟩, N⟩) := by
  unfold as_type as
  rw [h]
  simp only [which, ne_eq, not_true_eq_false, if_false]
  rw [show as_unchecked N (⟨some ⟨U, u⟩, N⟩ : variant El types) = some ⟨U, u⟩ from
    as_unchecked_of_valid (v := ⟨some ⟨U, u⟩, N⟩) rfl h]

theorem default_construct_eq (L : Layout K El) (init : (T : K) → El T) (Head : K)
    (Tail : List K) :
    (default_construct L init : Option (variant El (Head :: Tail))) =
      some ⟨some (stamp L (Head :: Tail) 0 ⟨Head, init Head⟩), 0⟩ := by
  unfold default_construct
  simp only [nth_type]
  rw [construct_eq L (index_of_cons_self Head Tail)]

/-- Apart from the assignment of a value whose object reaches the last byte of `m_data`,
every write leaves a variant that holds an alternative. In a `variant<types...>` (fewer
than 255 alternatives), default construction, construction from a value, copy and move
construction, and the assignment of a value or of a variant whose alternative does not
reach the last byte of `m_data`, give a variant that holds an alternative; such a
variant has `which()` strictly below the number of alternatives, `invalid_state::is` is
false for it, and `visit` indexes inside its table. `invalid_state::set` followed by
`invalid_state::is` on the same storage returns true. -/
theorem holds_alternative_after_write (traits : Traits K) (L : Layout K El)
    (h255 : types.length < 255) :
    (∀ (init : (T : K) → El T), types ≠ [] →
      ∃ v : variant El types, default_construct L init = some v ∧ Valid v) ∧
    (∀ (U : K) (N : Nat) (data : El U), index_of U types = some N →
      ∃ v : variant El types, construct L U data = some v ∧ Valid v) ∧
    (∀ rhs : variant El types, Valid rhs →
      (∃ v, copy_construct traits L rhs = some v ∧ Valid v) ∧
      (∃ v, move_construct traits L rhs = some v ∧ Valid v)) ∧
    (∀ (v0 : variant El types) (U : K) (N : Nat) (u : El U), Valid v0 →
      index_of U types = some N → covers L types U = false →
      ∃ v, assign traits L U u v0 = some v ∧ Valid v) ∧
    (∀ (rhs v0 : variant El types) (T : K) (y : El T), rhs.object = some ⟨T, y⟩ →
      index_of T types = some rhs.which → Valid v0 → covers L types T = false →
      (∃ v, copy_assign traits L rhs v0 = some v ∧ Valid v) ∧
      (∃ v, move_assign traits L rhs v0 = some v ∧ Valid v)) ∧
    (∀ v : variant El types, Valid v →
      v.which < types.length ∧ invalid_state.is v = false ∧
      (List.range types.length)[v.which]? = some v.which) ∧
    (∀ data : variant El types, invalid_state.is (invalid_state.set L data) = true) := by
  refine ⟨?_, ?_, ?_, ?_, ?_, ?_, ?_⟩
  · intro init hne
    cases types with
    | nil => exact (hne rfl).elim
    | cons Head Tail =>
      exact ⟨_, default_construct_eq L init Head Tail,
        valid_stamp L 0 (init Head) (index_of_cons_self Head Tail)⟩
  · intro U N data h
    refine ⟨_, construct_eq L h data, ?_⟩
    rw [mod_of_index h255 h]
    exact valid_stamp L N data h
  · intro rhs hv
    obtain ⟨v, h1, h2, _⟩ := copy_construct_of_valid traits L h255 hv
    obtain ⟨v', h1', h2', _⟩ := move_construct_of_valid traits L h255 hv
    exact ⟨⟨v, h1, h2⟩, ⟨v', h1', h2'⟩⟩
  · intro v0 U N u hv h hc
    exact ⟨_, assign_of_valid traits L h255 hv h hc u, valid_mk u h⟩
  · intro rhs v0 T y hobj hidx hv hc
    exact ⟨⟨_, copy_assign_of_valid traits L h255 hv hobj hidx hc, valid_mk y hidx⟩,
      ⟨_, move_assign_of_valid traits L h255 hv hobj hidx hc, valid_mk y hidx⟩⟩
  · intro v hv
    have hlt := hv.which_lt
    refine ⟨hlt, ?_, List.getElem?_range hlt⟩
    simp only [invalid_state.is, decide_eq_false_iff_not]
    exact Nat.ne_of_lt hlt
  · intro data
    simp only [invalid_state.is, invalid_state.set, decide_eq_true_eq]
    exact Nat.mod_eq_of_lt (by omega)

/-- C16, the failing input: a `variant<NT, Q>` that holds a `Q` (discriminant 1) is
assigned a `Q` whose last byte is 2. `NT` is not trivially destructible and the variant
holds a `Q` already, so `operator =` takes the branch `as_unchecked<Q>() = u`, which
copies every byte of `u` and does not call `set_which`: the discriminant becomes 2, the
number of alternatives, `invalid_state::is` is true of the variant, and `visit` indexes
past the end of its table. The sibling branch `safe_destroy_construct`, which calls
`set_which` after the write, leaves the discriminant 1 on the same input. -/
theorem assignment_of_same_alternative_overwrites_discriminant :
    Valid Pad.five ∧ Pad.five.which = 1 ∧
    (∃ v : variant Pad.El [Pad.NT, Pad.Q],
      assign Pad.traits Pad.layout .Q ((7, 2) : Nat × Nat) Pad.five = some v ∧
      v.which = 2 ∧ v.which = [Pad.NT, Pad.Q].length ∧ invalid_state.is v = true ∧
      (List.range [Pad.NT, Pad.Q].length)[v.which]? = none ∧
      visit_with (fun _ _ => ()) v = none) ∧
    (∃ v : variant Pad.El [Pad.NT, Pad.Q],
      safe_destroy_construct Pad.traits Pad.layout .Q ((7, 2) : Nat × Nat) Pad.five = some v ∧
      v.which = 1) :=
  ⟨⟨⟨.Q, ((5, 1) : Nat × Nat)⟩, rfl, rfl⟩, rfl, ⟨_, rfl, rfl, rfl, rfl, rfl, rfl⟩, ⟨_, rfl, rfl⟩⟩

/-- C18, against the claim: a `variant<uint8_t, Q>` constructed from the `Q` with the
members 200 and 77 has `which() == 1`, and `as<Q>()` returns the `Q` with the members 200
and 1, not the value it was constructed from: `Q` declares `padding_for_variant` and is as
large as `m_data`, so `set_which(1)` wrote its last byte. -/
theorem construct_overwrites_last_byte_of_padded_type :
    Pad.layout.declares_padding_for_variant .Q = true ∧
    sizeof_m_data Pad.layout [Pad.uint8_t, Pad.Q] = some 2 ∧
    ∃ v : variant Pad.El [Pad.uint8_t, Pad.Q],
      construct Pad.layout .Q ((200, 77) : Nat × Nat) = some v ∧ v.which = 1 ∧
      as_type .Q v = .value (⟨.Q, ((200, 1) : Nat × Nat)⟩, v) ∧
      ((200, 1) : Nat × Nat) ≠ (200, 77) :=
  ⟨rfl, rfl, _, rfl, rfl, rfl, by decide⟩

/-- C18, as amended: in a `variant<types...>` (fewer than 255 alternatives), for every
alternative type `T` of index `i` and every value `x` of `T`, the variant constructed
from `x` has `which() == i`, `is<U>()` is true for an alternative `U` exactly when `U` is
`T`, and `as<T>()` returns `x` when `T` does not declare `padding_for_variant`; when an
object of the type `T` reaches the last byte of `m_data`, `as<T>()` returns `x` with its
last byte overwritten by `i`. The default-constructed variant holds the
value-initialized first alternative, under the same proviso for its last byte, with
`which() == 0`. -/
theorem construct_then_access (L : Layout K El) (h255 : types.length < 255) (T : K) (i : Nat)
    (x : El T) (hT : index_of T types = some i) :
    (∃ v : variant El types, construct L T x = some v ∧ v.which = i ∧
      (∀ (U : K) (N : Nat), index_of U types = some N → (is U v = some true ↔ U = T)) ∧
      (L.declares_padding_for_variant T = false → as_type T v = .value (⟨T, x⟩, v)) ∧
      (covers L types T = false → as_type T v = .value (⟨T, x⟩, v)) ∧
      (covers L types T = true →
        as_type T v = .value (⟨T, L.set_last_byte T i x⟩, v))) ∧
    (∀ (init : (T : K) → El T) (Head : K) (Tail : List K), types = Head :: Tail →
      ∃ d : variant El types, default_construct L init = some d ∧ d.which = 0 ∧
        (L.declares_padding_for_variant Head = false → d.object = some ⟨Head, init Head⟩) ∧
        (covers L types Head = false → d.object = some ⟨Head, init Head⟩) ∧
        (covers L types Head = true →
          d.object = some ⟨Head, L.set_last_byte Head 0 (init Head)⟩)) := by
  have hmod := mod_of_index h255 hT
  constructor
  · refine ⟨⟨some (stamp L types i ⟨T, x⟩), i⟩, ?_, rfl, ?_, ?_, ?_, ?_⟩
    · rw [construct_eq L hT, hmod]
    · intro U N hU
      unfold is
      rw [hU]
      simp only [which, Option.some.injEq, decide_eq_true_eq]
      constructor
      · intro h
        subst h
        exact index_of_inj hU hT
      · intro h
        subst h
        exact Option.some.inj (hT.symm.trans hU)
    · intro hd
      rw [stamp_of_not_covers L i (not_covers_of_not_declares L (mem_of_index_of hT) hd)]
      exact as_type_mk x hT
    · intro hc
      rw [stamp_of_not_covers L i hc]
      exact as_type_mk x hT
    · intro hc
      rw [stamp_of_covers L i x hc]
      exact as_type_mk _ hT
  · intro init Head Tail h
    subst h
    refine ⟨_, default_construct_eq L init Head Tail, rfl, ?_, ?_, ?_⟩
    · intro hd
      rw [stamp_of_not_covers L 0
        (not_covers_of_not_declares L (List.mem_cons_self Head Tail) hd)]
    · intro hc
      rw [stamp_of_not_covers L 0 hc]
    · intro hc
      rw [stamp_of_covers L 0 (init Head) hc]

theorem construct_then_access_witness :
    [Num.uint8_t, Num.uint32_t].length < 255 ∧
    index_of Num.uint32_t [Num.uint8_t, Num.uint32_t] = some 1 ∧
    ∃ v : variant Num.El [Num.uint8_t, Num.uint32_t],
      construct Num.layout Num.uint32_t (300 : Nat) = some v ∧ v.which = 1 ∧
      (∀ (U : Num) (N : Nat), index_of U [Num.uint8_t, Num.uint32_t] = some N →
        (is U v = some true ↔ U = Num.uint32_t)) ∧
      (Num.layout.declares_padding_for_variant Num.uint32_t = false →
        as_type Num.uint32_t v = .value (⟨Num.uint32_t, (300 : Nat)⟩, v)) ∧
      (covers Num.layout [Num.uint8_t, Num.uint32_t] Num.uint32_t = false →
        as_type Num.uint32_t v = .value (⟨Num.uint32_t, (300 : Nat)⟩, v)) ∧
      (covers Num.layout [Num.uint8_t, Num.uint32_t] Num.uint32_t = true →
        as_type Num.uint32_t v =
          .value (⟨Num.uint32_t, Num.layout.set_last_byte Num.uint32_t 1 (300 : Nat)⟩, v)) :=
  ⟨by decide, rfl,
    (@construct_then_access Num _ Num.El [Num.uint8_t, Num.uint32_t] Num.layout (by decide)
      Num.uint32_t 1 (300 : Nat) rfl).1⟩

end variant
end variant_claims2

section variant_claims3
variable {K : Type} [DecidableEq K]

namespace variant
variable {El : K → Type} {types : List K}

theorem exactly_one_of_tri {p q r : Bool}
    (h : (p = true ∧ q = false ∧ r = false) ∨ (p = false ∧ q = true ∧ r = false) ∨
      (p = false ∧ q = false ∧ r = true)) :
    ((some p = some true ∧ some q ≠ some true ∧ some r ≠ some true) ∨
     (some p ≠ some true ∧ some q = some true ∧ some r ≠ some true) ∨
     (some p ≠ some true ∧ some q ≠ some true ∧ some r = some true)) := by
  rcases h with ⟨rfl, rfl, rfl⟩ | ⟨rfl, rfl, rfl⟩ | ⟨rfl, rfl, rfl⟩ <;> simp

/-- The comparisons of two variants that hold an alternative and have the same
discriminant are those of their payloads, which have the same type. -/
theorem compare_same_which (eq lt : (T : K) → El T → El T → Bool) {a b : variant El types}
    (ha : Valid a) (hb : Valid b) (hw : a.which = b.which) :
    ∃ (T : K) (p q : El T), T ∈ types ∧ a.object = some ⟨T, p⟩ ∧ b.object = some ⟨T, q⟩ ∧
      equal eq a b = some (eq T p q) ∧ less lt a b = some (lt T p q) := by
  obtain ⟨⟨Ta, p⟩, hoa, hia⟩ := ha
  obtain ⟨⟨Tb, q⟩, hob, hib⟩ := hb
  simp only at hia hib
  have hT : Tb = Ta := index_of_inj hib (hw ▸ hia)
  subst hT
  exact ⟨Tb, p, q, mem_of_index_of hia, hoa, hob, compare_same eq lt hoa hob hia hib⟩

/-- C20: for variants `a`, `b`, `c` that hold an alternative, comparison is by
discriminant first, then payload. With different discriminants `a == b` is false and
`a < b` is `a.which() < b.which()`; with equal discriminants both hold the same
alternative type and `a == b`, `a < b` are `==`, `<` of their payloads. So `a == b`
holds exactly when the discriminants are equal and the payloads are equal, and `a < b`
exactly when `a.which() < b.which()`, or the discriminants are equal and the payload of
`a` is less than that of `b`. Consequently, when `<` of every alternative type is
transitive and exactly one of `x < y`, `x == y`, `y < x` holds for its values, `<` of the
variant is irreflexive and transitive and exactly one of `a < b`, `a == b`, `b < a`
holds. -/
theorem comparison_by_discriminant_then_payload (eq lt : (T : K) → El T → El T → Bool)
    (a b c : variant El types) (ha : Valid a) (hb : Valid b) (hc : Valid c) :
    (a.which ≠ b.which →
      equal eq a b = some false ∧ less lt a b = some (decide (a.which < b.which))) ∧
    (a.which = b.which → ∃ (T : K) (p q : El T),
      a.object = some ⟨T, p⟩ ∧ b.object = some ⟨T, q⟩ ∧
      equal eq a b = some (eq T p q) ∧ less lt a b = some (lt T p q)) ∧
    (equal eq a b = some true ↔
      a.which = b.which ∧ ∃ (T : K) (p q : El T),
        a.object = some ⟨T, p⟩ ∧ b.object = some ⟨T, q⟩ ∧ eq T p q = true) ∧
    (less lt a b = some true ↔
      a.which < b.which ∨ (a.which = b.which ∧ ∃ (T : K) (p q : El T),
        a.object = some ⟨T, p⟩ ∧ b.object = some ⟨T, q⟩ ∧ lt T p q = true)) ∧
    ((∀ T ∈ types, ∀ x y z : El T, lt T x y = true → lt T y z = true → lt T x z = true) →
     (∀ T ∈ types, ∀ x y : El T,
        (lt T x y = true ∧ eq T x y = false ∧ lt T y x = false) ∨
        (lt T x y = false ∧ eq T x y = true ∧ lt T y x = false) ∨
        (lt T x y = false ∧ eq T x y = false ∧ lt T y x = true)) →
      less lt a a = some false ∧
      (less lt a b = some true → less lt b c = some true → less lt a c = some true) ∧
      ((less lt a b = some true ∧ equal eq a b ≠ some true ∧ less lt b a ≠ some true) ∨
       (less lt a b ≠ some true ∧ equal eq a b = some true ∧ less lt b a ≠ some true) ∨
       (less lt a b ≠ some true ∧ equal eq a b ≠ some true ∧ less lt b a = some true))) := by
  refine ⟨fun hw => compare_other eq lt hw, ?_, ?_, ?_, ?_⟩
  · intro hw
    obtain ⟨T, p, q, _, hoa, hob, h⟩ := compare_same_which eq lt ha hb hw
    exact ⟨T, p, q, hoa, hob, h⟩
  · constructor
    · intro h
      by_cases hw : a.which = b.which
      · obtain ⟨T, p, q, _, hoa, hob, he, _⟩ := compare_same_which eq lt ha hb hw
        rw [he] at h
        exact ⟨hw, T, p, q, hoa, hob, Option.some.inj h⟩
      · rw [(compare_other eq lt hw).1] at h
        cases h
    · rintro ⟨hw, T, p, q, hoa, hob, he⟩
      obtain ⟨T', p', q', _, hoa', hob', he', _⟩ := compare_same_which eq lt ha hb hw
      rw [hoa] at hoa'
      cases hoa'
      rw [hob] at hob'
      cases hob'
      rw [he', he]
  · constructor
    · intro h
      by_cases hw : a.which = b.which
      · obtain ⟨T, p, q, _, hoa, hob, _, hl⟩ := compare_same_which eq lt ha hb hw
        rw [hl] at h
        exact Or.inr ⟨hw, T, p, q, hoa, hob, Option.some.inj h⟩
      · rw [(compare_other eq lt hw).2] at h
        exact Or.inl (of_decide_eq_true (Option.some.inj h))
    · rintro (hlt | ⟨hw, T, p, q, hoa, hob, hl⟩)
      · rw [(compare_other eq lt (Nat.ne_of_lt hlt)).2]
        exact congrArg some (decide_eq_true hlt)
      · obtain ⟨T', p', q', _, hoa', hob', _, hl'⟩ := compare_same_which eq lt ha hb hw
        rw [hoa] at hoa'
        cases hoa'
        rw [hob] at hob'
        cases hob'
        rw [hl', hl]
  · intro htrans htri
    have hirr : ∀ T ∈ types, ∀ x : El T, lt T x x = false := by
      intro T hT x
      rcases htri T hT x x with ⟨h1, _, h3⟩ | ⟨h1, _, _⟩ | ⟨h1, _, _⟩
      · rw [h1] at h3; cases h3
      · exact h1
      · exact h1
    refine ⟨?_, ?_, ?_⟩
    · obtain ⟨T, p, q, hT, hoa, hob, _, hl⟩ := compare_same_which eq lt ha ha rfl
      rw [hoa] at hob
      cases hob
      rw [hl, hirr T hT]
    · intro hab hbc
      by_cases h1 : a.which = b.which
      · obtain ⟨T, p, q, hT, hoa, hob, _, hl⟩ := compare_same_which eq lt ha hb h1
        rw [hl] at hab
        by_cases h2 : b.which = c.which
        · obtain ⟨T', q', r, _, hob', hoc, _, hl'⟩ := compare_same_which eq lt hb hc h2
          rw [hob] at hob'
          cases hob'
          rw [hl'] at hbc
          obtain ⟨T'', p'', r'', _, hoa'', hoc'', _, hl''⟩ :=
            compare_same_which eq lt ha hc (h1.trans h2)
          rw [hoa] at hoa''
          cases hoa''
          rw [hoc] at hoc''
          cases hoc''
          rw [hl'']
          exact congrArg some (htrans T hT p q r (Option.some.inj hab) (Option.some.inj hbc))
        · rw [(compare_other eq lt h2).2] at hbc
          have h3 : a.which ≠ c.which := fun e => h2 (h1.symm.trans e)
          rw [(compare_other eq lt h3).2, h1]
          exact hbc
      · rw [(compare_other eq lt h1).2] at hab
        have hlt1 : a.which < b.which := of_decide_eq_true (Option.some.inj hab)
        by_cases h2 : b.which = c.which
        · have h3 : a.which ≠ c.which := fun e => h1 (e.trans h2.symm)
          rw [(compare_other eq lt h3).2, ← h2]
          exact hab
        · rw [(compare_other eq lt h2).2] at hbc
          have hlt2 : b.which < c.which := of_decide_eq_true (Option.some.inj hbc)
          have h3 : a.which ≠ c.which := by omega
          rw [(compare_other eq lt h3).2]
          exact congrArg some (decide_eq_true (Nat.lt_trans hlt1 hlt2))
    · by_cases h1 : a.which = b.which
      · obtain ⟨T, p, q, hT, hoa, hob, he, hl⟩ := compare_same_which eq lt ha hb h1
        obtain ⟨T', q', p', _, hob', hoa', _, hl'⟩ := compare_same_which eq lt hb ha h1.symm
        rw [hoa] at hoa'
        cases hoa'
        rw [hob] at hob'
        cases hob'
        rw [hl, he, hl']
        exact exactly_one_of_tri (htri T hT p q)
      · have h2 : b.which ≠ a.which := fun e => h1 e.symm
        rw [(compare_other eq lt h1).2, (compare_other eq lt h1).1,
          (compare_other eq lt h2).2]
        rcases Nat.lt_or_gt_of_ne h1 with h | h
        · left
          have h' : ¬ b.which < a.which := by omega
          simp [h, h']
        · right; right
          have h' : ¬ a.which < b.which := by omega
          simp [h, h']

theorem Num.lt_trans_values (T : Num) (x y z : Num.El T) :
    Num.lt T x y = true → Num.lt T y z = true → Num.lt T x z = true := by
  simp only [Num.lt, Nat.blt_eq]
  exact fun h1 h2 => Nat.lt_trans h1 h2

theorem Num.nat_beq_blt_tri (x y : Nat) :
    (Nat.blt x y = true ∧ Nat.beq x y = false ∧ Nat.blt y x = false) ∨
    (Nat.blt x y = false ∧ Nat.beq x y = true ∧ Nat.blt y x = false) ∨
    (Nat.blt x y = false ∧ Nat.beq x y = false ∧ Nat.blt y x = true) := by
  have e : ∀ a b : Nat, ¬ a = b → Nat.beq a b = false := by
    intro a b h
    cases hb : Nat.beq a b with
    | false => rfl
    | true => exact (h (Nat.eq_of_beq_eq_true hb)).elim
  have l : ∀ a b : Nat, ¬ a < b → Nat.blt a b = false := by
    intro a b h
    cases hb : Nat.blt a b with
    | false => rfl
    | true => exact (h (Nat.blt_eq.mp hb)).elim
  rcases Nat.lt_trichotomy x y with h | h | h
  · exact Or.inl ⟨Nat.blt_eq.mpr h, e x y (by omega), l y x (by omega)⟩
  · subst h
    exact Or.inr (Or.inl ⟨l x x (by omega), Nat.beq_refl x, l x x (by omega)⟩)
  · exact Or.inr (Or.inr ⟨l x y (by omega), e x y (by omega), Nat.blt_eq.mpr h⟩)

theorem comparison_by_discriminant_then_payload_witness :
    Valid Num.seven ∧ Valid Num.three_hundred ∧
    (Num.seven.which ≠ Num.three_hundred.which →
      equal Num.eq Num.seven Num.three_hundred = some false ∧
      less Num.lt Num.seven Num.three_hundred =
        some (decide (Num.seven.which < Num.three_hundred.which))) ∧
    (less Num.lt Num.three_hundred Num.three_hundred = some true ↔
      Num.three_hundred.which < Num.three_hundred.which ∨
      (Num.three_hundred.which = Num.three_hundred.which ∧ ∃ (T : Num) (p q : Num.El T),
        Num.three_hundred.object = some ⟨T, p⟩ ∧ Num.three_hundred.object = some ⟨T, q⟩ ∧
        Num.lt T p q = true)) ∧
    (less Num.lt Num.seven Num.seven = some false ∧
      (less Num.lt Num.seven Num.three_hundred = some true →
        less Num.lt Num.three_hundred Num.seven = some true →
        less Num.lt Num.seven Num.seven = some true) ∧
      ((less Num.lt Num.seven Num.three_hundred = some true ∧
          equal Num.eq Num.seven Num.three_hundred ≠ some true ∧
          less Num.lt Num.three_hundred Num.seven ≠ some true) ∨
       (less Num.lt Num.seven Num.three_hundred ≠ some true ∧
          equal Num.eq Num.seven Num.three_hundred = some true ∧
          less Num.lt Num.three_hundred Num.seven ≠ some true) ∨
       (less Num.lt Num.seven Num.three_hundred ≠ some true ∧
          equal Num.eq Num.seven Num.three_hundred ≠ some true ∧
          less Num.lt Num.three_hundred Num.seven = some true))) :=
  have hs : Valid Num.seven := ⟨⟨.uint8_t, (7 : Nat)⟩, rfl, rfl⟩
  have ht : Valid Num.three_hundred := ⟨⟨.uint32_t, (300 : Nat)⟩, rfl, rfl⟩
  ⟨hs, ht,
    (comparison_by_discriminant_then_payload Num.eq Num.lt
      Num.seven Num.three_hundred Num.seven hs ht hs).1,
    (comparison_by_discriminant_then_payload Num.eq Num.lt
      Num.three_hundred Num.three_hundred Num.seven ht ht hs).2.2.2.1,
    (comparison_by_discriminant_then_payload Num.eq Num.lt
      Num.seven Num.three_hundred Num.seven hs ht hs).2.2.2.2
      (fun T _ => Num.lt_trans_values T) (fun _ _ x y => Num.nat_beq_blt_tri x y)⟩

end variant
end variant_claims3

end goldfish
